import Mathlib

/-!
# A verification development for the jellyzset sorted-set library

This file gives a shallow embedding of the Go package `jellyzset`
(`src/jellyzset.go`) and proves properties of its operations.

Modelling conventions, fixed once and used throughout:

* Go pointers to skip-list nodes become stable integer ids into an arena
  (`Zskiplist.nodes`, a list indexed by id).  A nil pointer becomes `none`.
  The head sentinel is always id `0` (`Zskiplist.head`); Go never reassigns
  the head pointer.  Nodes removed from the list simply stay in the arena
  unreferenced, exactly as an unreachable Go heap object would.
* `float64` scores become `ℚ` (`Score`).  The Go code never performs score
  arithmetic, it only compares scores with `<`, `==`, `>`.
* `uint64` span/length arithmetic is modelled on `Nat`.  The only Go
  subtractions that can underflow (`span--`, `span + span - 1`,
  `span - (rank0 - rankL)`) hit span fields of links whose `forward`
  pointer is nil; the structural invariant `Represents` leaves those span
  values unconstrained, so truncated `Nat` subtraction and wrapping
  `uint64` subtraction model the same set of observable behaviours.
* `interface{}` payload values become `Val` (strings); no operation
  inspects a payload.
* `getRandomLevel` is a random oracle: every operation that inserts takes
  the drawn level as an extra argument `lvl`, and theorems quantify over
  all draws with `1 ≤ lvl ≤ SkipListMaxLvl`.
* Go's `[]interface{}` results that interleave members and scores become
  `List RItem` (for the rank-range queries) or `List (String × Score)`
  (for the score-range queries, which always append member/score pairs).
* A Go runtime panic (nil-pointer dereference) is modelled by returning
  `none` from an `Option`-valued function.
-/

set_option linter.unusedVariables false

abbrev Score := ℚ
abbrev Val := String

/-- Maximum level for the skip list (`SkipListMaxLvl = 32` in the source). -/
def SkipListMaxLvl : Nat := 32

/-- One level of a node: `forward` pointer and `span`
(Go struct `zslLevel`). -/
structure ZslLevel where
  forward : Option Nat
  span : Nat
deriving Repr, DecidableEq

instance : Inhabited ZslLevel := ⟨⟨none, 0⟩⟩

/-- A skip-list node (Go struct `zslNode`); `level` is the per-level link
array. -/
structure ZslNode where
  member : String
  value : Val
  score : Score
  backwards : Option Nat
  level : List ZslLevel
deriving Repr, DecidableEq

instance : Inhabited ZslNode := ⟨⟨"", "", 0, none, []⟩⟩

/-- The skip list (Go struct `zskiplist`).  `nodes` is the pointer arena:
ids index into it, the head sentinel is id 0. -/
structure Zskiplist where
  nodes : List ZslNode
  head : Nat
  tail : Option Nat
  length : Nat
  level : Nat
deriving Repr, DecidableEq

/-- Dereference a node id (a Go pointer dereference). -/
def Zskiplist.node (z : Zskiplist) (i : Nat) : ZslNode :=
  z.nodes.getD i default

/-- Read one level record of a node (`n.level[l]`). -/
def ZslNode.levelAt (n : ZslNode) (l : Nat) : ZslLevel :=
  n.level.getD l default

/-- Write through a node pointer (`*p = n`). -/
def Zskiplist.setNode (z : Zskiplist) (i : Nat) (n : ZslNode) : Zskiplist :=
  { z with nodes := z.nodes.set i n }

/-- `n.level[l] = lv` on a node value. -/
def ZslNode.setLevel (n : ZslNode) (l : Nat) (lv : ZslLevel) : ZslNode :=
  { n with level := n.level.set l lv }

/-- `p.level[l] = lv` through a pointer. -/
def Zskiplist.setLevelOf (z : Zskiplist) (i l : Nat) (lv : ZslLevel) : Zskiplist :=
  z.setNode i ((z.node i).setLevel l lv)

/-- `p.level[l].span = s` through a pointer. -/
def Zskiplist.setSpan (z : Zskiplist) (i l s : Nat) : Zskiplist :=
  z.setLevelOf i l ⟨((z.node i).levelAt l).forward, s⟩

/-- `p.backwards = b` through a pointer. -/
def Zskiplist.setBackwards (z : Zskiplist) (i : Nat) (b : Option Nat) : Zskiplist :=
  z.setNode i { z.node i with backwards := b }

/-- `createNode` (source lines 102-115): fresh node, all levels zeroed. -/
def createNode (level : Nat) (score : Score) (member : String) (value : Val) : ZslNode :=
  { member := member, value := value, score := score, backwards := none,
    level := List.replicate level ⟨none, 0⟩ }

/-- `newZSkipList` (source lines 118-125): head sentinel at max height,
`tail` initially the head itself. -/
def newZSkipList : Zskiplist :=
  { nodes := [createNode SkipListMaxLvl 0 "" ""],
    head := 0, tail := some 0, length := 0, level := 1 }

/-- Go string comparison on the underlying character lists.  Go compares
strings byte-lexicographically; for UTF-8 data byte order and codepoint
order coincide, so comparing `Char.toNat` codepoints is the same
relation. -/
def charListLt : List Char → List Char → Bool
  | _, [] => false
  | [], _ :: _ => true
  | c :: cs, d :: ds =>
    decide (c.toNat < d.toNat) || (c.toNat == d.toNat && charListLt cs ds)

/-- `m1 < m2` on Go strings. -/
def strLt (m1 m2 : String) : Bool := charListLt m1.data m2.data

/-- The comparison used by every traversal:
`fwd.score < score || (fwd.score == score && fwd.member < member)`. -/
def keyLt (s1 : Score) (m1 : String) (s2 : Score) (m2 : String) : Bool :=
  decide (s1 < s2) || (s1 == s2 && strLt m1 m2)

/-- The inner `for` loop of `insert` (source lines 873-879): advance at
level `l` while the next node compares `keyLt` below the target,
accumulating `rank += span`.  `fuel` bounds the walk; callers pass the
arena size, which exceeds the length of any forward chain. -/
def walkRank (z : Zskiplist) (score : Score) (member : String) (l : Nat) :
    Nat → Nat → Nat → Nat × Nat
  | 0, x, rank => (x, rank)
  | fuel+1, x, rank =>
    match ((z.node x).levelAt l).forward with
    | none => (x, rank)
    | some nxt =>
      if keyLt (z.node nxt).score (z.node nxt).member score member then
        walkRank z score member l fuel nxt (rank + ((z.node x).levelAt l).span)
      else (x, rank)

/-- The inner loop of `delete` and `getRank` matching walks that do not
track rank (source lines 979-987): same advance condition as
`walkRank`. -/
def walkPlain (z : Zskiplist) (score : Score) (member : String) (l : Nat) :
    Nat → Nat → Nat
  | 0, x => x
  | fuel+1, x =>
    match ((z.node x).levelAt l).forward with
    | none => x
    | some nxt =>
      if keyLt (z.node nxt).score (z.node nxt).member score member then
        walkPlain z score member l fuel nxt
      else x

/-- The level-descent of `insert` (source lines 866-882): process levels
`z.level-1 .. 0`, recording per level the update node and the rank
reached there.  Element `l` of the result is `(updateNodes[l],
rankValues[l])`. -/
def insertDescend (z : Zskiplist) (score : Score) (member : String) :
    Nat → Nat → Nat → List (Nat × Nat)
  | 0, _x, _rank => []
  | l+1, x, rank =>
    let xr := walkRank z score member l z.nodes.length x rank
    insertDescend z score member l xr.1 xr.2 ++ [xr]

/-- `zskiplist.insert` (source lines 859-923).  `newNodeLevel` is the
value drawn by `getRandomLevel`; the Go function's `*zslNode` result is
returned as the new node's arena id. -/
def Zskiplist.insert (z : Zskiplist) (score : Score) (member : String) (value : Val)
    (newNodeLevel : Nat) : Zskiplist × Nat :=
  let ur := insertDescend z score member z.level z.head 0
  -- if newNodeLevel > z.level: extend updateNodes/rankValues with the head
  -- at rank 0 and set the head's span at each fresh level to z.length
  let extended := decide (newNodeLevel > z.level)
  let z1 := if extended then
      (List.range' z.level (newNodeLevel - z.level)).foldl
        (fun zz i => zz.setSpan zz.head i zz.length) z
    else z
  let ur := if extended then ur ++ List.replicate (newNodeLevel - z.level) (z.head, 0) else ur
  let z1 := if extended then { z1 with level := newNodeLevel } else z1
  let newId := z1.nodes.length
  let z2 := { z1 with nodes := z1.nodes ++ [createNode newNodeLevel score member value] }
  let rank0 := (ur.getD 0 (0, 0)).2
  -- splice the new node into every level up to its height
  let z3 := (List.range newNodeLevel).foldl (fun zz l =>
      let u := (ur.getD l (0, 0)).1
      let rl := (ur.getD l (0, 0)).2
      let ufwd := ((zz.node u).levelAt l).forward
      let uspan := ((zz.node u).levelAt l).span
      let zz := zz.setLevelOf newId l ⟨ufwd, uspan - (rank0 - rl)⟩
      zz.setLevelOf u l ⟨some newId, (rank0 - rl) + 1⟩) z2
  -- untouched levels above the new node's height: span++
  let z4 := (List.range' newNodeLevel (z3.level - newNodeLevel)).foldl (fun zz l =>
      let u := (ur.getD l (0, 0)).1
      zz.setSpan u l (((zz.node u).levelAt l).span + 1)) z3
  let u0 := (ur.getD 0 (0, 0)).1
  let z5 := if u0 = z4.head then z4.setBackwards newId none
            else z4.setBackwards newId (some u0)
  let z6 := match ((z5.node newId).levelAt 0).forward with
    | some f => z5.setBackwards f (some newId)
    | none => { z5 with tail := some newId }
  ({ z6 with length := z6.length + 1 }, newId)

/-- `zskiplist.getRank` (source lines 927-948): walk each level, and after
each level's walk return the accumulated rank if the current node's member
matches. -/
def getRankAux (z : Zskiplist) (score : Score) (member : String) :
    Nat → Nat → Nat → Nat
  | 0, _x, rank => rank
  | l+1, x, rank =>
    let xr := walkRank z score member l z.nodes.length x rank
    if (z.node xr.1).member == member then xr.2
    else getRankAux z score member l xr.1 xr.2

def Zskiplist.getRank (z : Zskiplist) (score : Score) (member : String) : Nat :=
  getRankAux z score member z.level z.head 0

/-- The level-descent of `delete` (source lines 979-989): element `l` of
the result is `updates[l]`. -/
def deleteDescend (z : Zskiplist) (score : Score) (member : String) :
    Nat → Nat → List Nat
  | 0, _x => []
  | l+1, x =>
    let x' := walkPlain z score member l z.nodes.length x
    deleteDescend z score member l x' ++ [x']

/-- The `for z.level > 1 && z.head.level[z.level-1].forward == nil`
shrink loop at the end of `deleteNode` (source lines 967-969). -/
def shrinkLevel (z : Zskiplist) : Nat → Nat
  | 0 => 0
  | 1 => 1
  | l+2 =>
    if ((z.node z.head).levelAt (l+1)).forward = none then shrinkLevel z (l+1)
    else l+2

/-- `zskiplist.deleteNode` (source lines 951-972). -/
def Zskiplist.deleteNode (z : Zskiplist) (del : Nat) (updates : List Nat) : Zskiplist :=
  let z1 := (List.range z.level).foldl (fun zz l =>
    let u := updates.getD l 0
    if ((zz.node u).levelAt l).forward = some del then
      zz.setLevelOf u l ⟨((zz.node del).levelAt l).forward,
                         ((zz.node u).levelAt l).span + ((zz.node del).levelAt l).span - 1⟩
    else
      zz.setSpan u l (((zz.node u).levelAt l).span - 1)) z
  let z2 := match ((z1.node del).levelAt 0).forward with
    | some f => z1.setBackwards f ((z1.node del).backwards)
    | none => { z1 with tail := (z1.node del).backwards }
  let z3 := { z2 with level := shrinkLevel z2 z2.level }
  { z3 with length := z3.length - 1 }

/-- `zskiplist.delete` (source lines 975-995). -/
def Zskiplist.delete (z : Zskiplist) (score : Score) (member : String) : Zskiplist :=
  let updates := deleteDescend z score member z.level z.head
  let x := updates.getD 0 z.head
  match ((z.node x).levelAt 0).forward with
  | none => z
  | some c =>
    if (z.node c).score == score && (z.node c).member == member then
      z.deleteNode c updates
    else z

/-- The inner loop of `getNodeByRank` (source lines 1032-1035): advance
while the next span does not overshoot the target rank. -/
def walkSpan (z : Zskiplist) (rank : Nat) (l : Nat) :
    Nat → Nat → Nat → Nat × Nat
  | 0, x, t => (x, t)
  | fuel+1, x, t =>
    match ((z.node x).levelAt l).forward with
    | none => (x, t)
    | some nxt =>
      if t + ((z.node x).levelAt l).span ≤ rank then
        walkSpan z rank l fuel nxt (t + ((z.node x).levelAt l).span)
      else (x, t)

def getNodeByRankAux (z : Zskiplist) (rank : Nat) :
    Nat → Nat → Nat → Option Nat
  | 0, _x, _t => none
  | l+1, x, t =>
    let xt := walkSpan z rank l z.nodes.length x t
    if xt.2 = rank then some xt.1 else getNodeByRankAux z rank l xt.1 xt.2

/-- `zskiplist.getNodeByRank` (source lines 1023-1043): 1-based rank,
`0` or a rank beyond `length` yields `none`. -/
def Zskiplist.getNodeByRank (z : Zskiplist) (rank : Nat) : Option Nat :=
  if rank = 0 || decide (rank > z.length) then none
  else getNodeByRankAux z rank z.level z.head 0

/-! ## The zset layer (one key's sorted set) and the ZSet store

Go maps become association lists: `records : List (String × _)` with
`lookup`/`setA`/`removeA`; under the store invariant the keys are nodup,
so the association list has exactly a map's observable behaviour. -/

/-- `m[k] = v` on an association list: replace the existing binding or
append a fresh one. -/
def setA {α : Type} : List (String × α) → String → α → List (String × α)
  | [], k, v => [(k, v)]
  | (k', v') :: t, k, v =>
    if k' = k then (k, v) :: t else (k', v') :: setA t k v

/-- `delete(m, k)` on an association list. -/
def removeA {α : Type} (l : List (String × α)) (k : String) : List (String × α) :=
  l.filter (fun p => p.1 ≠ k)

/-- Go struct `zset` (source lines 63-66): member directory plus skip
list. -/
structure Zset where
  records : List (String × Nat)
  zsl : Zskiplist
deriving Repr, DecidableEq

/-- Go struct `ZSet` (source lines 50-52): the store of keyed sorted
sets. -/
structure ZSet where
  records : List (String × Zset)
deriving Repr, DecidableEq

/-- `New` (source lines 94-98). -/
def New : ZSet := ⟨[]⟩

/-- One element of a Go `[]interface{}` result that interleaves members
and scores. -/
inductive RItem where
  | str : String → RItem
  | num : Score → RItem
deriving Repr, DecidableEq

/-- `adjustRange` (source lines 1077-1085). -/
def adjustRange (value length : Int) : Int :=
  if value < 0 then
    (if value + length < 0 then 0 else value + length)
  else value

/-- `zset.getStartNode` (source lines 1094-1102).  A negative Go rank cast
to `uint64` becomes a value far beyond `length`, which `getNodeByRank`
rejects, hence the `r < 0` guard maps to `none`. -/
def Zset.getStartNode (z : Zset) (rank : Int) (reverse : Bool) : Option Nat :=
  let r : Int := if reverse then (z.zsl.length : Int) - rank else rank + 1
  if r < 0 then none else z.zsl.getNodeByRank r.toNat

/-- `zset.getNextNode` (source lines 1106-1111). -/
def Zset.getNextNode (z : Zset) (c : Nat) (reverse : Bool) : Option Nat :=
  if reverse then (z.zsl.node c).backwards else ((z.zsl.node c).levelAt 0).forward

/-- The `for span > 0 && node != nil` fetch loop of `findRange`
(source lines 1063-1071). -/
def fetchLoop (z : Zset) (reverse withScores : Bool) :
    Nat → Option Nat → List RItem
  | 0, _ => []
  | _+1, none => []
  | n+1, some x =>
    (if withScores then [RItem.str (z.zsl.node x).member, RItem.num (z.zsl.node x).score]
     else [RItem.str (z.zsl.node x).member]) ++
    fetchLoop z reverse withScores n (z.getNextNode x reverse)

/-- `zset.findRange` (source lines 1050-1074).  Note: `stop` is not
clamped to `length - 1`; the fetch loop stops at a nil node instead. -/
def Zset.findRange (zset : Zset) (key : String) (start stop : Int)
    (reverse withScores : Bool) : List RItem :=
  let length : Int := (zset.zsl.length : Int)
  let start := adjustRange start length
  let stop := adjustRange stop length
  if start > stop then []
  else
    let span := stop - start + 1
    let node := zset.getStartNode start reverse
    fetchLoop zset reverse withScores span.toNat node

/-- The level-descent of `collectElementsInRange` (source lines
1135-1139): skip forward while the next score is `< min`. -/
def walkScoreLt (item : Zskiplist) (mn : Score) (l : Nat) : Nat → Nat → Nat
  | 0, x => x
  | fuel+1, x =>
    match ((item.node x).levelAt l).forward with
    | none => x
    | some nxt =>
      if decide ((item.node nxt).score < mn) then walkScoreLt item mn l fuel nxt
      else x

def scoreDescend (item : Zskiplist) (mn : Score) : Nat → Nat → Nat
  | 0, x => x
  | l+1, x => scoreDescend item mn l (walkScoreLt item mn l item.nodes.length x)

/-- The emit loop of `collectElementsInRange` (source lines 1141-1145). -/
def emitWhileLe (item : Zskiplist) (mx : Score) : Nat → Option Nat → List (String × Score)
  | 0, _ => []
  | _+1, none => []
  | fuel+1, some c =>
    if decide ((item.node c).score ≤ mx) then
      ((item.node c).member, (item.node c).score) ::
        emitWhileLe item mx fuel (((item.node c).levelAt 0).forward)
    else []

/-- `ZSet.collectElementsInRange` (source lines 1132-1148); the unused
`*ZSet` receiver is dropped. -/
def collectElementsInRange (item : Zskiplist) (mn mx : Score) : List (String × Score) :=
  let x := scoreDescend item mn item.level item.head
  emitWhileLe item mx item.nodes.length (((item.node x).levelAt 0).forward)

/-- The level-descent of `collectElementsInReverseRange` (source lines
1154-1158): skip forward while the next score is `<= max`. -/
def walkScoreLe (item : Zskiplist) (mx : Score) (l : Nat) : Nat → Nat → Nat
  | 0, x => x
  | fuel+1, x =>
    match ((item.node x).levelAt l).forward with
    | none => x
    | some nxt =>
      if decide ((item.node nxt).score ≤ mx) then walkScoreLe item mx l fuel nxt
      else x

def revScoreDescend (item : Zskiplist) (mx : Score) : Nat → Nat → Nat
  | 0, x => x
  | l+1, x => revScoreDescend item mx l (walkScoreLe item mx l item.nodes.length x)

/-- The emit loop of `collectElementsInReverseRange` (source lines
1160-1163): note it starts from the node the descent stopped at, which
can still be the head sentinel. -/
def emitWhileGe (item : Zskiplist) (mn : Score) : Nat → Option Nat → List (String × Score)
  | 0, _ => []
  | _+1, none => []
  | fuel+1, some c =>
    if decide (mn ≤ (item.node c).score) then
      ((item.node c).member, (item.node c).score) ::
        emitWhileGe item mn fuel ((item.node c).backwards)
    else []

/-- `ZSet.collectElementsInReverseRange` (source lines 1151-1166). -/
def collectElementsInReverseRange (item : Zskiplist) (mx mn : Score) : List (String × Score) :=
  let x := revScoreDescend item mx item.level item.head
  emitWhileGe item mn item.nodes.length (some x)

/-- `ZSet.limitScores` (source lines 1117-1129).  On an empty skip list
`item.head.level[0].forward` is nil and Go dereferences it: `none` models
that panic; likewise for a nil `tail`. -/
def limitScores (item : Zskiplist) (mn mx : Score) : Option (Score × Score) :=
  match ((item.node item.head).levelAt 0).forward with
  | none => none
  | some f =>
    let minScore := (item.node f).score
    let mn := if mn < minScore then minScore else mn
    match item.tail with
    | none => none
    | some t =>
      let maxScore := (item.node t).score
      let mx := if mx > maxScore then maxScore else mx
      some (mn, mx)

/-- `ZSet.ZKeyExists` (source lines 423-426). -/
def ZSet.ZKeyExists (z : ZSet) (key : String) : Bool :=
  (z.records.lookup key).isSome

/-- `ZSet.ZAdd` (source lines 149-175).  `lvl` is the oracle value of
`getRandomLevel` for the insertion (unused when only the payload is
replaced).  The Go function unconditionally returns 1. -/
def ZSet.ZAdd (z : ZSet) (key : String) (score : Score) (member : String)
    (value : Val) (lvl : Nat) : ZSet × Int :=
  let set := match z.records.lookup key with
    | some s => s
    | none => { records := [], zsl := newZSkipList }
  let set' := match set.records.lookup member with
    | some nid =>
      if (set.zsl.node nid).score == score then
        -- same score: update the value in place
        { set with zsl := set.zsl.setNode nid { set.zsl.node nid with value := value } }
      else
        let zsl1 := set.zsl.delete (set.zsl.node nid).score member
        let ins := zsl1.insert score member value lvl
        { records := setA set.records member ins.2, zsl := ins.1 }
    | none =>
      let ins := set.zsl.insert score member value lvl
      { records := setA set.records member ins.2, zsl := ins.1 }
  ({ records := setA z.records key set' }, 1)

/-- `ZSet.ZScore` (source lines 196-208). -/
def ZSet.ZScore (z : ZSet) (key member : String) : Bool × Score :=
  match z.records.lookup key with
  | none => (false, 0)
  | some set =>
    match set.records.lookup member with
    | none => (false, 0)
    | some nid => (true, (set.zsl.node nid).score)

/-- `ZSet.ZCard` (source lines 228-235). -/
def ZSet.ZCard (z : ZSet) (key : String) : Nat :=
  match z.records.lookup key with
  | none => 0
  | some set => set.records.length

/-- `ZSet.ZRank` (source lines 257-270). -/
def ZSet.ZRank (z : ZSet) (key member : String) : Int :=
  match z.records.lookup key with
  | none => -1
  | some set =>
    match set.records.lookup member with
    | none => -1
    | some nid => Int.ofNat (set.zsl.getRank (set.zsl.node nid).score member)

/-- `ZSet.ZRevRank` (source lines 292-305):
`int64(length - getRank - 1)`. -/
def ZSet.ZRevRank (z : ZSet) (key member : String) : Int :=
  match z.records.lookup key with
  | none => -1
  | some set =>
    match set.records.lookup member with
    | none => -1
    | some nid =>
      Int.ofNat (set.zsl.length - set.zsl.getRank (set.zsl.node nid).score member - 1)

/-- `ZSet.ZRem` (source lines 326-339). -/
def ZSet.ZRem (z : ZSet) (key member : String) : ZSet × Bool :=
  match z.records.lookup key with
  | none => (z, false)
  | some set =>
    match set.records.lookup member with
    | some nid =>
      let set' : Zset := { records := removeA set.records member,
                           zsl := set.zsl.delete (set.zsl.node nid).score member }
      ({ records := setA z.records key set' }, true)
    | none => (z, false)

/-- `ZSet.ZClear` (source lines 442-446). -/
def ZSet.ZClear (z : ZSet) (key : String) : ZSet :=
  if z.ZKeyExists key then { records := removeA z.records key } else z

/-- `ZSet.ZScoreRange` (source lines 363-372); `none` models the nil
dereference inside `limitScores` when the key's skip list is empty. -/
def ZSet.ZScoreRange (z : ZSet) (key : String) (mn mx : Score) :
    Option (List (String × Score)) :=
  match z.records.lookup key with
  | none => some []
  | some set =>
    if decide (mn > mx) then some []
    else
      match limitScores set.zsl mn mx with
      | none => none
      | some p => some (collectElementsInRange set.zsl p.1 p.2)

/-- `ZSet.ZRevScoreRange` (source lines 397-406). -/
def ZSet.ZRevScoreRange (z : ZSet) (key : String) (mx mn : Score) :
    Option (List (String × Score)) :=
  match z.records.lookup key with
  | none => some []
  | some set =>
    if decide (mn > mx) then some []
    else
      match limitScores set.zsl mn mx with
      | none => none
      | some p => some (collectElementsInReverseRange set.zsl p.2 p.1)

/-- `ZSet.ZRange` (source lines 493-499): no `start > stop` guard. -/
def ZSet.ZRange (z : ZSet) (key : String) (start stop : Int) : List RItem :=
  match z.records.lookup key with
  | none => []
  | some set => set.findRange key start stop false false

/-- `ZSet.ZRevRange` (source lines 554-560): guarded by `start > stop`
before any negative-index normalization. -/
def ZSet.ZRevRange (z : ZSet) (key : String) (start stop : Int) : List RItem :=
  if !z.ZKeyExists key || decide (start > stop) then []
  else
    match z.records.lookup key with
    | none => []
    | some set => set.findRange key start stop true false

/-- `ZRangeConfig` (source lines 55-59). -/
structure ZRangeConfig where
  limit : Int
  excludeStart : Bool
  excludeEnd : Bool
deriving Repr, DecidableEq

/-- `ZSet.ZRangeByScore` (source lines 746-845).  The Go guard is
inverted: `if z.ZKeyExists(key) { return result }` returns the empty
slice whenever the key EXISTS, and when the key is absent the function
continues into `node := z.records[key]` (the nil `*zset`) and panics on
`node.zsl`.  Every call therefore either returns the empty slice or
panics, and the range logic of lines 752-844 is unreachable; `none`
models the panic. -/
def ZSet.ZRangeByScore (z : ZSet) (key : String) (start stop : Score)
    (config : Option ZRangeConfig) : Option (List ZslNode) :=
  if z.ZKeyExists key then some []
  else none

/-- `ZSet.ZPopMin` (source lines 673-686).  Result:
(new store, popped node or `none`, error message or `none`). -/
def ZSet.ZPopMin (z : ZSet) (key : String) : ZSet × Option ZslNode × Option String :=
  if !z.ZKeyExists key then (z, none, some "key does not exist")
  else
    match z.records.lookup key with
    | none => (z, none, some "key does not exist")
    | some set =>
      match ((set.zsl.node set.zsl.head).levelAt 0).forward with
      | some f => ((z.ZRem key (set.zsl.node f).member).1, some (set.zsl.node f), none)
      | none => (z, none, none)

/-- `ZSet.ZPopMax` (source lines 707-720). -/
def ZSet.ZPopMax (z : ZSet) (key : String) : ZSet × Option ZslNode × Option String :=
  if !z.ZKeyExists key then (z, none, some "key does not exist")
  else
    match z.records.lookup key with
    | none => (z, none, some "key does not exist")
    | some set =>
      match set.zsl.tail with
      | some t => ((z.ZRem key (set.zsl.node t).member).1, some (set.zsl.node t), none)
      | none => (z, none, none)

/-! ## Abstraction: sorted entry lists and the representation invariant

A reachable skip list is, abstractly, a strictly `(score, member)`-sorted
list of entries, each remembering its arena id and its drawn height.  In
the canonical structure determined by such a list, "position" `p` ranges
over `0` (the head sentinel) and `1 .. L.length` (the real nodes in
ascending order, so position = 1-based rank); the forward pointer of
position `p` at level `l` goes to the next position of height `> l` and
its span is the position difference. -/

/-- Abstract entry: one member of the sorted set, with its arena id and
drawn node height. -/
structure E where
  score : Score
  member : String
  id : Nat
  height : Nat
deriving Repr, DecidableEq

instance : Inhabited E := ⟨⟨0, "", 0, 0⟩⟩

/-- Propositional version of `keyLt`. -/
def keyLtP (s1 : Score) (m1 : String) (s2 : Score) (m2 : String) : Prop :=
  s1 < s2 ∨ (s1 = s2 ∧ strLt m1 m2 = true)

/-- Entry order: strict `(score, member)` lexicographic. -/
def eLt (a b : E) : Prop := keyLtP a.score a.member b.score b.member

/-- Arena id of position `p` (p = 0 is the head sentinel). -/
def posId (L : List E) : Nat → Nat
  | 0 => 0
  | p+1 => (L.getD p default).id

/-- Height of position `p`; the head sentinel spans every level. -/
def posHeight (L : List E) : Nat → Nat
  | 0 => SkipListMaxLvl
  | p+1 => (L.getD p default).height

/-- Score at position `p` (the head sentinel holds score 0). -/
def posScore (L : List E) : Nat → Score
  | 0 => 0
  | p+1 => (L.getD p default).score

/-- Member at position `p` (the head sentinel holds `""`). -/
def posMember (L : List E) : Nat → String
  | 0 => ""
  | p+1 => (L.getD p default).member

/-- The canonical forward target at level `l` from position `p`: the
first later position (up to `L.length`) whose height exceeds `l`. -/
def nextPos (L : List E) (l p : Nat) : Option Nat :=
  (List.range' (p+1) (L.length - p)).find? (fun q => decide (l < posHeight L q))

/-- The `level` field a canonical list maintains:
`max 1 (max of all heights)`. -/
def listLevel (L : List E) : Nat := L.foldr (fun e m => max e.height m) 1

/-- Number of entries strictly below the key `(s, m)`; in a sorted list
this is the 0-based rank at which `(s, m)` sits or would be inserted. -/
def countLtKey (L : List E) (s : Score) (m : String) : Nat :=
  L.countP (fun e => keyLt e.score e.member s m)

/-- The canonical content of the level-`l` link record of position `p`. -/
def goodLevel (z : Zskiplist) (L : List E) (p l : Nat) : Prop :=
  match nextPos L l p with
  | some q => ((z.node (posId L p)).levelAt l).forward = some (posId L q)
              ∧ ((z.node (posId L p)).levelAt l).span = q - p
  | none => ((z.node (posId L p)).levelAt l).forward = none

/-- The representation invariant: skip list `z` is the canonical
structure of the sorted entry list `L`.  Span fields of nil forward
pointers are deliberately unconstrained (the Go code leaves stale values
there). -/
structure Represents (z : Zskiplist) (L : List E) : Prop where
  head_eq : z.head = 0
  head_member : (z.node 0).member = ""
  head_score : (z.node 0).score = 0
  head_back : (z.node 0).backwards = none
  head_len : (z.node 0).level.length = SkipListMaxLvl
  nodes_ne : z.nodes ≠ []
  length_eq : z.length = L.length
  level_eq : z.level = listLevel L
  sorted : L.Pairwise eLt
  members_nodup : (L.map E.member).Nodup
  ids_lt : ∀ e ∈ L, e.id < z.nodes.length
  ids_pos : ∀ e ∈ L, 0 < e.id
  ids_inj : ∀ i j, i < L.length → j < L.length →
    (L.getD i default).id = (L.getD j default).id → i = j
  h_bounds : ∀ e ∈ L, 1 ≤ e.height ∧ e.height ≤ SkipListMaxLvl
  node_member : ∀ e ∈ L, (z.node e.id).member = e.member
  node_score : ∀ e ∈ L, (z.node e.id).score = e.score
  node_len : ∀ e ∈ L, (z.node e.id).level.length = e.height
  node_back : ∀ p, 1 ≤ p → p ≤ L.length →
    (z.node (posId L p)).backwards = if p = 1 then none else some (posId L (p-1))
  head_levels : ∀ l, l < z.level → goodLevel z L 0 l
  node_levels : ∀ p l, 1 ≤ p → p ≤ L.length → l < posHeight L p → goodLevel z L p l
  head_hi : ∀ l, z.level ≤ l → l < SkipListMaxLvl →
    ((z.node 0).levelAt l).forward = none
  tail_ok : if L.length = 0 then (z.tail = none ∨ z.tail = some 0)
            else z.tail = some (posId L L.length)

/-- The level-0 forward chain from a given link (ids of the real nodes
in list order). -/
def chainFrom (z : Zskiplist) : Nat → Option Nat → List Nat
  | 0, _ => []
  | _+1, none => []
  | fuel+1, some x => x :: chainFrom z fuel (((z.node x).levelAt 0).forward)

/-- All real nodes of the skip list, in level-0 chain order. -/
def chain0 (z : Zskiplist) : List Nat :=
  chainFrom z z.nodes.length (((z.node z.head).levelAt 0).forward)

/-- Sum of the level-0 spans of the first `k` links on the path starting
at the head sentinel (the links traversed to reach the `k`-th real
node). -/
def sumSpans0 (z : Zskiplist) (k : Nat) : Nat :=
  ((z.head :: chain0 z).take k).foldl (fun acc i => acc + ((z.node i).levelAt 0).span) 0

/-- Reachable skip-list states: `newZSkipList` closed under `insert`
(with any valid level draw, under insert's documented precondition that
the member is not yet present) and `delete` (with any argument). -/
inductive ZslReachable : Zskiplist → Prop
  | base : ZslReachable newZSkipList
  | ins (z : Zskiplist) (score : Score) (member : String) (value : Val) (lvl : Nat) :
      ZslReachable z → 1 ≤ lvl → lvl ≤ SkipListMaxLvl →
      member ∉ (chain0 z).map (fun i => (z.node i).member) →
      ZslReachable (z.insert score member value lvl).1
  | del (z : Zskiplist) (score : Score) (member : String) :
      ZslReachable z → ZslReachable (z.delete score member)

/-- Reachable stores: `New` closed under the mutating operations, with
insert level draws ranging over all valid values. -/
inductive StoreReachable : ZSet → Prop
  | base : StoreReachable New
  | zadd (z : ZSet) (key : String) (score : Score) (member : String) (value : Val) (lvl : Nat) :
      StoreReachable z → 1 ≤ lvl → lvl ≤ SkipListMaxLvl →
      StoreReachable (z.ZAdd key score member value lvl).1
  | zrem (z : ZSet) (key member : String) :
      StoreReachable z → StoreReachable (z.ZRem key member).1
  | zclear (z : ZSet) (key : String) :
      StoreReachable z → StoreReachable (z.ZClear key)
  | zpopmin (z : ZSet) (key : String) :
      StoreReachable z → StoreReachable (z.ZPopMin key).1
  | zpopmax (z : ZSet) (key : String) :
      StoreReachable z → StoreReachable (z.ZPopMax key).1

/-- Member directory consistency: the `records` association list and the
entry list describe the same members with the same arena ids. -/
def DirConsistent (set : Zset) (L : List E) : Prop :=
  (set.records.map Prod.fst).Nodup ∧
  (∀ m nid, set.records.lookup m = some nid → ∃ e ∈ L, e.member = m ∧ e.id = nid) ∧
  (∀ e ∈ L, set.records.lookup e.member = some e.id)

/-- Well-formedness of one key's sorted set.  The final conjunct records
that an *emptied* set has a nil tail: a set reachable through the public
API is never the fresh empty skip list (ZAdd both creates a set and
inserts into it), so once `L = []` the last delete has set `tail` to the
removed node's nil `backwards` pointer. -/
def SetWF (set : Zset) : Prop :=
  ∃ L, Represents set.zsl L ∧ DirConsistent set L ∧ (L = [] → set.zsl.tail = none)

/-- Well-formedness of the whole store. -/
def StoreWF (z : ZSet) : Prop :=
  (z.records.map Prod.fst).Nodup ∧
  ∀ key set, z.records.lookup key = some set → SetWF set

/-- Generic level walk: advance while a forward node exists and the
condition accepts (the forward node's id, the count accumulated up to
it).  Each traversal loop of the source is an instance of this shape;
the equations relating them are proved below. -/
def walkGen (z : Zskiplist) (cond : Nat → Nat → Bool) (l : Nat) :
    Nat → Nat → Nat → Nat × Nat
  | 0, x, acc => (x, acc)
  | fuel+1, x, acc =>
    match ((z.node x).levelAt l).forward with
    | none => (x, acc)
    | some nxt =>
      if cond nxt (acc + ((z.node x).levelAt l).span) then
        walkGen z cond l fuel nxt (acc + ((z.node x).levelAt l).span)
      else (x, acc)

/-- Largest position `q ≤ bound` whose height exceeds `l`, or 0 (the
head sentinel) if there is none: where a level-`l` walk bounded by
`bound` stops. -/
def rankFrontier (L : List E) (bound l : Nat) : Nat :=
  Nat.findGreatest (fun q => l < posHeight L q) bound

/-- Number of entries with score strictly below `s`. -/
def countScoreLt (L : List E) (s : Score) : Nat :=
  L.countP (fun e => decide (e.score < s))

/-- Number of entries with score at most `s`. -/
def countScoreLe (L : List E) (s : Score) : Nat :=
  L.countP (fun e => decide (e.score ≤ s))

/-- Insertion of an entry at index `i` of the abstract list. -/
def insertAt (L : List E) (i : Nat) (e : E) : List E :=
  L.take i ++ e :: L.drop i

/-- One step of `insert`'s head-extension loop (the same function value
as the fold body inside `Zskiplist.insert`, named so the loop can be
characterized level by level). -/
def insExtStep (zz : Zskiplist) (i : Nat) : Zskiplist :=
  zz.setSpan zz.head i zz.length

/-- One step of `insert`'s splice loop. -/
def insSpliceStep (ur : List (Nat × Nat)) (rank0 newId : Nat)
    (zz : Zskiplist) (l : Nat) : Zskiplist :=
  let u := (ur.getD l (0, 0)).1
  let rl := (ur.getD l (0, 0)).2
  let ufwd := ((zz.node u).levelAt l).forward
  let uspan := ((zz.node u).levelAt l).span
  let zz := zz.setLevelOf newId l ⟨ufwd, uspan - (rank0 - rl)⟩
  zz.setLevelOf u l ⟨some newId, (rank0 - rl) + 1⟩

/-- One step of `insert`'s span-increment loop for the levels above the
new node's height. -/
def insBumpStep (ur : List (Nat × Nat)) (zz : Zskiplist) (l : Nat) : Zskiplist :=
  let u := (ur.getD l (0, 0)).1
  zz.setSpan u l (((zz.node u).levelAt l).span + 1)

/-- The suffix of `insert` after the update vector and the head
extension have been computed (used to share the analysis of the two
`newNodeLevel > z.level` branches). -/
def insertTail (H : Nat) (s : Score) (m : String) (v : Val) (z1b : Zskiplist)
    (ur : List (Nat × Nat)) : Zskiplist × Nat :=
  let newId := z1b.nodes.length
  let z2 := { z1b with nodes := z1b.nodes ++ [createNode H s m v] }
  let rank0 := (ur.getD 0 (0, 0)).2
  let z3 := (List.range H).foldl (insSpliceStep ur rank0 newId) z2
  let z4 := (List.range' H (z3.level - H)).foldl (insBumpStep ur) z3
  let u0 := (ur.getD 0 (0, 0)).1
  let z5 := if u0 = z4.head then z4.setBackwards newId none
            else z4.setBackwards newId (some u0)
  let z6 := match ((z5.node newId).levelAt 0).forward with
    | some f => z5.setBackwards f (some newId)
    | none => { z5 with tail := some newId }
  ({ z6 with length := z6.length + 1 }, newId)

/-- One step of `deleteNode`'s unlink loop. -/
def delStep (updates : List Nat) (del : Nat) (zz : Zskiplist) (l : Nat) : Zskiplist :=
  let u := updates.getD l 0
  if ((zz.node u).levelAt l).forward = some del then
    zz.setLevelOf u l ⟨((zz.node del).levelAt l).forward,
                       ((zz.node u).levelAt l).span + ((zz.node del).levelAt l).span - 1⟩
  else
    zz.setSpan u l (((zz.node u).levelAt l).span - 1)

/-! ## Concrete scenario states used by counterexamples and witnesses -/

/-- Five members with scores 1.0 .. 5.0 and arbitrary level draws
(the C3 scenario). -/
def scenarioFive (h1 h2 h3 h4 h5 : Nat) : ZSet :=
  (((((New.ZAdd "k" 1 "m1" "v1" h1).1.ZAdd "k" 2 "m2" "v2" h2).1.ZAdd
      "k" 3 "m3" "v3" h3).1.ZAdd "k" 4 "m4" "v4" h4).1.ZAdd "k" 5 "m5" "v5" h5).1

/-- The doc-comment example of `ZRangeByScore`: three members. -/
def stDocExample : ZSet :=
  (((New.ZAdd "mySortedSet" (7/2) "member1" "value1" 1).1.ZAdd
      "mySortedSet" 2 "member2" "value2" 1).1.ZAdd
      "mySortedSet" (21/5) "member3" "value3" 1).1

/-- One insert followed by deleting it again, at the bare skip-list
level. -/
def zslOneThenEmpty : Zskiplist := (newZSkipList.insert 1 "a" "v" 1).1.delete 1 "a"

/-- A store with a single one-member set. -/
def stOne : ZSet := (New.ZAdd "k" 1 "a" "v" 1).1

/-- A store whose set holds a negative-score member and a positive-score
member. -/
def stNegPos : ZSet := ((New.ZAdd "k" (-5) "a" "v" 1).1.ZAdd "k" 3 "b" "v" 1).1

/-- A store whose key "k" exists but has been emptied by `ZRem`. -/
def stEmptied : ZSet := ((New.ZAdd "k" 3 "a" "v" 2).1.ZRem "k" "a").1

/-- Two equal-score members added in the order "a" then "b". -/
def stTieAB (ha hb : Nat) : ZSet :=
  ((New.ZAdd "k" 3 "a" "v1" ha).1.ZAdd "k" 3 "b" "v2" hb).1

/-- Two equal-score members added in the order "b" then "a". -/
def stTieBA (ha hb : Nat) : ZSet :=
  ((New.ZAdd "k" 3 "b" "v2" hb).1.ZAdd "k" 3 "a" "v1" ha).1

/-! ## Counterexamples and code-bug evaluations on concrete states -/

/-- C3 counterexample: on the five-member scenario (scores 1..5, all
level draws 1), `ZScoreRange(key, 10.0, 20.0)` returns the EMPTY result,
not the single highest-scored member: `limitScores` lowers `max` to 5 but
never raises `min`, so the collection walks past every node. -/
theorem c3_score_range_above_extent_empty :
    (scenarioFive 1 1 1 1 1).ZScoreRange "k" 10 20 = some [] ∧
    (scenarioFive 1 1 1 1 1).ZScoreRange "k" 10 20 ≠ some [("m5", 5)] := by
  exact ⟨rfl, by decide⟩

/-- C4: `ZRangeByScore`'s key-existence guard is inverted.  On a fresh
store (absent key) the call dereferences the nil `*zset` and panics
(modelled `none`), contradicting both the claim and the function's own
doc comment; on the doc comment's own three-member example it returns the
empty slice instead of the documented nodes. -/
theorem c4_zrangebyscore_inverted_guard :
    New.ZRangeByScore "mySortedSet" 2 4 none = none ∧
    stDocExample.ZKeyExists "mySortedSet" = true ∧
    stDocExample.ZRangeByScore "mySortedSet" 2 4 none = some [] := by
  exact ⟨rfl, rfl, rfl⟩

/-- C5 counterexample: insert one member and delete it again; the tail
pointer becomes nil (`none`), which is distinct from the head sentinel,
refuting "the tail is never a none value distinct from the head
sentinel".  The state is reachable by the public operations. -/
theorem c5_tail_nil_after_emptying :
    ZslReachable zslOneThenEmpty ∧ zslOneThenEmpty.tail = none ∧
    zslOneThenEmpty.head = 0 ∧ zslOneThenEmpty.tail ≠ some zslOneThenEmpty.head :=
  ⟨ZslReachable.del _ 1 "a"
      (ZslReachable.ins _ 1 "a" "v" 1 ZslReachable.base (by decide) (by decide)
        (by decide)),
    rfl, rfl, by decide⟩

/-- C6 counterexample: on a reachable one-member store,
`ZRange(key, 0, -1)` returns the full ascending sequence but
`ZRevRange(key, 0, -1)` returns the empty slice (its `start > stop` guard
fires before negative indices are normalized), not the reverse
sequence. -/
theorem c6_zrevrange_all_empty :
    StoreReachable stOne ∧ stOne.ZRange "k" 0 (-1) = [RItem.str "a"] ∧
    stOne.ZRevRange "k" 0 (-1) = [] ∧
    stOne.ZRevRange "k" 0 (-1) ≠ (stOne.ZRange "k" 0 (-1)).reverse :=
  ⟨StoreReachable.zadd _ "k" 1 "a" "v" 1 StoreReachable.base (by decide) (by decide),
    rfl, rfl, by decide⟩

/-- C8 counterexample: adding an already-present member (same score, a
payload-only update) still returns 1, where the claim demands 0. -/
theorem c8_zadd_update_returns_one :
    ((New.ZAdd "k" 3 "a" "v1" 1).1.ZAdd "k" 3 "a" "v2" 1).2 = 1 := rfl

/-- C8 amended: `ZAdd` returns the insertion count 1 unconditionally —
for new members, payload-only updates and score changes alike (the
function ends in `return 1`). -/
theorem c8_zadd_always_returns_one (z : ZSet) (key : String) (score : Score)
    (member : String) (value : Val) (lvl : Nat) :
    (z.ZAdd key score member value lvl).2 = 1 := rfl

/-- C9 counterexample: on a reachable store holding members with scores
-5 and 3, the reverse score-range query with bounds `min = -10 ≤ max =
-6` emits the pair `("", 0)` — the head sentinel, which is not a member
of the set: the descent never leaves the head (every score exceeds the
clamped max) and the emit loop starts at the node the descent stopped
at. -/
theorem c9_sentinel_emitted :
    StoreReachable stNegPos ∧ (-10 : Score) ≤ -6 ∧
    stNegPos.ZRevScoreRange "k" (-6) (-10) = some [("", 0)] ∧
    stNegPos.ZScore "k" "" = (false, 0) :=
  ⟨StoreReachable.zadd _ "k" 3 "b" "v" 1
      (StoreReachable.zadd _ "k" (-5) "a" "v" 1 StoreReachable.base (by decide)
        (by decide)) (by decide) (by decide),
    by norm_num, rfl, rfl⟩

/-! ## Order facts for the member and key comparisons -/

theorem charToNat_inj {c d : Char} (h : c.toNat = d.toNat) : c = d :=
  Char.eq_of_val_eq (UInt32.eq_of_toBitVec_eq (BitVec.eq_of_toNat_eq h))

theorem charListLt_nil_right (a : List Char) : charListLt a [] = false := by
  cases a <;> rfl

theorem charListLt_cons {c d : Char} {cs ds : List Char} :
    charListLt (c :: cs) (d :: ds) = true ↔
      c.toNat < d.toNat ∨ (c.toNat = d.toNat ∧ charListLt cs ds = true) := by
  simp [charListLt]

theorem charListLt_irrefl : ∀ a : List Char, charListLt a a = false
  | [] => rfl
  | c :: cs => by
    have ih := charListLt_irrefl cs
    simp [charListLt, ih]

theorem charListLt_trans : ∀ a b c : List Char,
    charListLt a b = true → charListLt b c = true → charListLt a c = true
  | _, [], _, hab, _ => by rw [charListLt_nil_right] at hab; exact absurd hab (by simp)
  | _, _ :: _, [], _, hbc => by rw [charListLt_nil_right] at hbc; exact absurd hbc (by simp)
  | [], _ :: _, _ :: _, _, _ => rfl
  | a :: as, b :: bs, c :: cs, hab, hbc => by
    rw [charListLt_cons] at hab hbc ⊢
    rcases hab with h1 | ⟨h1, h1'⟩ <;> rcases hbc with h2 | ⟨h2, h2'⟩
    · exact Or.inl (h1.trans h2)
    · exact Or.inl (h2 ▸ h1)
    · exact Or.inl (h1 ▸ h2)
    · exact Or.inr ⟨h1.trans h2, charListLt_trans as bs cs h1' h2'⟩

theorem charListLt_eq_of_not : ∀ a b : List Char,
    charListLt a b = false → charListLt b a = false → a = b
  | [], [], _, _ => rfl
  | [], _ :: _, hab, _ => by simp [charListLt] at hab
  | _ :: _, [], _, hba => by simp [charListLt] at hba
  | a :: as, b :: bs, hab, hba => by
    have hab' := hab; have hba' := hba
    simp only [charListLt, Bool.or_eq_false_iff, Bool.and_eq_false_iff,
      decide_eq_false_iff_not, Nat.not_lt] at hab' hba'
    have hcd : a.toNat = b.toNat := le_antisymm hba'.1 hab'.1
    have hc : a = b := charToNat_inj hcd
    subst hc
    rcases hab'.2 with h | h
    · simp at h
    · rcases hba'.2 with h' | h'
      · simp at h'
      · rw [charListLt_eq_of_not as bs h h']

theorem strLt_irrefl (m : String) : strLt m m = false := charListLt_irrefl m.data

theorem strLt_trans {a b c : String} (h1 : strLt a b = true) (h2 : strLt b c = true) :
    strLt a c = true := charListLt_trans a.data b.data c.data h1 h2

theorem strLt_eq_of_not {a b : String} (h1 : strLt a b = false) (h2 : strLt b a = false) :
    a = b := String.ext (charListLt_eq_of_not a.data b.data h1 h2)

theorem strLt_asymm {a b : String} (h : strLt a b = true) : strLt b a = false := by
  by_contra hc
  have := strLt_trans h (Bool.of_not_eq_false hc)
  rw [strLt_irrefl] at this
  exact absurd this (by simp)

theorem keyLt_iff {s1 s2 : Score} {m1 m2 : String} :
    keyLt s1 m1 s2 m2 = true ↔ keyLtP s1 m1 s2 m2 := by
  simp [keyLt, keyLtP, Bool.or_eq_true, Bool.and_eq_true, decide_eq_true_eq, beq_iff_eq]

theorem keyLtP_irrefl (s : Score) (m : String) : ¬ keyLtP s m s m := by
  rintro (h | ⟨_, h⟩)
  · exact lt_irrefl _ h
  · rw [strLt_irrefl] at h; exact absurd h (by simp)

theorem keyLtP_trans {s1 s2 s3 : Score} {m1 m2 m3 : String}
    (h1 : keyLtP s1 m1 s2 m2) (h2 : keyLtP s2 m2 s3 m3) : keyLtP s1 m1 s3 m3 := by
  rcases h1 with h1 | ⟨h1, h1'⟩ <;> rcases h2 with h2 | ⟨h2, h2'⟩
  · exact Or.inl (h1.trans h2)
  · exact Or.inl (h2 ▸ h1)
  · exact Or.inl (h1 ▸ h2)
  · exact Or.inr ⟨h1.trans h2, strLt_trans h1' h2'⟩

theorem keyLtP_asymm {s1 s2 : Score} {m1 m2 : String}
    (h : keyLtP s1 m1 s2 m2) : ¬ keyLtP s2 m2 s1 m1 :=
  fun h' => keyLtP_irrefl s1 m1 (keyLtP_trans h h')

theorem keyLtP_antisymm {s1 s2 : Score} {m1 m2 : String}
    (h1 : ¬ keyLtP s1 m1 s2 m2) (h2 : ¬ keyLtP s2 m2 s1 m1) : s1 = s2 ∧ m1 = m2 := by
  rw [keyLtP] at h1 h2
  push_neg at h1 h2
  have hs : s1 = s2 := le_antisymm h2.1 h1.1
  refine ⟨hs, ?_⟩
  have hm1 : strLt m1 m2 = false := by
    by_contra hc
    exact absurd (Bool.of_not_eq_false hc) (by simpa using h1.2 hs)
  have hm2 : strLt m2 m1 = false := by
    by_contra hc
    exact absurd (Bool.of_not_eq_false hc) (by simpa using h2.2 hs.symm)
  exact strLt_eq_of_not hm1 hm2

theorem keyLt_false_iff {s1 s2 : Score} {m1 m2 : String} :
    keyLt s1 m1 s2 m2 = false ↔ ¬ keyLtP s1 m1 s2 m2 := by
  rw [← keyLt_iff]
  cases keyLt s1 m1 s2 m2 <;> simp

/-! ## Sorted-list position machinery -/

theorem getD_bridge {α : Type} [Inhabited α] (L : List α) {i : Nat} (h : i < L.length) :
    L.getD i default = L[i] := by
  simp [List.getD_eq_getElem?_getD, List.getElem?_eq_getElem h]

theorem entry_mem {α : Type} [Inhabited α] (L : List α) {i : Nat} (h : i < L.length) :
    L.getD i default ∈ L := by
  rw [getD_bridge L h]
  exact List.getElem_mem h

theorem posScore_succ {L : List E} {p : Nat} (h : p < L.length) :
    posScore L (p+1) = L[p].score := by
  simp only [posScore]; rw [getD_bridge L h]

theorem posMember_succ {L : List E} {p : Nat} (h : p < L.length) :
    posMember L (p+1) = L[p].member := by
  simp only [posMember]; rw [getD_bridge L h]

theorem posHeight_succ {L : List E} {p : Nat} (h : p < L.length) :
    posHeight L (p+1) = L[p].height := by
  simp only [posHeight]; rw [getD_bridge L h]

theorem posId_succ {L : List E} {p : Nat} (h : p < L.length) :
    posId L (p+1) = L[p].id := by
  simp only [posId]; rw [getD_bridge L h]

/-- In a list whose `P`-elements form a prefix (downward closure), an
index satisfies `P` exactly when it lies below `countP P`. -/
theorem countP_low {α : Type} [Inhabited α] (P : α → Bool) :
    ∀ (L : List α),
      (∀ i j, i ≤ j → j < L.length → P (L.getD j default) = true →
        P (L.getD i default) = true) →
      ∀ i, i < L.length → (P (L.getD i default) = true ↔ i < L.countP P)
  | [], _, i, hi => absurd hi (by simp)
  | a :: t, hcl, i, hi => by
    rw [List.countP_cons]
    by_cases hPa : P a = true
    · simp only [hPa, if_true]
      cases i with
      | zero => simpa using hPa
      | succ i =>
        have hcl' : ∀ i j, i ≤ j → j < t.length → P (t.getD j default) = true →
            P (t.getD i default) = true := fun i j hij hj hP =>
          hcl (i+1) (j+1) (by omega) (by simpa using Nat.succ_lt_succ hj) hP
        have hrec := countP_low P t hcl' i (by simpa using hi)
        simp only [List.getD_cons_succ]
        rw [hrec]
        omega
    · have hPa' : P a = false := by revert hPa; cases P a <;> simp
      have ht : t.countP P = 0 := by
        rw [List.countP_eq_zero]
        intro x hx
        obtain ⟨j, hj, he⟩ := List.getElem_of_mem hx
        intro hPx
        have h1 : P (t.getD j default) = true := by rw [getD_bridge t hj, he]; exact hPx
        have h2 := hcl 0 (j+1) (by omega) (by simpa using Nat.succ_lt_succ hj)
          (by simpa using h1)
        simp only [List.getD_cons_zero] at h2
        exact absurd h2 (by simp [hPa'])
      simp only [hPa', ht, Bool.false_eq_true, if_false]
      cases i with
      | zero => simpa using hPa'
      | succ i =>
        simp only [List.getD_cons_succ]
        constructor
        · intro hPx
          have h2 := hcl 0 (i+1) (by omega) hi (by simpa using hPx)
          simp only [List.getD_cons_zero] at h2
          exact absurd h2 (by simp [hPa'])
        · omega

theorem listLevel_pos : ∀ (L : List E), 1 ≤ listLevel L
  | [] => le_rfl
  | _ :: t => le_trans (listLevel_pos t) (le_max_right _ _)

theorem height_le_listLevel {e : E} : ∀ {L : List E}, e ∈ L → e.height ≤ listLevel L
  | [], h => by cases h
  | a :: t, h => by
    rcases List.mem_cons.1 h with rfl | h
    · exact le_max_left _ _
    · exact le_trans (height_le_listLevel h) (le_max_right _ _)

theorem listLevel_le : ∀ {L : List E} {k : Nat},
    (∀ e ∈ L, e.height ≤ k) → 1 ≤ k → listLevel L ≤ k
  | [], _, _, hk => hk
  | a :: t, _, h, hk =>
    max_le (h a (by simp)) (listLevel_le (fun e he => h e (by simp [he])) hk)

theorem Represents.lvl_pos {z : Zskiplist} {L : List E} (hR : Represents z L) :
    1 ≤ z.level := hR.level_eq ▸ listLevel_pos L

theorem Represents.lvl_le32 {z : Zskiplist} {L : List E} (hR : Represents z L) :
    z.level ≤ SkipListMaxLvl :=
  hR.level_eq ▸ listLevel_le (fun e he => (hR.h_bounds e he).2) (by norm_num [SkipListMaxLvl])

theorem posHeight_pos {z : Zskiplist} {L : List E} (hR : Represents z L) {p : Nat}
    (hp : p ≤ L.length) : 1 ≤ posHeight L p := by
  cases p with
  | zero => norm_num [posHeight, SkipListMaxLvl]
  | succ p => exact (hR.h_bounds _ (entry_mem L (by omega))).1

theorem posHeight_le_level {z : Zskiplist} {L : List E} (hR : Represents z L) {p : Nat}
    (hp1 : 1 ≤ p) (hpn : p ≤ L.length) : posHeight L p ≤ z.level := by
  cases p with
  | zero => omega
  | succ p =>
    rw [hR.level_eq]
    exact height_le_listLevel (entry_mem L (by omega))

theorem posHeight_le32 {z : Zskiplist} {L : List E} (hR : Represents z L) {p : Nat}
    (hpn : p ≤ L.length) : posHeight L p ≤ SkipListMaxLvl := by
  cases p with
  | zero => exact le_rfl
  | succ p => exact (hR.h_bounds _ (entry_mem L (by omega))).2

theorem nodeAt_member {z : Zskiplist} {L : List E} (hR : Represents z L) {p : Nat}
    (hp : p ≤ L.length) : (z.node (posId L p)).member = posMember L p := by
  cases p with
  | zero => exact hR.head_member
  | succ p => exact hR.node_member _ (entry_mem L (by omega))

theorem nodeAt_score {z : Zskiplist} {L : List E} (hR : Represents z L) {p : Nat}
    (hp : p ≤ L.length) : (z.node (posId L p)).score = posScore L p := by
  cases p with
  | zero => exact hR.head_score
  | succ p => exact hR.node_score _ (entry_mem L (by omega))

theorem posId_inj {z : Zskiplist} {L : List E} (hR : Represents z L) {p q : Nat}
    (hp : p ≤ L.length) (hq : q ≤ L.length) (h : posId L p = posId L q) : p = q := by
  cases p with
  | zero =>
    cases q with
    | zero => rfl
    | succ q =>
      exact absurd h.symm (Nat.ne_of_gt (hR.ids_pos _ (entry_mem L (by omega))))
  | succ p =>
    cases q with
    | zero => exact absurd h (Nat.ne_of_gt (hR.ids_pos _ (entry_mem L (by omega))))
    | succ q =>
      have := hR.ids_inj p q (by omega) (by omega) h
      omega

/-- Sorted order between real positions. -/
theorem pos_keyLt_of_lt {L : List E} (hs : L.Pairwise eLt) {p q : Nat}
    (hp : 1 ≤ p) (hpq : p < q) (hq : q ≤ L.length) :
    keyLtP (posScore L p) (posMember L p) (posScore L q) (posMember L q) := by
  cases p with
  | zero => omega
  | succ p =>
    cases q with
    | zero => omega
    | succ q =>
      have hpl : p < L.length := by omega
      have hql : q < L.length := by omega
      have h := List.pairwise_iff_get.1 hs ⟨p, hpl⟩ ⟨q, hql⟩ (by simpa using (by omega : p < q))
      simp only [List.get_eq_getElem] at h
      rw [posScore_succ hpl, posMember_succ hpl, posScore_succ hql, posMember_succ hql]
      exact h

theorem countLtKey_le_length (L : List E) (s : Score) (m : String) :
    countLtKey L s m ≤ L.length := List.countP_le_length _

/-- A real position's key lies below `(s, m)` exactly when the position
is at most `countLtKey L s m`. -/
theorem pos_le_ipos_iff {L : List E} (hs : L.Pairwise eLt) {s : Score} {m : String}
    {q : Nat} (hq1 : 1 ≤ q) (hqn : q ≤ L.length) :
    (keyLtP (posScore L q) (posMember L q) s m ↔ q ≤ countLtKey L s m) := by
  cases q with
  | zero => omega
  | succ q =>
    have hq' : q < L.length := by omega
    have hcl : ∀ i j, i ≤ j → j < L.length →
        (fun e => keyLt e.score e.member s m) (L.getD j default) = true →
        (fun e => keyLt e.score e.member s m) (L.getD i default) = true := by
      intro i j hij hj hP
      rcases eq_or_lt_of_le hij with rfl | hlt
      · exact hP
      · have hi' : i < L.length := by omega
        simp only at hP ⊢
        rw [keyLt_iff] at hP ⊢
        refine keyLtP_trans ?_ hP
        have h := pos_keyLt_of_lt hs (p := i+1) (q := j+1) (by omega) (by omega) (by omega)
        rw [posScore_succ hi', posMember_succ hi', posScore_succ hj, posMember_succ hj] at h
        rw [getD_bridge L hi', getD_bridge L hj]
        exact h
    have hiff := countP_low (fun e => keyLt e.score e.member s m) L hcl q hq'
    simp only at hiff
    rw [getD_bridge L hq'] at hiff
    rw [posScore_succ hq', posMember_succ hq', ← keyLt_iff, countLtKey]
    rw [hiff]
    omega

/-! ## Characterizing `nextPos` and `rankFrontier` -/

theorem find?_range'_some {P : Nat → Bool} :
    ∀ (cnt s q : Nat), (List.range' s cnt).find? P = some q →
      s ≤ q ∧ q < s + cnt ∧ P q = true ∧ ∀ r, s ≤ r → r < q → P r = false
  | 0, s, q, h => by simp [List.range'] at h
  | cnt+1, s, q, h => by
    rw [List.range'_succ] at h
    by_cases hs : P s = true
    · rw [List.find?_cons_of_pos _ hs] at h
      obtain rfl : s = q := by injection h
      exact ⟨le_rfl, by omega, hs, fun r h1 h2 => absurd h1 (by omega)⟩
    · have hs' : P s = false := by revert hs; cases P s <;> simp
      rw [List.find?_cons_of_neg _ (by simp [hs'])] at h
      obtain ⟨h1, h2, h3, h4⟩ := find?_range'_some cnt (s+1) q h
      refine ⟨by omega, by omega, h3, fun r hr1 hr2 => ?_⟩
      rcases eq_or_lt_of_le hr1 with rfl | hr
      · exact hs'
      · exact h4 r hr hr2

theorem find?_range'_eq_some {P : Nat → Bool} :
    ∀ (cnt s q : Nat), s ≤ q → q < s + cnt → P q = true →
      (∀ r, s ≤ r → r < q → P r = false) →
      (List.range' s cnt).find? P = some q
  | 0, s, q, h1, h2, _, _ => by omega
  | cnt+1, s, q, h1, h2, h3, h4 => by
    rw [List.range'_succ]
    rcases eq_or_lt_of_le h1 with rfl | hlt
    · rw [List.find?_cons_of_pos _ h3]
    · rw [List.find?_cons_of_neg _ (by simp [h4 s le_rfl hlt])]
      exact find?_range'_eq_some cnt (s+1) q (by omega) (by omega) h3 (fun r hr1 hr2 => h4 r (by omega) hr2)

theorem nextPos_some {L : List E} {l p q : Nat} (h : nextPos L l p = some q) :
    p < q ∧ q ≤ L.length ∧ l < posHeight L q ∧
      ∀ r, p < r → r < q → ¬ l < posHeight L r := by
  obtain ⟨h1, h2, h3, h4⟩ := find?_range'_some _ _ _ h
  refine ⟨by omega, by omega, by simpa using h3, fun r hr1 hr2 => ?_⟩
  have := h4 r (by omega) hr2
  simpa using this

theorem nextPos_eq_some {L : List E} {l p q : Nat} (hpq : p < q) (hq : q ≤ L.length)
    (hh : l < posHeight L q) (hmin : ∀ r, p < r → r < q → ¬ l < posHeight L r) :
    nextPos L l p = some q := by
  have hp : p < L.length := by omega
  refine find?_range'_eq_some _ _ _ (by omega) (by omega) (by simpa using hh) ?_
  intro r hr1 hr2
  simpa using hmin r (by omega) hr2

theorem nextPos_none {L : List E} {l p : Nat} (hp : p ≤ L.length)
    (h : nextPos L l p = none) :
    ∀ q, p < q → q ≤ L.length → ¬ l < posHeight L q := by
  intro q hq1 hq2
  rw [nextPos, List.find?_eq_none] at h
  have := h q (by rw [List.mem_range'_1]; omega)
  simpa using this

theorem nextPos_eq_none {L : List E} {l p : Nat}
    (h : ∀ q, p < q → q ≤ L.length → ¬ l < posHeight L q) :
    nextPos L l p = none := by
  rw [nextPos, List.find?_eq_none]
  intro q hq
  rw [List.mem_range'_1] at hq
  simpa using h q (by omega) (by omega)

theorem rankFrontier_le (L : List E) (B l : Nat) : rankFrontier L B l ≤ B :=
  Nat.findGreatest_le B

theorem le_rankFrontier {L : List E} {B l q : Nat} (hq : q ≤ B)
    (hP : l < posHeight L q) : q ≤ rankFrontier L B l :=
  Nat.le_findGreatest hq hP

theorem rankFrontier_height {L : List E} {B l : Nat} (h : rankFrontier L B l ≠ 0) :
    l < posHeight L (rankFrontier L B l) :=
  (Nat.findGreatest_eq_iff.1 rfl).2.1 h

theorem rankFrontier_max {L : List E} {B l q : Nat} (h1 : rankFrontier L B l < q)
    (h2 : q ≤ B) : ¬ l < posHeight L q := by
  have h := (Nat.findGreatest_eq_iff (P := fun q => l < posHeight L q) (k := B)
    (m := rankFrontier L B l)).1 rfl
  exact h.2.2 h1 h2

theorem rankFrontier_anti {L : List E} {B : Nat} {l l' : Nat} (h : l ≤ l') :
    rankFrontier L B l' ≤ rankFrontier L B l := by
  rcases Nat.eq_zero_or_pos (rankFrontier L B l') with h0 | h0
  · omega
  · exact le_rankFrontier (rankFrontier_le L B l')
      (lt_of_le_of_lt h (rankFrontier_height (by omega)))

/-- The height of a frontier position exceeds the level below, so the
next level's walk may start there. -/
theorem rankFrontier_height_lt {L : List E} {B l l' : Nat} (hl : l' ≤ l) :
    rankFrontier L B l = 0 ∨ l' < posHeight L (rankFrontier L B l) := by
  rcases Nat.eq_zero_or_pos (rankFrontier L B l) with h0 | h0
  · exact Or.inl h0
  · exact Or.inr (lt_of_le_of_lt hl (rankFrontier_height (by omega)))

/-! ## The generic walk: equations and characterization -/

theorem walkRank_eq_walkGen (z : Zskiplist) (s : Score) (m : String) (l : Nat) :
    ∀ fuel x r, walkRank z s m l fuel x r =
      walkGen z (fun nxt _ => keyLt (z.node nxt).score (z.node nxt).member s m) l fuel x r
  | 0, x, r => rfl
  | fuel+1, x, r => by
    simp only [walkRank, walkGen]
    cases hf : ((z.node x).levelAt l).forward with
    | none => rfl
    | some nxt =>
      dsimp only
      by_cases hc : keyLt (z.node nxt).score (z.node nxt).member s m = true
      · rw [if_pos hc, if_pos hc]
        exact walkRank_eq_walkGen z s m l fuel nxt _
      · rw [if_neg hc, if_neg hc]

theorem walkPlain_eq_walkRank (z : Zskiplist) (s : Score) (m : String) (l : Nat) :
    ∀ fuel x r, walkPlain z s m l fuel x = (walkRank z s m l fuel x r).1
  | 0, x, r => rfl
  | fuel+1, x, r => by
    simp only [walkPlain, walkRank]
    cases hf : ((z.node x).levelAt l).forward with
    | none => rfl
    | some nxt =>
      dsimp only
      by_cases hc : keyLt (z.node nxt).score (z.node nxt).member s m = true
      · rw [if_pos hc, if_pos hc]
        exact walkPlain_eq_walkRank z s m l fuel nxt _
      · rw [if_neg hc, if_neg hc]

theorem walkSpan_eq_walkGen (z : Zskiplist) (rank : Nat) (l : Nat) :
    ∀ fuel x t, walkSpan z rank l fuel x t =
      walkGen z (fun _ newt => decide (newt ≤ rank)) l fuel x t
  | 0, x, t => rfl
  | fuel+1, x, t => by
    simp only [walkSpan, walkGen]
    cases hf : ((z.node x).levelAt l).forward with
    | none => rfl
    | some nxt =>
      dsimp only
      by_cases hc : t + ((z.node x).levelAt l).span ≤ rank
      · rw [if_pos hc, if_pos (by simpa using hc)]
        exact walkSpan_eq_walkGen z rank l fuel nxt _
      · rw [if_neg hc, if_neg (by simpa using hc)]

theorem walkScoreLt_eq_walkGen (item : Zskiplist) (mn : Score) (l : Nat) :
    ∀ fuel x acc, walkScoreLt item mn l fuel x =
      (walkGen item (fun nxt _ => decide ((item.node nxt).score < mn)) l fuel x acc).1
  | 0, x, acc => rfl
  | fuel+1, x, acc => by
    simp only [walkScoreLt, walkGen]
    cases hf : ((item.node x).levelAt l).forward with
    | none => rfl
    | some nxt =>
      dsimp only
      by_cases hc : decide ((item.node nxt).score < mn) = true
      · rw [if_pos hc, if_pos hc]
        exact walkScoreLt_eq_walkGen item mn l fuel nxt _
      · rw [if_neg hc, if_neg hc]

theorem walkScoreLe_eq_walkGen (item : Zskiplist) (mx : Score) (l : Nat) :
    ∀ fuel x acc, walkScoreLe item mx l fuel x =
      (walkGen item (fun nxt _ => decide ((item.node nxt).score ≤ mx)) l fuel x acc).1
  | 0, x, acc => rfl
  | fuel+1, x, acc => by
    simp only [walkScoreLe, walkGen]
    cases hf : ((item.node x).levelAt l).forward with
    | none => rfl
    | some nxt =>
      dsimp only
      by_cases hc : decide ((item.node nxt).score ≤ mx) = true
      · rw [if_pos hc, if_pos hc]
        exact walkScoreLe_eq_walkGen item mx l fuel nxt _
      · rw [if_neg hc, if_neg hc]

/-- The central walk lemma: a level-`l` walk whose advance condition
holds exactly for positions `≤ B` stops at `max p (rankFrontier L B l)`,
and the accumulated spans track the position. -/
theorem walkGen_spec {z : Zskiplist} {L : List E} (hR : Represents z L)
    (cond : Nat → Nat → Bool) {B l : Nat} (hB : B ≤ L.length) (hl : l < z.level)
    (hcond : ∀ q, 1 ≤ q → q ≤ L.length → (cond (posId L q) q = true ↔ q ≤ B)) :
    ∀ fuel p, p ≤ B → l < posHeight L p → L.length < fuel + p →
      walkGen z cond l fuel (posId L p) p =
        (posId L (max p (rankFrontier L B l)), max p (rankFrontier L B l))
  | 0, p, hp, hph, hfuel => by
    have := countLtKey_le_length
    omega
  | fuel+1, p, hp, hph, hfuel => by
    have hpn : p ≤ L.length := le_trans hp hB
    have hgl : goodLevel z L p l := by
      cases p with
      | zero => exact hR.head_levels l hl
      | succ p => exact hR.node_levels (p+1) l (by omega) hpn hph
    rw [walkGen, goodLevel] at *
    cases hnp : nextPos L l p with
    | none =>
      rw [hnp] at hgl
      rw [hgl]
      have hfr : rankFrontier L B l ≤ p := by
        by_contra hc
        push_neg at hc
        have h1 := rankFrontier_height (L := L) (B := B) (l := l) (by omega)
        exact nextPos_none hpn hnp (rankFrontier L B l) hc
          (le_trans (rankFrontier_le L B l) hB) h1
      rw [max_eq_left hfr]
    | some q =>
      rw [hnp] at hgl
      obtain ⟨hq1, hq2, hq3, hq4⟩ := nextPos_some hnp
      rw [hgl.1, hgl.2, Nat.add_sub_cancel' hq1.le]
      dsimp only
      have hcq := hcond q (by omega) hq2
      by_cases hc : cond (posId L q) q = true
      · rw [if_pos hc]
        have hqB : q ≤ B := hcq.1 hc
        have hrec := walkGen_spec hR cond hB hl hcond fuel q hqB hq3 (by omega)
        rw [hrec]
        have hF : q ≤ rankFrontier L B l := le_rankFrontier hqB hq3
        rw [max_eq_right hF, max_eq_right (le_trans (by omega) hF)]
      · rw [if_neg hc]
        have hqB : B < q := by
          by_contra hc2
          exact hc (hcq.2 (by omega))
        have hfr : rankFrontier L B l ≤ p := by
          by_contra hc2
          push_neg at hc2
          have h1 := rankFrontier_height (L := L) (B := B) (l := l) (by omega)
          exact hq4 (rankFrontier L B l) hc2
            (lt_of_le_of_lt (rankFrontier_le L B l) hqB) h1
        rw [max_eq_left hfr]

/-! ## Arena size and specialized walks -/

theorem Represents.ids_nodup {z : Zskiplist} {L : List E} (hR : Represents z L) :
    (L.map E.id).Nodup := by
  rw [List.nodup_iff_injective_get]
  intro i j h
  simp only [List.get_eq_getElem, List.getElem_map] at h
  have hi : (i : Nat) < L.length := by simpa using i.2
  have hj : (j : Nat) < L.length := by simpa using j.2
  have := hR.ids_inj i j hi hj (by rw [getD_bridge L hi, getD_bridge L hj]; exact h)
  exact Fin.ext (by simpa using this)

theorem Represents.nodes_big {z : Zskiplist} {L : List E} (hR : Represents z L) :
    L.length < z.nodes.length := by
  have hnd := hR.ids_nodup
  have hsub : (L.map E.id).toFinset ⊆ (Finset.range z.nodes.length).erase 0 := by
    intro x hx
    rw [List.mem_toFinset, List.mem_map] at hx
    obtain ⟨e, he, rfl⟩ := hx
    rw [Finset.mem_erase, Finset.mem_range]
    exact ⟨(hR.ids_pos e he).ne', hR.ids_lt e he⟩
  have hcard := Finset.card_le_card hsub
  rw [List.toFinset_card_of_nodup hnd, List.length_map] at hcard
  have h0 : (0 : Nat) ∈ Finset.range z.nodes.length := by
    rw [Finset.mem_range]
    cases hne : z.nodes with
    | nil => exact absurd hne hR.nodes_ne
    | cons a t => simp [hne]
  rw [Finset.card_erase_of_mem h0, Finset.card_range] at hcard
  have h1 : 1 ≤ z.nodes.length := by
    cases hne : z.nodes with
    | nil => exact absurd hne hR.nodes_ne
    | cons a t => simp [hne]
  omega

/-- The `insert`/`getRank` walk instantiated at the canonical start. -/
theorem walk_keyLt_spec {z : Zskiplist} {L : List E} (hR : Represents z L)
    {s : Score} {m : String} {l p : Nat} (hl : l < z.level)
    (hp : p ≤ countLtKey L s m) (hph : l < posHeight L p) :
    walkRank z s m l z.nodes.length (posId L p) p =
      (posId L (max p (rankFrontier L (countLtKey L s m) l)),
       max p (rankFrontier L (countLtKey L s m) l)) := by
  rw [walkRank_eq_walkGen]
  refine walkGen_spec hR _ (countLtKey_le_length L s m) hl ?_ z.nodes.length p hp hph ?_
  · intro q hq1 hqn
    rw [nodeAt_score hR hqn, nodeAt_member hR hqn, keyLt_iff]
    exact pos_le_ipos_iff hR.sorted hq1 hqn
  · have := hR.nodes_big
    omega

/-- The `getNodeByRank` walk instantiated at the canonical start. -/
theorem walk_span_spec {z : Zskiplist} {L : List E} (hR : Represents z L)
    {rank l p : Nat} (hl : l < z.level) (hrank : rank ≤ L.length)
    (hp : p ≤ rank) (hph : l < posHeight L p) :
    walkSpan z rank l z.nodes.length (posId L p) p =
      (posId L (max p (rankFrontier L rank l)), max p (rankFrontier L rank l)) := by
  rw [walkSpan_eq_walkGen]
  refine walkGen_spec hR _ hrank hl ?_ z.nodes.length p hp hph ?_
  · intro q hq1 hqn
    simp
  · have := hR.nodes_big
    omega

/-- The level descent of `insert`: starting at position `p` (already at
or below the insertion point) with `k` levels left, the recorded update
node and rank at level `l` are both `max p (rankFrontier ·)`. -/
theorem insertDescend_spec {z : Zskiplist} {L : List E} (hR : Represents z L)
    (s : Score) (m : String) :
    ∀ (k p : Nat), k ≤ z.level → p ≤ countLtKey L s m →
      (p = 0 ∨ k ≤ posHeight L p) →
      insertDescend z s m k (posId L p) p =
        (List.range k).map (fun l =>
          (posId L (max p (rankFrontier L (countLtKey L s m) l)),
           max p (rankFrontier L (countLtKey L s m) l)))
  | 0, p, _, _, _ => by simp [insertDescend]
  | k+1, p, hk, hp, hph => by
    have hphk : k < posHeight L p := by
      rcases hph with rfl | h
      · have := hR.lvl_le32
        simp only [posHeight]
        omega
      · omega
    have hw := walk_keyLt_spec hR (l := k) (p := p) (by omega) hp hphk
    simp only [insertDescend, hw]
    have hS : max p (rankFrontier L (countLtKey L s m) k) ≤ countLtKey L s m :=
      max_le hp (rankFrontier_le _ _ _)
    have hphS : max p (rankFrontier L (countLtKey L s m) k) = 0 ∨
        k ≤ posHeight L (max p (rankFrontier L (countLtKey L s m) k)) := by
      rcases le_or_lt (rankFrontier L (countLtKey L s m) k) p with hle | hlt
      · rw [max_eq_left hle]
        rcases hph with rfl | h
        · exact Or.inl rfl
        · exact Or.inr (by omega)
      · rw [max_eq_right hlt.le]
        exact Or.inr (le_of_lt (rankFrontier_height (by omega)))
    rw [insertDescend_spec hR s m k _ (by omega) hS hphS]
    rw [List.range_succ, List.map_append]
    congr 1
    · apply List.map_congr_left
      intro l hl
      rw [List.mem_range] at hl
      have h1 : rankFrontier L (countLtKey L s m) k ≤
          rankFrontier L (countLtKey L s m) l := rankFrontier_anti (by omega)
      have h2 : max (max p (rankFrontier L (countLtKey L s m) k))
          (rankFrontier L (countLtKey L s m) l) =
          max p (rankFrontier L (countLtKey L s m) l) := by omega
      rw [h2]

/-! ## Characterizing the delete descent, getRank, getNodeByRank -/

theorem deleteDescend_spec {z : Zskiplist} {L : List E} (hR : Represents z L)
    (s : Score) (m : String) :
    ∀ (k p : Nat), k ≤ z.level → p ≤ countLtKey L s m →
      (p = 0 ∨ k ≤ posHeight L p) →
      deleteDescend z s m k (posId L p) =
        (List.range k).map (fun l => posId L (max p (rankFrontier L (countLtKey L s m) l)))
  | 0, p, _, _, _ => by simp [deleteDescend]
  | k+1, p, hk, hp, hph => by
    have hphk : k < posHeight L p := by
      rcases hph with rfl | h
      · have := hR.lvl_le32
        simp only [posHeight]
        omega
      · omega
    have hw := walk_keyLt_spec hR (l := k) (p := p) (by omega) hp hphk
    have hw' : walkPlain z s m k z.nodes.length (posId L p) =
        posId L (max p (rankFrontier L (countLtKey L s m) k)) := by
      rw [walkPlain_eq_walkRank z s m k z.nodes.length _ p, hw]
    simp only [deleteDescend, hw']
    have hS : max p (rankFrontier L (countLtKey L s m) k) ≤ countLtKey L s m :=
      max_le hp (rankFrontier_le _ _ _)
    have hphS : max p (rankFrontier L (countLtKey L s m) k) = 0 ∨
        k ≤ posHeight L (max p (rankFrontier L (countLtKey L s m) k)) := by
      rcases le_or_lt (rankFrontier L (countLtKey L s m) k) p with hle | hlt
      · rw [max_eq_left hle]
        rcases hph with rfl | h
        · exact Or.inl rfl
        · exact Or.inr (by omega)
      · rw [max_eq_right hlt.le]
        exact Or.inr (le_of_lt (rankFrontier_height (by omega)))
    rw [deleteDescend_spec hR s m k _ (by omega) hS hphS]
    rw [List.range_succ, List.map_append]
    congr 1
    apply List.map_congr_left
    intro l hl
    rw [List.mem_range] at hl
    have h1 : rankFrontier L (countLtKey L s m) k ≤
        rankFrontier L (countLtKey L s m) l := rankFrontier_anti (by omega)
    have h2 : max (max p (rankFrontier L (countLtKey L s m) k))
        (rankFrontier L (countLtKey L s m) l) =
        max p (rankFrontier L (countLtKey L s m) l) := by omega
    rw [h2]

theorem frontier_zero_eq {z : Zskiplist} {L : List E} (hR : Represents z L)
    {B : Nat} (hB : B ≤ L.length) : rankFrontier L B 0 = B := by
  rcases Nat.eq_zero_or_pos B with rfl | hBpos
  · simp [rankFrontier]
  · exact Nat.findGreatest_eq (posHeight_pos hR hB)

theorem getRankAux_le {z : Zskiplist} {L : List E} (hR : Represents z L)
    (s : Score) (m : String) :
    ∀ (k p : Nat), k ≤ z.level → p ≤ countLtKey L s m →
      (p = 0 ∨ k ≤ posHeight L p) →
      getRankAux z s m k (posId L p) p ≤ countLtKey L s m
  | 0, p, _, hp, _ => hp
  | k+1, p, hk, hp, hph => by
    have hphk : k < posHeight L p := by
      rcases hph with rfl | h
      · have := hR.lvl_le32
        simp only [posHeight]
        omega
      · omega
    have hw := walk_keyLt_spec hR (l := k) (p := p) (by omega) hp hphk
    simp only [getRankAux, hw]
    have hS : max p (rankFrontier L (countLtKey L s m) k) ≤ countLtKey L s m :=
      max_le hp (rankFrontier_le _ _ _)
    by_cases hc : ((z.node (posId L (max p (rankFrontier L (countLtKey L s m) k)))).member
        == m) = true
    · rw [if_pos hc]
      exact hS
    · rw [if_neg hc]
      have hphS : max p (rankFrontier L (countLtKey L s m) k) = 0 ∨
          k ≤ posHeight L (max p (rankFrontier L (countLtKey L s m) k)) := by
        rcases le_or_lt (rankFrontier L (countLtKey L s m) k) p with hle | hlt
        · rw [max_eq_left hle]
          rcases hph with rfl | h
          · exact Or.inl rfl
          · exact Or.inr (by omega)
        · rw [max_eq_right hlt.le]
          exact Or.inr (le_of_lt (rankFrontier_height (by omega)))
      exact getRankAux_le hR s m k _ (by omega) hS hphS

theorem getRank_le {z : Zskiplist} {L : List E} (hR : Represents z L)
    (s : Score) (m : String) : z.getRank s m ≤ countLtKey L s m := by
  rw [Zskiplist.getRank, hR.head_eq]
  exact getRankAux_le hR s m z.level 0 le_rfl (Nat.zero_le _) (Or.inl rfl)

theorem getRankAux_eq {z : Zskiplist} {L : List E} (hR : Represents z L)
    (s : Score) (m : String)
    (hnm : ∀ q, q ≤ countLtKey L s m → posMember L q ≠ m) :
    ∀ (k p : Nat), 1 ≤ k → k ≤ z.level → p ≤ countLtKey L s m →
      (p = 0 ∨ k ≤ posHeight L p) →
      getRankAux z s m k (posId L p) p = countLtKey L s m
  | 0, p, h1, _, _, _ => by omega
  | k+1, p, _, hk, hp, hph => by
    have hphk : k < posHeight L p := by
      rcases hph with rfl | h
      · have := hR.lvl_le32
        simp only [posHeight]
        omega
      · omega
    have hw := walk_keyLt_spec hR (l := k) (p := p) (by omega) hp hphk
    simp only [getRankAux, hw]
    have hS : max p (rankFrontier L (countLtKey L s m) k) ≤ countLtKey L s m :=
      max_le hp (rankFrontier_le _ _ _)
    have hSn : max p (rankFrontier L (countLtKey L s m) k) ≤ L.length :=
      le_trans hS (countLtKey_le_length L s m)
    have hmem : (z.node (posId L (max p (rankFrontier L (countLtKey L s m) k)))).member ≠ m := by
      rw [nodeAt_member hR hSn]
      exact hnm _ hS
    rw [if_neg (by simpa using hmem)]
    cases k with
    | zero =>
      -- after the level-0 walk the position is exactly countLtKey
      have h0 := frontier_zero_eq hR (countLtKey_le_length L s m)
      simp only [getRankAux]
      omega
    | succ k =>
      have hphS : max p (rankFrontier L (countLtKey L s m) (k+1)) = 0 ∨
          (k+1) ≤ posHeight L (max p (rankFrontier L (countLtKey L s m) (k+1))) := by
        rcases le_or_lt (rankFrontier L (countLtKey L s m) (k+1)) p with hle | hlt
        · rw [max_eq_left hle]
          rcases hph with rfl | h
          · exact Or.inl rfl
          · exact Or.inr (by omega)
        · rw [max_eq_right hlt.le]
          exact Or.inr (le_of_lt (rankFrontier_height (by omega)))
      exact getRankAux_eq hR s m hnm (k+1) _ (by omega) (by omega) hS hphS

theorem getRank_eq {z : Zskiplist} {L : List E} (hR : Represents z L)
    {s : Score} {m : String}
    (hnm : ∀ q, q ≤ countLtKey L s m → posMember L q ≠ m) :
    z.getRank s m = countLtKey L s m := by
  rw [Zskiplist.getRank, hR.head_eq]
  exact getRankAux_eq hR s m hnm z.level 0 hR.lvl_pos le_rfl (Nat.zero_le _) (Or.inl rfl)

theorem getNodeByRankAux_eq {z : Zskiplist} {L : List E} (hR : Represents z L)
    {rank : Nat} (hr1 : 1 ≤ rank) (hrn : rank ≤ L.length) :
    ∀ (k p : Nat), 1 ≤ k → k ≤ z.level → p ≤ rank →
      (p = 0 ∨ k ≤ posHeight L p) →
      getNodeByRankAux z rank k (posId L p) p = some (posId L rank)
  | 0, p, h1, _, _, _ => by omega
  | k+1, p, _, hk, hp, hph => by
    have hphk : k < posHeight L p := by
      rcases hph with rfl | h
      · have := hR.lvl_le32
        simp only [posHeight]
        omega
      · omega
    have hw := walk_span_spec hR (l := k) (p := p) (by omega) hrn hp hphk
    simp only [getNodeByRankAux, hw]
    have hS : max p (rankFrontier L rank k) ≤ rank :=
      max_le hp (rankFrontier_le _ _ _)
    by_cases hc : max p (rankFrontier L rank k) = rank
    · rw [if_pos hc, hc]
    · rw [if_neg hc]
      cases k with
      | zero =>
        have h0 := frontier_zero_eq hR hrn
        omega
      | succ k =>
        have hphS : max p (rankFrontier L rank (k+1)) = 0 ∨
            (k+1) ≤ posHeight L (max p (rankFrontier L rank (k+1))) := by
          rcases le_or_lt (rankFrontier L rank (k+1)) p with hle | hlt
          · rw [max_eq_left hle]
            rcases hph with rfl | h
            · exact Or.inl rfl
            · exact Or.inr (by omega)
          · rw [max_eq_right hlt.le]
            exact Or.inr (le_of_lt (rankFrontier_height (by omega)))
        exact getNodeByRankAux_eq hR hr1 hrn (k+1) _ (by omega) (by omega) hS hphS

theorem getNodeByRank_spec {z : Zskiplist} {L : List E} (hR : Represents z L)
    {rank : Nat} (hr1 : 1 ≤ rank) (hrn : rank ≤ L.length) :
    z.getNodeByRank rank = some (posId L rank) := by
  rw [Zskiplist.getNodeByRank, if_neg, hR.head_eq]
  · exact getNodeByRankAux_eq hR hr1 hrn z.level 0 hR.lvl_pos le_rfl (Nat.zero_le _)
      (Or.inl rfl)
  · rw [hR.length_eq]
    simp only [Bool.or_eq_true, decide_eq_true_eq]
    omega

theorem getNodeByRank_none {z : Zskiplist} {L : List E} (hR : Represents z L)
    {rank : Nat} (h : rank = 0 ∨ L.length < rank) :
    z.getNodeByRank rank = none := by
  rw [Zskiplist.getNodeByRank, if_pos]
  rw [hR.length_eq]
  simp only [Bool.or_eq_true, decide_eq_true_eq]
  omega

/-! ## The level-0 chain, spans and backwards links -/

theorem nextPos_zero_succ {z : Zskiplist} {L : List E} (hR : Represents z L)
    {p : Nat} (hp : p < L.length) : nextPos L 0 p = some (p+1) :=
  nextPos_eq_some (by omega) (by omega) (posHeight_pos hR (by omega))
    (fun r hr1 hr2 => by omega)

theorem nextPos_last (L : List E) (l : Nat) : nextPos L l L.length = none :=
  nextPos_eq_none (fun q hq1 hq2 => by omega)

/-- Level-0 slot of any position: forward to the successor with span 1,
or nil at the last node. -/
theorem slot0_at {z : Zskiplist} {L : List E} (hR : Represents z L)
    {p : Nat} (hp : p ≤ L.length) :
    (p < L.length →
      ((z.node (posId L p)).levelAt 0).forward = some (posId L (p+1)) ∧
      ((z.node (posId L p)).levelAt 0).span = 1) ∧
    (p = L.length → ((z.node (posId L p)).levelAt 0).forward = none) := by
  have hgl : goodLevel z L p 0 := by
    cases p with
    | zero => exact hR.head_levels 0 hR.lvl_pos
    | succ p => exact hR.node_levels (p+1) 0 (by omega) hp (posHeight_pos hR hp)
  rw [goodLevel] at hgl
  constructor
  · intro hlt
    rw [nextPos_zero_succ hR hlt] at hgl
    exact ⟨hgl.1, by omega⟩
  · intro heq
    subst heq
    rw [nextPos_last] at hgl
    exact hgl

theorem chainFrom_spec {z : Zskiplist} {L : List E} (hR : Represents z L) :
    ∀ (cnt p fuel : Nat), p + cnt = L.length → cnt ≤ fuel →
      chainFrom z fuel (((z.node (posId L p)).levelAt 0).forward) =
        (List.range' (p+1) cnt).map (posId L)
  | 0, p, fuel, hpc, _ => by
    have h := (slot0_at hR (p := p) (by omega)).2 (by omega)
    rw [h]
    cases fuel <;> simp [chainFrom]
  | cnt+1, p, fuel, hpc, hf => by
    have h := (slot0_at hR (p := p) (by omega)).1 (by omega)
    rw [h.1]
    cases fuel with
    | zero => omega
    | succ fuel =>
      rw [chainFrom]
      rw [chainFrom_spec hR cnt (p+1) fuel (by omega) (by omega)]
      rw [List.range'_succ]
      simp

theorem chain0_spec {z : Zskiplist} {L : List E} (hR : Represents z L) :
    chain0 z = (List.range' 1 L.length).map (posId L) := by
  rw [chain0, hR.head_eq]
  exact chainFrom_spec hR L.length 0 z.nodes.length (by omega) (le_of_lt hR.nodes_big)

theorem chain0_members {z : Zskiplist} {L : List E} (hR : Represents z L) :
    (chain0 z).map (fun i => (z.node i).member) = L.map E.member := by
  rw [chain0_spec hR, List.map_map]
  apply List.ext_getElem
  · simp
  · intro i h1 h2
    simp only [List.getElem_map, List.getElem_range', Function.comp_apply]
    have hi : i < L.length := by simpa using h2
    rw [show 1 + 1 * i = i + 1 from by omega]
    rw [nodeAt_member hR (p := i + 1) (by omega), posMember_succ hi]

/-- Span sums along the level-0 path: the fold over the first `k`
positions accumulates exactly `k`. -/
theorem sumSpans0_fold {z : Zskiplist} {L : List E} (hR : Represents z L) :
    ∀ (len a acc : Nat), a + len ≤ L.length →
      ((List.range' a len).map (posId L)).foldl
        (fun acc i => acc + ((z.node i).levelAt 0).span) acc = acc + len
  | 0, a, acc, _ => by simp
  | len+1, a, acc, h => by
    rw [List.range'_succ]
    simp only [List.map_cons, List.foldl_cons]
    have hsp := ((slot0_at hR (p := a) (by omega)).1 (by omega)).2
    rw [hsp]
    rw [sumSpans0_fold hR len (a+1) (acc+1) (by omega)]
    omega

theorem sumSpans0_eq {z : Zskiplist} {L : List E} (hR : Represents z L)
    {k : Nat} (hk : k ≤ L.length) : sumSpans0 z k = k := by
  rw [sumSpans0, chain0_spec hR, hR.head_eq]
  have h1 : (0 : Nat) :: (List.range' 1 L.length).map (posId L) =
      (List.range' 0 (L.length + 1)).map (posId L) := by
    rw [List.range'_succ]
    simp [posId]
  rw [h1]
  have h2 : List.range' 0 (L.length + 1) = List.range' 0 k ++ List.range' k (L.length + 1 - k) := by
    have h4 := List.range'_append_1 0 k (L.length + 1 - k)
    simp only [Nat.zero_add] at h4
    rw [h4]
    congr 1
    omega
  rw [h2, List.map_append]
  have h3 : ((List.range' 0 k).map (posId L)).length = k := by simp
  rw [List.take_left' h3]
  have h5 := sumSpans0_fold hR k 0 0 (by omega)
  omega

/-! ## Score-bounded prefixes and the score-range loops -/

theorem pos_score_mono {L : List E} (hs : L.Pairwise eLt) {p q : Nat}
    (hp : 1 ≤ p) (hpq : p ≤ q) (hq : q ≤ L.length) : posScore L p ≤ posScore L q := by
  rcases eq_or_lt_of_le hpq with rfl | hlt
  · exact le_rfl
  · rcases pos_keyLt_of_lt hs hp hlt hq with h | ⟨h, _⟩
    · exact le_of_lt h
    · exact le_of_eq h

theorem countScoreLt_le_length (L : List E) (s : Score) :
    countScoreLt L s ≤ L.length := List.countP_le_length _

theorem countScoreLe_le_length (L : List E) (s : Score) :
    countScoreLe L s ≤ L.length := List.countP_le_length _

theorem pos_score_lt_iff {L : List E} (hs : L.Pairwise eLt) {mn : Score}
    {q : Nat} (hq1 : 1 ≤ q) (hqn : q ≤ L.length) :
    (posScore L q < mn ↔ q ≤ countScoreLt L mn) := by
  cases q with
  | zero => omega
  | succ q =>
    have hq' : q < L.length := by omega
    have hcl : ∀ i j, i ≤ j → j < L.length →
        (fun e => decide (e.score < mn)) (L.getD j default) = true →
        (fun e => decide (e.score < mn)) (L.getD i default) = true := by
      intro i j hij hj hP
      simp only [decide_eq_true_eq] at hP ⊢
      rcases eq_or_lt_of_le hij with rfl | hlt
      · exact hP
      · have hi' : i < L.length := by omega
        have hm := pos_score_mono hs (p := i+1) (q := j+1) (by omega) (by omega) (by omega)
        rw [posScore_succ hi', posScore_succ hj] at hm
        rw [getD_bridge L hi']
        rw [getD_bridge L hj] at hP
        exact lt_of_le_of_lt hm hP
    have hiff := countP_low (fun e => decide (e.score < mn)) L hcl q hq'
    simp only [decide_eq_true_eq] at hiff
    rw [getD_bridge L hq'] at hiff
    rw [posScore_succ hq', countScoreLt]
    constructor
    · intro h
      have := hiff.1 h
      omega
    · intro h
      exact hiff.2 (by omega)

theorem pos_score_le_iff {L : List E} (hs : L.Pairwise eLt) {mx : Score}
    {q : Nat} (hq1 : 1 ≤ q) (hqn : q ≤ L.length) :
    (posScore L q ≤ mx ↔ q ≤ countScoreLe L mx) := by
  cases q with
  | zero => omega
  | succ q =>
    have hq' : q < L.length := by omega
    have hcl : ∀ i j, i ≤ j → j < L.length →
        (fun e => decide (e.score ≤ mx)) (L.getD j default) = true →
        (fun e => decide (e.score ≤ mx)) (L.getD i default) = true := by
      intro i j hij hj hP
      simp only [decide_eq_true_eq] at hP ⊢
      rcases eq_or_lt_of_le hij with rfl | hlt
      · exact hP
      · have hi' : i < L.length := by omega
        have hm := pos_score_mono hs (p := i+1) (q := j+1) (by omega) (by omega) (by omega)
        rw [posScore_succ hi', posScore_succ hj] at hm
        rw [getD_bridge L hi']
        rw [getD_bridge L hj] at hP
        exact le_trans hm hP
    have hiff := countP_low (fun e => decide (e.score ≤ mx)) L hcl q hq'
    simp only [decide_eq_true_eq] at hiff
    rw [getD_bridge L hq'] at hiff
    rw [posScore_succ hq', countScoreLe]
    constructor
    · intro h
      have := hiff.1 h
      omega
    · intro h
      exact hiff.2 (by omega)

theorem walk_scoreLt_spec {z : Zskiplist} {L : List E} (hR : Represents z L)
    {mn : Score} {l p : Nat} (hl : l < z.level) (hp : p ≤ countScoreLt L mn)
    (hph : l < posHeight L p) :
    walkScoreLt z mn l z.nodes.length (posId L p) =
      posId L (max p (rankFrontier L (countScoreLt L mn) l)) := by
  rw [walkScoreLt_eq_walkGen z mn l z.nodes.length (posId L p) p]
  rw [walkGen_spec hR _ (countScoreLt_le_length L mn) hl ?_ z.nodes.length p hp hph ?_]
  · intro q hq1 hqn
    rw [nodeAt_score hR hqn]
    simp only [decide_eq_true_eq]
    exact pos_score_lt_iff hR.sorted hq1 hqn
  · have := hR.nodes_big
    omega

theorem walk_scoreLe_spec {z : Zskiplist} {L : List E} (hR : Represents z L)
    {mx : Score} {l p : Nat} (hl : l < z.level) (hp : p ≤ countScoreLe L mx)
    (hph : l < posHeight L p) :
    walkScoreLe z mx l z.nodes.length (posId L p) =
      posId L (max p (rankFrontier L (countScoreLe L mx) l)) := by
  rw [walkScoreLe_eq_walkGen z mx l z.nodes.length (posId L p) p]
  rw [walkGen_spec hR _ (countScoreLe_le_length L mx) hl ?_ z.nodes.length p hp hph ?_]
  · intro q hq1 hqn
    rw [nodeAt_score hR hqn]
    simp only [decide_eq_true_eq]
    exact pos_score_le_iff hR.sorted hq1 hqn
  · have := hR.nodes_big
    omega

theorem scoreDescend_spec {z : Zskiplist} {L : List E} (hR : Represents z L)
    {mn : Score} :
    ∀ (k p : Nat), 1 ≤ k → k ≤ z.level → p ≤ countScoreLt L mn →
      (p = 0 ∨ k ≤ posHeight L p) →
      scoreDescend z mn k (posId L p) = posId L (max p (countScoreLt L mn))
  | 0, p, h1, _, _, _ => by omega
  | k+1, p, _, hk, hp, hph => by
    have hphk : k < posHeight L p := by
      rcases hph with rfl | h
      · have := hR.lvl_le32
        simp only [posHeight]
        omega
      · omega
    have hw := walk_scoreLt_spec hR (l := k) (p := p) (by omega) hp hphk
    simp only [scoreDescend, hw]
    have hS : max p (rankFrontier L (countScoreLt L mn) k) ≤ countScoreLt L mn :=
      max_le hp (rankFrontier_le _ _ _)
    cases k with
    | zero =>
      simp only [scoreDescend]
      rw [frontier_zero_eq hR (countScoreLt_le_length L mn)]
    | succ k =>
      have hphS : max p (rankFrontier L (countScoreLt L mn) (k+1)) = 0 ∨
          (k+1) ≤ posHeight L (max p (rankFrontier L (countScoreLt L mn) (k+1))) := by
        rcases le_or_lt (rankFrontier L (countScoreLt L mn) (k+1)) p with hle | hlt
        · rw [max_eq_left hle]
          rcases hph with rfl | h
          · exact Or.inl rfl
          · exact Or.inr (by omega)
        · rw [max_eq_right hlt.le]
          exact Or.inr (le_of_lt (rankFrontier_height (by omega)))
      rw [scoreDescend_spec hR (k+1) _ (by omega) (by omega) hS hphS]
      have h2 : max (max p (rankFrontier L (countScoreLt L mn) (k+1)))
          (countScoreLt L mn) = max p (countScoreLt L mn) := by
        have := rankFrontier_le L (countScoreLt L mn) (k+1)
        omega
      rw [h2]

theorem revScoreDescend_spec {z : Zskiplist} {L : List E} (hR : Represents z L)
    {mx : Score} :
    ∀ (k p : Nat), 1 ≤ k → k ≤ z.level → p ≤ countScoreLe L mx →
      (p = 0 ∨ k ≤ posHeight L p) →
      revScoreDescend z mx k (posId L p) = posId L (max p (countScoreLe L mx))
  | 0, p, h1, _, _, _ => by omega
  | k+1, p, _, hk, hp, hph => by
    have hphk : k < posHeight L p := by
      rcases hph with rfl | h
      · have := hR.lvl_le32
        simp only [posHeight]
        omega
      · omega
    have hw := walk_scoreLe_spec hR (l := k) (p := p) (by omega) hp hphk
    simp only [revScoreDescend, hw]
    have hS : max p (rankFrontier L (countScoreLe L mx) k) ≤ countScoreLe L mx :=
      max_le hp (rankFrontier_le _ _ _)
    cases k with
    | zero =>
      simp only [revScoreDescend]
      rw [frontier_zero_eq hR (countScoreLe_le_length L mx)]
    | succ k =>
      have hphS : max p (rankFrontier L (countScoreLe L mx) (k+1)) = 0 ∨
          (k+1) ≤ posHeight L (max p (rankFrontier L (countScoreLe L mx) (k+1))) := by
        rcases le_or_lt (rankFrontier L (countScoreLe L mx) (k+1)) p with hle | hlt
        · rw [max_eq_left hle]
          rcases hph with rfl | h
          · exact Or.inl rfl
          · exact Or.inr (by omega)
        · rw [max_eq_right hlt.le]
          exact Or.inr (le_of_lt (rankFrontier_height (by omega)))
      rw [revScoreDescend_spec hR (k+1) _ (by omega) (by omega) hS hphS]
      have h2 : max (max p (rankFrontier L (countScoreLe L mx) (k+1)))
          (countScoreLe L mx) = max p (countScoreLe L mx) := by
        have := rankFrontier_le L (countScoreLe L mx) (k+1)
        omega
      rw [h2]

/-! ## The emit loops of the score-range queries -/

theorem emitWhileLe_nil (z : Zskiplist) (mx : Score) (cnt : Nat) :
    emitWhileLe z mx cnt none = [] := by
  cases cnt <;> rfl

theorem emitWhileGe_nil (z : Zskiplist) (mn : Score) (cnt : Nat) :
    emitWhileGe z mn cnt none = [] := by
  cases cnt <;> rfl

theorem emitWhileLe_spec {z : Zskiplist} {L : List E} (hR : Represents z L) {mx : Score} :
    ∀ (cnt p : Nat), 1 ≤ p → p ≤ L.length → L.length < cnt + p →
      emitWhileLe z mx cnt (some (posId L p)) =
        (List.range' p (countScoreLe L mx + 1 - p)).map
          (fun q => (posMember L q, posScore L q))
  | 0, p, hp1, hpn, hf => by omega
  | cnt+1, p, hp1, hpn, hf => by
    rw [emitWhileLe]
    rw [nodeAt_score hR hpn, nodeAt_member hR hpn]
    by_cases hc : posScore L p ≤ mx
    · rw [if_pos (by simpa using hc)]
      have hple : p ≤ countScoreLe L mx := (pos_score_le_iff hR.sorted hp1 hpn).1 hc
      rcases eq_or_lt_of_le hpn with rfl | hplt
      · -- last node: forward is nil
        rw [(slot0_at hR (p := L.length) le_rfl).2 rfl, emitWhileLe_nil]
        have hcnt : countScoreLe L mx = L.length :=
          le_antisymm (countScoreLe_le_length L mx) hple
        rw [hcnt, show L.length + 1 - L.length = 1 from by omega]
        simp
      · rw [((slot0_at hR (p := p) (by omega)).1 hplt).1]
        rw [emitWhileLe_spec hR cnt (p+1) (by omega) (by omega) (by omega)]
        rw [show countScoreLe L mx + 1 - p = (countScoreLe L mx + 1 - (p+1)) + 1 from by omega]
        rw [List.range'_succ]
        simp
    · rw [if_neg (by simpa using hc)]
      have : countScoreLe L mx < p := by
        by_contra h2
        exact hc ((pos_score_le_iff hR.sorted hp1 hpn).2 (by omega))
      rw [show countScoreLe L mx + 1 - p = 0 from by omega]
      simp

theorem emitWhileGe_spec {z : Zskiplist} {L : List E} (hR : Represents z L) {mn : Score} :
    ∀ (cnt p : Nat), 1 ≤ p → p ≤ L.length → p < cnt →
      emitWhileGe z mn cnt (some (posId L p)) =
        ((List.range' (countScoreLt L mn + 1) (p - countScoreLt L mn)).map
          (fun q => (posMember L q, posScore L q))).reverse
  | 0, p, hp1, hpn, hf => by omega
  | cnt+1, p, hp1, hpn, hf => by
    rw [emitWhileGe]
    rw [nodeAt_score hR hpn, nodeAt_member hR hpn]
    by_cases hc : mn ≤ posScore L p
    · rw [if_pos (by simpa using hc)]
      have hplt : countScoreLt L mn < p := by
        by_contra h2
        have h3 := (@pos_score_lt_iff L hR.sorted mn p hp1 hpn).2 (by omega)
        exact absurd hc (by simpa using h3)
      have hback := hR.node_back p hp1 hpn
      by_cases hpe : p = 1
      · subst hpe
        rw [hback, if_pos rfl, emitWhileGe_nil]
        have h0 : countScoreLt L mn = 0 := by omega
        rw [h0]
        simp
      · rw [hback, if_neg hpe]
        rw [emitWhileGe_spec hR cnt (p-1) (by omega) (by omega) (by omega)]
        rw [show p - countScoreLt L mn = (p - 1 - countScoreLt L mn) + 1 from by omega]
        have hsplit := List.range'_append_1 (countScoreLt L mn + 1)
          (p - 1 - countScoreLt L mn) 1
        rw [show countScoreLt L mn + 1 + (p - 1 - countScoreLt L mn) = p from by omega]
          at hsplit
        rw [show (p - 1 - countScoreLt L mn) + 1 = 1 + (p - 1 - countScoreLt L mn) from by
          omega, ← hsplit, List.map_append, List.reverse_append]
        simp
    · rw [if_neg (by simpa using hc)]
      have h4 : p ≤ countScoreLt L mn := by
        have h5 := (@pos_score_lt_iff L hR.sorted mn p hp1 hpn).1 (by simpa using hc)
        omega
      rw [show p - countScoreLt L mn = 0 from by omega]
      simp

/-! ## The collect functions and the rank-range fetch loop -/

theorem collectElementsInRange_spec {z : Zskiplist} {L : List E} (hR : Represents z L)
    (mn mx : Score) :
    collectElementsInRange z mn mx =
      (List.range' (countScoreLt L mn + 1) (countScoreLe L mx + 1 - (countScoreLt L mn + 1))).map
        (fun q => (posMember L q, posScore L q)) := by
  rw [collectElementsInRange, hR.head_eq]
  have hd : scoreDescend z mn z.level 0 = posId L (countScoreLt L mn) := by
    have h := @scoreDescend_spec z L hR mn z.level 0 hR.lvl_pos le_rfl (Nat.zero_le _) (Or.inl rfl)
    simpa using h
  rw [hd]
  rcases eq_or_lt_of_le (countScoreLt_le_length L mn) with heq | hlt
  · rw [(slot0_at hR (p := countScoreLt L mn) (by omega)).2 heq, emitWhileLe_nil]
    rw [show countScoreLe L mx + 1 - (countScoreLt L mn + 1) = 0 from by
      have := countScoreLe_le_length L mx
      omega]
    simp
  · rw [((slot0_at hR (p := countScoreLt L mn) (by omega)).1 hlt).1]
    rw [emitWhileLe_spec hR z.nodes.length (countScoreLt L mn + 1) (by omega) (by omega)
      (by have := hR.nodes_big; omega)]

theorem collectElementsInReverseRange_spec {z : Zskiplist} {L : List E}
    (hR : Represents z L) (mx mn : Score) (hpos : 1 ≤ countScoreLe L mx) :
    collectElementsInReverseRange z mx mn =
      ((List.range' (countScoreLt L mn + 1) (countScoreLe L mx - countScoreLt L mn)).map
        (fun q => (posMember L q, posScore L q))).reverse := by
  rw [collectElementsInReverseRange, hR.head_eq]
  have hd : revScoreDescend z mx z.level 0 = posId L (countScoreLe L mx) := by
    have h := @revScoreDescend_spec z L hR mx z.level 0 hR.lvl_pos le_rfl (Nat.zero_le _) (Or.inl rfl)
    simpa using h
  rw [hd]
  rw [emitWhileGe_spec hR z.nodes.length (countScoreLe L mx) hpos
    (countScoreLe_le_length L mx) (by have := hR.nodes_big
                                      have := countScoreLe_le_length L mx
                                      omega)]

theorem fetchLoop_asc_spec {set : Zset} {L : List E} (hR : Represents set.zsl L) :
    ∀ (cnt p : Nat), 1 ≤ p → p ≤ L.length →
      fetchLoop set false false cnt (some (posId L p)) =
        (List.range' p (min (L.length + 1 - p) cnt)).map (fun q => RItem.str (posMember L q))
  | 0, p, hp1, hpn => by simp [fetchLoop]
  | cnt+1, p, hp1, hpn => by
    rw [fetchLoop]
    rw [if_neg (by simp)]
    rw [nodeAt_member hR hpn]
    rw [Zset.getNextNode, if_neg (by simp)]
    rcases eq_or_lt_of_le hpn with rfl | hplt
    · rw [(slot0_at hR (p := L.length) le_rfl).2 rfl]
      rw [show fetchLoop set false false cnt none = [] from by cases cnt <;> rfl]
      rw [show min (L.length + 1 - L.length) (cnt+1) = 1 from by omega]
      simp
    · rw [((slot0_at hR (p := p) (by omega)).1 hplt).1]
      rw [fetchLoop_asc_spec hR cnt (p+1) (by omega) (by omega)]
      rw [show min (L.length + 1 - p) (cnt+1) = (min (L.length + 1 - (p+1)) cnt) + 1 from by
        omega]
      rw [List.range'_succ]
      simp

theorem fetchLoop_desc_spec {set : Zset} {L : List E} (hR : Represents set.zsl L) :
    ∀ (cnt p : Nat), 1 ≤ p → p ≤ L.length →
      fetchLoop set true false cnt (some (posId L p)) =
        ((List.range' (p + 1 - min p cnt) (min p cnt)).map
          (fun q => RItem.str (posMember L q))).reverse
  | 0, p, hp1, hpn => by simp [fetchLoop]
  | cnt+1, p, hp1, hpn => by
    rw [fetchLoop]
    rw [if_neg (by simp)]
    rw [nodeAt_member hR hpn]
    rw [Zset.getNextNode, if_pos rfl]
    have hback := hR.node_back p hp1 hpn
    by_cases hpe : p = 1
    · subst hpe
      rw [hback, if_pos rfl]
      rw [show fetchLoop set true false cnt none = [] from by cases cnt <;> rfl]
      rw [show min 1 (cnt+1) = 1 from by omega]
      simp
    · rw [hback, if_neg hpe]
      rw [fetchLoop_desc_spec hR cnt (p-1) (by omega) (by omega)]
      have hk : min p (cnt+1) = (min (p-1) cnt) + 1 := by omega
      rw [hk]
      have heq : List.range' (p + 1 - (min (p-1) cnt + 1)) (min (p-1) cnt + 1) =
          List.range' (p - 1 + 1 - min (p-1) cnt) (min (p-1) cnt) ++ [p] := by
        rw [show p + 1 - (min (p-1) cnt + 1) = p - 1 + 1 - min (p-1) cnt from by omega]
        rw [show min (p-1) cnt + 1 = 1 + min (p-1) cnt from by omega]
        rw [← List.range'_append_1 (p - 1 + 1 - min (p-1) cnt) (min (p-1) cnt) 1]
        rw [show p - 1 + 1 - min (p-1) cnt + min (p-1) cnt = p from by omega]
        rfl
      rw [heq, List.map_append, List.reverse_append]
      simp

/-! ## Arena update lemmas -/

theorem getD_set {α : Type} [Inhabited α] (l : List α) (i j : Nat) (v : α) :
    (l.set i v).getD j default = if j = i ∧ i < l.length then v else l.getD j default := by
  simp only [List.getD_eq_getElem?_getD, List.getElem?_set]
  by_cases h1 : i = j
  · subst h1
    by_cases h2 : i < l.length
    · simp [h2]
    · simp [h2, List.getElem?_eq_none (by omega : l.length ≤ i)]
  · rw [if_neg h1, if_neg (by intro h; exact h1 h.1.symm)]

theorem node_setNode (z : Zskiplist) (i j : Nat) (n : ZslNode) :
    (z.setNode i n).node j = if j = i ∧ i < z.nodes.length then n else z.node j := by
  simp only [Zskiplist.setNode, Zskiplist.node]
  exact getD_set z.nodes i j n

@[simp] theorem setNode_head (z : Zskiplist) (i : Nat) (n : ZslNode) :
    (z.setNode i n).head = z.head := rfl

@[simp] theorem setNode_tail (z : Zskiplist) (i : Nat) (n : ZslNode) :
    (z.setNode i n).tail = z.tail := rfl

@[simp] theorem setNode_length (z : Zskiplist) (i : Nat) (n : ZslNode) :
    (z.setNode i n).length = z.length := rfl

@[simp] theorem setNode_level (z : Zskiplist) (i : Nat) (n : ZslNode) :
    (z.setNode i n).level = z.level := rfl

@[simp] theorem setNode_nodes_length (z : Zskiplist) (i : Nat) (n : ZslNode) :
    (z.setNode i n).nodes.length = z.nodes.length := by
  simp [Zskiplist.setNode]

theorem levelAt_setLevel (n : ZslNode) (l l' : Nat) (lv : ZslLevel) :
    (n.setLevel l lv).levelAt l' = if l' = l ∧ l < n.level.length then lv else n.levelAt l' := by
  simp only [ZslNode.setLevel, ZslNode.levelAt]
  exact getD_set n.level l l' lv

@[simp] theorem setLevel_member (n : ZslNode) (l : Nat) (lv : ZslLevel) :
    (n.setLevel l lv).member = n.member := rfl

@[simp] theorem setLevel_score (n : ZslNode) (l : Nat) (lv : ZslLevel) :
    (n.setLevel l lv).score = n.score := rfl

@[simp] theorem setLevel_back (n : ZslNode) (l : Nat) (lv : ZslLevel) :
    (n.setLevel l lv).backwards = n.backwards := rfl

@[simp] theorem setLevel_len (n : ZslNode) (l : Nat) (lv : ZslLevel) :
    (n.setLevel l lv).level.length = n.level.length := by
  simp [ZslNode.setLevel]

/-- Effect of a `setLevelOf` write on an arbitrary slot. -/
theorem slot_setLevelOf (z : Zskiplist) (i l j l' : Nat) (lv : ZslLevel)
    (hi : i < z.nodes.length) :
    ((z.setLevelOf i l lv).node j).levelAt l' =
      if j = i ∧ l' = l ∧ l < (z.node i).level.length then lv
      else (z.node j).levelAt l' := by
  rw [Zskiplist.setLevelOf, node_setNode]
  by_cases hj : j = i
  · subst hj
    rw [if_pos ⟨rfl, hi⟩, levelAt_setLevel]
    by_cases h2 : l' = l ∧ l < (z.node j).level.length
    · rw [if_pos h2, if_pos ⟨rfl, h2.1, h2.2⟩]
    · rw [if_neg h2, if_neg (by
        intro h
        exact h2 ⟨h.2.1, h.2.2⟩)]
  · rw [if_neg (by intro h; exact hj h.1), if_neg (by intro h; exact hj h.1)]

/-- Non-level node data is never affected by `setLevelOf`. -/
theorem nodeData_setLevelOf (z : Zskiplist) (i l j : Nat) (lv : ZslLevel) :
    ((z.setLevelOf i l lv).node j).member = (z.node j).member ∧
    ((z.setLevelOf i l lv).node j).score = (z.node j).score ∧
    ((z.setLevelOf i l lv).node j).backwards = (z.node j).backwards ∧
    ((z.setLevelOf i l lv).node j).level.length = (z.node j).level.length := by
  rw [Zskiplist.setLevelOf, node_setNode]
  by_cases hj : j = i ∧ i < z.nodes.length
  · rcases hj with ⟨rfl, hi⟩
    rw [if_pos ⟨rfl, hi⟩]
    simp
  · rw [if_neg hj]
    exact ⟨rfl, rfl, rfl, rfl⟩

theorem node_setBackwards (z : Zskiplist) (i j : Nat) (b : Option Nat) :
    (z.setBackwards i b).node j =
      if j = i ∧ i < z.nodes.length then { z.node i with backwards := b }
      else z.node j := by
  rw [Zskiplist.setBackwards, node_setNode]

theorem slot_setBackwards (z : Zskiplist) (i j l : Nat) (b : Option Nat) :
    ((z.setBackwards i b).node j).levelAt l = (z.node j).levelAt l := by
  rw [node_setBackwards]
  by_cases h : j = i ∧ i < z.nodes.length
  · rcases h with ⟨rfl, hi⟩
    rw [if_pos ⟨rfl, hi⟩]
    rfl
  · rw [if_neg h]

theorem data_setBackwards (z : Zskiplist) (i j : Nat) (b : Option Nat) :
    ((z.setBackwards i b).node j).member = (z.node j).member ∧
    ((z.setBackwards i b).node j).score = (z.node j).score ∧
    ((z.setBackwards i b).node j).level.length = (z.node j).level.length := by
  rw [node_setBackwards]
  by_cases h : j = i ∧ i < z.nodes.length
  · rcases h with ⟨rfl, hi⟩
    rw [if_pos ⟨rfl, hi⟩]
    exact ⟨rfl, rfl, rfl⟩
  · rw [if_neg h]
    exact ⟨rfl, rfl, rfl⟩

theorem back_setBackwards (z : Zskiplist) (i j : Nat) (b : Option Nat) :
    ((z.setBackwards i b).node j).backwards =
      if j = i ∧ i < z.nodes.length then b else (z.node j).backwards := by
  rw [node_setBackwards]
  by_cases h : j = i ∧ i < z.nodes.length
  · rcases h with ⟨rfl, hi⟩
    rw [if_pos ⟨rfl, hi⟩, if_pos ⟨rfl, hi⟩]
  · rw [if_neg h, if_neg h]

theorem backwards_setLevelOf (z : Zskiplist) (i l j : Nat) (lv : ZslLevel) :
    ((z.setLevelOf i l lv).node j).backwards = (z.node j).backwards :=
  (nodeData_setLevelOf z i l j lv).2.2.1

theorem getD_append_left {α : Type} [Inhabited α] (l : List α) (x : α) {j : Nat}
    (h : j < l.length) : (l ++ [x]).getD j default = l.getD j default := by
  simp only [List.getD_eq_getElem?_getD]
  rw [List.getElem?_append_left h]

theorem getD_append_self {α : Type} [Inhabited α] (l : List α) (x : α) :
    (l ++ [x]).getD l.length default = x := by
  simp only [List.getD_eq_getElem?_getD]
  rw [List.getElem?_append_right le_rfl]
  simp

theorem getD_big {α : Type} [Inhabited α] (l : List α) {j : Nat}
    (h : l.length ≤ j) : l.getD j default = default := by
  simp only [List.getD_eq_getElem?_getD]
  rw [List.getElem?_eq_none h]
  rfl

/-- `insert` written as a staged pipeline of the named step functions
(definitional unfolding of `Zskiplist.insert`). -/
theorem insert_unfold (z : Zskiplist) (s : Score) (m : String) (v : Val) (H : Nat) :
    z.insert s m v H =
      (let ur0 := insertDescend z s m z.level z.head 0
       let extended := decide (H > z.level)
       let z1 := if extended then
           (List.range' z.level (H - z.level)).foldl insExtStep z
         else z
       let ur := if extended then ur0 ++ List.replicate (H - z.level) (z.head, 0) else ur0
       let z1b := if extended then { z1 with level := H } else z1
       let newId := z1b.nodes.length
       let z2 := { z1b with nodes := z1b.nodes ++ [createNode H s m v] }
       let rank0 := (ur.getD 0 (0, 0)).2
       let z3 := (List.range H).foldl (insSpliceStep ur rank0 newId) z2
       let z4 := (List.range' H (z3.level - H)).foldl (insBumpStep ur) z3
       let u0 := (ur.getD 0 (0, 0)).1
       let z5 := if u0 = z4.head then z4.setBackwards newId none
                 else z4.setBackwards newId (some u0)
       let z6 := match ((z5.node newId).levelAt 0).forward with
         | some f => z5.setBackwards f (some newId)
         | none => { z5 with tail := some newId }
       ({ z6 with length := z6.length + 1 }, newId)) := rfl

/-- `deleteNode` written as a staged pipeline. -/
theorem deleteNode_unfold (z : Zskiplist) (del : Nat) (updates : List Nat) :
    z.deleteNode del updates =
      (let z1 := (List.range z.level).foldl (delStep updates del) z
       let z2 := match ((z1.node del).levelAt 0).forward with
         | some f => z1.setBackwards f ((z1.node del).backwards)
         | none => { z1 with tail := (z1.node del).backwards }
       let z3 := { z2 with level := shrinkLevel z2 z2.level }
       { z3 with length := z3.length - 1 }) := rfl

/-! ## The abstract list after an insertion: position transfer -/

theorem length_insertAt {L : List E} {B : Nat} (hB : B ≤ L.length) (e : E) :
    (insertAt L B e).length = L.length + 1 := by
  simp [insertAt]
  omega

theorem getD_insertAt_lt {L : List E} {B j : Nat} (e : E) (hj : j < B) (hB : B ≤ L.length) :
    (insertAt L B e).getD j default = L.getD j default := by
  simp only [insertAt, List.getD_eq_getElem?_getD]
  rw [List.getElem?_append_left (by simp; omega)]
  rw [List.getElem?_take_of_lt hj]

theorem getD_insertAt_self {L : List E} {B : Nat} (e : E) (hB : B ≤ L.length) :
    (insertAt L B e).getD B default = e := by
  simp only [insertAt, List.getD_eq_getElem?_getD]
  have hlen : (L.take B).length = B := by simp; omega
  rw [List.getElem?_append_right (by omega), hlen]
  simp

theorem getD_insertAt_gt {L : List E} {B j : Nat} (e : E) (hj : B < j) (hB : B ≤ L.length) :
    (insertAt L B e).getD j default = L.getD (j - 1) default := by
  simp only [insertAt, List.getD_eq_getElem?_getD]
  have hlen : (L.take B).length = B := by simp; omega
  rw [List.getElem?_append_right (by omega), hlen]
  rw [show j - B = (j - B - 1) + 1 from by omega]
  simp only [List.getElem?_cons_succ]
  rw [List.getElem?_drop]
  rw [show B + (j - B - 1) = j - 1 from by omega]

theorem mem_insertAt {L : List E} {B : Nat} (hB : B ≤ L.length) (e f : E) :
    f ∈ insertAt L B e ↔ f = e ∨ f ∈ L := by
  simp only [insertAt, List.mem_append, List.mem_cons]
  constructor
  · rintro (h | h | h)
    · exact Or.inr (List.mem_of_mem_take h)
    · exact Or.inl h
    · exact Or.inr (List.mem_of_mem_drop h)
  · rintro (h | h)
    · exact Or.inr (Or.inl h)
    · rw [← List.take_append_drop B L, List.mem_append] at h
      rcases h with h | h
      · exact Or.inl h
      · exact Or.inr (Or.inr h)

theorem posId_insertAt_le {L : List E} {B q : Nat} (e : E) (hq : q ≤ B) (hB : B ≤ L.length) :
    posId (insertAt L B e) q = posId L q := by
  cases q with
  | zero => rfl
  | succ q => simp only [posId]; rw [getD_insertAt_lt e (by omega) hB]

theorem posId_insertAt_mid {L : List E} {B : Nat} (e : E) (hB : B ≤ L.length) :
    posId (insertAt L B e) (B + 1) = e.id := by
  simp only [posId]; rw [getD_insertAt_self e hB]

theorem posId_insertAt_gt {L : List E} {B q : Nat} (e : E) (hq : B + 1 ≤ q) (hB : B ≤ L.length) :
    posId (insertAt L B e) (q + 1) = posId L q := by
  cases q with
  | zero => omega
  | succ q =>
    simp only [posId]
    rw [getD_insertAt_gt e (by omega) hB, show q + 1 - 1 = q from by omega]

theorem posHeight_insertAt_le {L : List E} {B q : Nat} (e : E) (hq : q ≤ B) (hB : B ≤ L.length) :
    posHeight (insertAt L B e) q = posHeight L q := by
  cases q with
  | zero => rfl
  | succ q => simp only [posHeight]; rw [getD_insertAt_lt e (by omega) hB]

theorem posHeight_insertAt_mid {L : List E} {B : Nat} (e : E) (hB : B ≤ L.length) :
    posHeight (insertAt L B e) (B + 1) = e.height := by
  simp only [posHeight]; rw [getD_insertAt_self e hB]

theorem posHeight_insertAt_gt {L : List E} {B q : Nat} (e : E) (hq : B + 1 ≤ q)
    (hB : B ≤ L.length) :
    posHeight (insertAt L B e) (q + 1) = posHeight L q := by
  cases q with
  | zero => omega
  | succ q =>
    simp only [posHeight]
    rw [getD_insertAt_gt e (by omega) hB, show q + 1 - 1 = q from by omega]

theorem posScore_insertAt_le {L : List E} {B q : Nat} (e : E) (hq : q ≤ B) (hB : B ≤ L.length) :
    posScore (insertAt L B e) q = posScore L q := by
  cases q with
  | zero => rfl
  | succ q => simp only [posScore]; rw [getD_insertAt_lt e (by omega) hB]

theorem posScore_insertAt_mid {L : List E} {B : Nat} (e : E) (hB : B ≤ L.length) :
    posScore (insertAt L B e) (B + 1) = e.score := by
  simp only [posScore]; rw [getD_insertAt_self e hB]

theorem posScore_insertAt_gt {L : List E} {B q : Nat} (e : E) (hq : B + 1 ≤ q)
    (hB : B ≤ L.length) :
    posScore (insertAt L B e) (q + 1) = posScore L q := by
  cases q with
  | zero => omega
  | succ q =>
    simp only [posScore]
    rw [getD_insertAt_gt e (by omega) hB, show q + 1 - 1 = q from by omega]

theorem posMember_insertAt_le {L : List E} {B q : Nat} (e : E) (hq : q ≤ B)
    (hB : B ≤ L.length) :
    posMember (insertAt L B e) q = posMember L q := by
  cases q with
  | zero => rfl
  | succ q => simp only [posMember]; rw [getD_insertAt_lt e (by omega) hB]

theorem posMember_insertAt_mid {L : List E} {B : Nat} (e : E) (hB : B ≤ L.length) :
    posMember (insertAt L B e) (B + 1) = e.member := by
  simp only [posMember]; rw [getD_insertAt_self e hB]

theorem posMember_insertAt_gt {L : List E} {B q : Nat} (e : E) (hq : B + 1 ≤ q)
    (hB : B ≤ L.length) :
    posMember (insertAt L B e) (q + 1) = posMember L q := by
  cases q with
  | zero => omega
  | succ q =>
    simp only [posMember]
    rw [getD_insertAt_gt e (by omega) hB, show q + 1 - 1 = q from by omega]

theorem listLevel_insertAt {L : List E} {B : Nat} (hB : B ≤ L.length) (e : E)
    (he : 1 ≤ e.height) :
    listLevel (insertAt L B e) = max e.height (listLevel L) := by
  apply le_antisymm
  · apply listLevel_le
    · intro f hf
      rcases (mem_insertAt hB e f).1 hf with rfl | hf
      · exact le_max_left _ _
      · exact le_trans (height_le_listLevel hf) (le_max_right _ _)
    · have := listLevel_pos L
      omega
  · apply max_le
    · exact height_le_listLevel ((mem_insertAt hB e e).2 (Or.inl rfl))
    · apply listLevel_le
      · intro f hf
        exact height_le_listLevel ((mem_insertAt hB e f).2 (Or.inr hf))
      · exact listLevel_pos _

theorem map_insertAt {L : List E} {B : Nat} (e : E) (f : E → α) :
    (insertAt L B e).map f = (L.map f).take B ++ f e :: (L.map f).drop B := by
  simp [insertAt]

set_option maxHeartbeats 1000000 in
/-- Strict sortedness of the extended list, from sortedness of the base
list and the insertion point being the count of smaller keys. -/
theorem sorted_insertAt {L : List E} (hs : L.Pairwise eLt) {s : Score} {m : String}
    (hm : ∀ f ∈ L, f.member ≠ m) {i h : Nat}
    (hB : countLtKey L s m ≤ L.length) :
    (insertAt L (countLtKey L s m) ⟨s, m, i, h⟩).Pairwise eLt := by
  obtain ⟨B, hBdef⟩ : ∃ B, countLtKey L s m = B := ⟨_, rfl⟩
  have hcountP : L.countP (fun f => keyLt f.score f.member s m) = B := hBdef
  rw [hBdef] at hB ⊢
  have hcl : ∀ a b, a ≤ b → b < L.length →
      (fun f => keyLt f.score f.member s m) (L.getD b default) = true →
      (fun f => keyLt f.score f.member s m) (L.getD a default) = true := by
    intro a b hab hb hP
    rcases eq_or_lt_of_le hab with rfl | hlt
    · exact hP
    · have ha' : a < L.length := by omega
      simp only at hP ⊢
      rw [keyLt_iff] at hP ⊢
      refine keyLtP_trans ?_ hP
      have h2 := pos_keyLt_of_lt hs (p := a+1) (q := b+1) (by omega) (by omega) (by omega)
      rw [posScore_succ ha', posMember_succ ha', posScore_succ hb, posMember_succ hb] at h2
      rw [getD_bridge L ha', getD_bridge L hb]
      exact h2
  have hlow : ∀ j, j < B → keyLtP (L.getD j default).score (L.getD j default).member s m := by
    intro j hj
    have hjn : j < L.length := by omega
    have h7 := (countP_low (fun f => keyLt f.score f.member s m) L hcl j hjn).2
      (by omega)
    have h8 : keyLt (L.getD j default).score (L.getD j default).member s m = true := h7
    rw [keyLt_iff] at h8
    exact h8
  have hhigh : ∀ j, B ≤ j → j < L.length →
      keyLtP s m (L.getD j default).score (L.getD j default).member := by
    intro j hBj hjn
    have hnot : ¬ keyLtP (L.getD j default).score (L.getD j default).member s m := by
      intro hcon
      have h7 := (countP_low (fun f => keyLt f.score f.member s m) L hcl j hjn).1
        (show keyLt (L.getD j default).score (L.getD j default).member s m = true from
          keyLt_iff.2 hcon)
      omega
    have hne : (L.getD j default).member ≠ m := hm _ (entry_mem L hjn)
    rcases lt_trichotomy (L.getD j default).score s with hsc | hsc | hsc
    · exact absurd (Or.inl hsc) hnot
    · rcases hmem : strLt (L.getD j default).member m with hf | ht
      · rcases hmem2 : strLt m (L.getD j default).member with hf2 | ht2
        · exact absurd (strLt_eq_of_not hmem2 hmem).symm hne
        · exact Or.inr ⟨hsc.symm, hmem2⟩
      · exact absurd (Or.inr ⟨hsc, hmem⟩) hnot
    · exact Or.inl hsc
  rw [List.pairwise_iff_getElem]
  intro a b ha hb hab
  have hlen : (insertAt L B ⟨s, m, i, h⟩).length = L.length + 1 := length_insertAt hB _
  rw [hlen] at ha hb
  have hget : ∀ (c : Nat) (hc : c < L.length + 1)
      (hd : c < (insertAt L B ⟨s, m, i, h⟩).length),
      (insertAt L B ⟨s, m, i, h⟩)[c] =
        (insertAt L B ⟨s, m, i, h⟩).getD c default := by
    intro c hc hd
    rw [getD_bridge _ hd]
  rw [hget a ha (by rw [hlen]; omega), hget b hb (by rw [hlen]; omega)]
  simp only [eLt]
  rcases lt_trichotomy a B with haB | haB | haB
  · rw [getD_insertAt_lt _ haB hB]
    rcases lt_trichotomy b B with hbB | hbB | hbB
    · rw [getD_insertAt_lt _ hbB hB]
      have h2 := pos_keyLt_of_lt hs (p := a+1) (q := b+1) (by omega) (by omega) (by omega)
      rw [posScore_succ (by omega : a < L.length), posMember_succ (by omega : a < L.length),
          posScore_succ (by omega : b < L.length), posMember_succ (by omega : b < L.length)] at h2
      rw [getD_bridge L (show a < L.length from by omega),
          getD_bridge L (show b < L.length from by omega)]
      exact h2
    · subst hbB
      rw [getD_insertAt_self _ hB]
      exact hlow a haB
    · rw [getD_insertAt_gt _ hbB hB]
      have haL : a < L.length := by omega
      have hbL : b - 1 < L.length := by omega
      rcases lt_trichotomy a (b-1) with hlt | heqab | hgt
      · have h2 := pos_keyLt_of_lt hs (p := a+1) (q := b) (by omega) (by omega) (by omega)
        rw [posScore_succ haL, posMember_succ haL,
            show b = (b-1)+1 from by omega, posScore_succ hbL, posMember_succ hbL] at h2
        rw [getD_bridge L haL, getD_bridge L hbL]
        exact h2
      · rw [← heqab]
        exact keyLtP_trans (hlow a haB) (hhigh a (by omega) haL)
      · omega
  · rw [haB, getD_insertAt_self _ hB]
    have hbB : B < b := by omega
    rw [getD_insertAt_gt _ hbB hB]
    exact hhigh (b-1) (by omega) (by omega)
  · rw [getD_insertAt_gt _ haB hB]
    have hbB : B < b := by omega
    rw [getD_insertAt_gt _ hbB hB]
    have h2 := pos_keyLt_of_lt hs (p := a) (q := b) (by omega) (by omega) (by omega)
    rw [show a = (a-1)+1 from by omega, posScore_succ (by omega : a-1 < L.length),
        posMember_succ (by omega : a-1 < L.length)] at h2
    rw [show b = (b-1)+1 from by omega, posScore_succ (by omega : b-1 < L.length),
        posMember_succ (by omega : b-1 < L.length)] at h2
    rw [getD_bridge L (show a - 1 < L.length from by omega),
        getD_bridge L (show b - 1 < L.length from by omega)]
    exact h2

theorem nodup_map_insertAt {β : Type} {L : List E} {B : Nat} (e : E) (f : E → β)
    (hnd : (L.map f).Nodup) (hfresh : f e ∉ L.map f) :
    ((insertAt L B e).map f).Nodup := by
  rw [map_insertAt]
  rw [List.nodup_middle]
  rw [List.take_append_drop]
  exact List.nodup_cons.2 ⟨hfresh, hnd⟩

/-- `ids_inj` from nodup ids (converse of `Represents.ids_nodup`). -/
theorem ids_inj_of_nodup {L : List E} (hnd : (L.map E.id).Nodup) :
    ∀ i j, i < L.length → j < L.length →
      (L.getD i default).id = (L.getD j default).id → i = j := by
  intro i j hi hj hij
  rw [getD_bridge L hi, getD_bridge L hj] at hij
  have hinj := List.nodup_iff_injective_get.1 hnd
  have h2 := @hinj ⟨i, by simpa using hi⟩ ⟨j, by simpa using hj⟩ (by simpa using hij)
  simpa using congrArg Fin.val h2

/-- Recomposition: a list is the insertion of its `B`-th entry into the
list with that entry erased. -/
theorem insertAt_eraseIdx {L : List E} {B : Nat} (hB : B < L.length) :
    insertAt (L.eraseIdx B) B (L.getD B default) = L := by
  rw [List.eraseIdx_eq_take_drop_succ, insertAt]
  have hlen : (L.take B).length = B := by simp; omega
  rw [List.take_append_eq_append_take, hlen]
  rw [show B - B = 0 from by omega, List.take_zero, List.append_nil, List.take_take]
  rw [show min B B = B from by omega]
  rw [List.drop_append_eq_append_drop, hlen]
  rw [show B - B = 0 from by omega, List.drop_drop]
  rw [List.drop_take, show B - B = 0 from by omega, List.take_zero, List.nil_append]
  rw [getD_bridge L hB]
  rw [show B + 1 + 0 = B + 1 from by omega]
  rw [← List.drop_eq_getElem_cons hB]
  exact List.take_append_drop B L

theorem eraseIdx_length {L : List E} {B : Nat} (hB : B < L.length) :
    (L.eraseIdx B).length = L.length - 1 := by
  rw [List.length_eraseIdx]
  simp [hB]

/-! ## `nextPos` transfer between a list and its extension -/

theorem nextPos_insertAt_low {L : List E} {B : Nat} (hB : B ≤ L.length) (e : E)
    {l p q0 : Nat} (hp : p ≤ B) (hq : nextPos L l p = some q0) (hq0 : q0 ≤ B) :
    nextPos (insertAt L B e) l p = some q0 := by
  obtain ⟨h1, h2, h3, h4⟩ := nextPos_some hq
  refine nextPos_eq_some h1 (by rw [length_insertAt hB]; omega) ?_ ?_
  · rw [posHeight_insertAt_le e hq0 hB]
    exact h3
  · intro r hr1 hr2
    rw [posHeight_insertAt_le e (by omega) hB]
    exact h4 r hr1 hr2

theorem nextPos_insertAt_new {L : List E} {B : Nat} (hB : B ≤ L.length) (e : E)
    {l p : Nat} (hp : p ≤ B)
    (hgap : ∀ r, p < r → r ≤ B → ¬ l < posHeight L r) (hh : l < e.height) :
    nextPos (insertAt L B e) l p = some (B + 1) := by
  refine nextPos_eq_some (by omega) (by rw [length_insertAt hB]; omega) ?_ ?_
  · rw [posHeight_insertAt_mid e hB]
    exact hh
  · intro r hr1 hr2
    rw [posHeight_insertAt_le e (by omega) hB]
    exact hgap r hr1 (by omega)

theorem nextPos_insertAt_cross {L : List E} {B : Nat} (hB : B ≤ L.length) (e : E)
    {l p q0 : Nat} (hp : p ≤ B) (hq : nextPos L l p = some q0) (hq0 : B < q0)
    (hh : e.height ≤ l) :
    nextPos (insertAt L B e) l p = some (q0 + 1) := by
  obtain ⟨h1, h2, h3, h4⟩ := nextPos_some hq
  refine nextPos_eq_some (by omega) (by rw [length_insertAt hB]; omega) ?_ ?_
  · rw [posHeight_insertAt_gt e (by omega) hB]
    exact h3
  · intro r hr1 hr2
    rcases le_or_lt r B with hrB | hrB
    · rw [posHeight_insertAt_le e hrB hB]
      exact h4 r hr1 (by omega)
    · rcases eq_or_lt_of_le hrB with rfl | hrB2
      · rw [posHeight_insertAt_mid e hB]
        omega
      · rw [show r = (r-1)+1 from by omega, posHeight_insertAt_gt e (by omega) hB]
        exact h4 (r-1) (by omega) (by omega)

theorem nextPos_insertAt_crossNone {L : List E} {B : Nat} (hB : B ≤ L.length) (e : E)
    {l p : Nat} (hp : p ≤ B) (hq : nextPos L l p = none) (hh : e.height ≤ l) :
    nextPos (insertAt L B e) l p = none := by
  have h4 := nextPos_none (by omega) hq
  refine nextPos_eq_none ?_
  intro r hr1 hr2
  rw [length_insertAt hB] at hr2
  rcases le_or_lt r B with hrB | hrB
  · rw [posHeight_insertAt_le e hrB hB]
    exact h4 r hr1 (by omega)
  · rcases eq_or_lt_of_le hrB with rfl | hrB2
    · rw [posHeight_insertAt_mid e hB]
      omega
    · rw [show r = (r-1)+1 from by omega, posHeight_insertAt_gt e (by omega) hB]
      exact h4 (r-1) (by omega) (by omega)

theorem nextPos_insertAt_high {L : List E} {B : Nat} (hB : B ≤ L.length) (e : E)
    {l p q0 : Nat} (hp : B ≤ p) (hq : nextPos L l p = some q0) :
    nextPos (insertAt L B e) l (p + 1) = some (q0 + 1) := by
  obtain ⟨h1, h2, h3, h4⟩ := nextPos_some hq
  refine nextPos_eq_some (by omega) (by rw [length_insertAt hB]; omega) ?_ ?_
  · rw [posHeight_insertAt_gt e (by omega) hB]
    exact h3
  · intro r hr1 hr2
    rw [show r = (r-1)+1 from by omega, posHeight_insertAt_gt e (by omega) hB]
    exact h4 (r-1) (by omega) (by omega)

theorem nextPos_insertAt_highNone {L : List E} {B : Nat} (hB : B ≤ L.length) (e : E)
    {l p : Nat} (hp : B ≤ p) (hpn : p ≤ L.length) (hq : nextPos L l p = none) :
    nextPos (insertAt L B e) l (p + 1) = none := by
  have h4 := nextPos_none hpn hq
  refine nextPos_eq_none ?_
  intro r hr1 hr2
  rw [length_insertAt hB] at hr2
  rw [show r = (r-1)+1 from by omega, posHeight_insertAt_gt e (by omega) hB]
  exact h4 (r-1) (by omega) (by omega)

/-! ## Characterizing the mutation loops of `insert` and `deleteNode` -/

theorem insExtStep_eq (z : Zskiplist) (a : Nat) (h0 : z.head = 0) :
    insExtStep z a = z.setLevelOf 0 a ⟨((z.node 0).levelAt a).forward, z.length⟩ := by
  rw [insExtStep, Zskiplist.setSpan, h0]

theorem extFold_spec : ∀ (n : Nat) (z : Zskiplist) (a : Nat), z.head = 0 →
    ∀ zz, zz = (List.range' a n).foldl insExtStep z →
      zz.head = 0 ∧ zz.tail = z.tail ∧ zz.length = z.length ∧ zz.level = z.level ∧
      zz.nodes.length = z.nodes.length ∧
      (∀ j, j ≠ 0 → zz.node j = z.node j) ∧
      (zz.node 0).member = (z.node 0).member ∧
      (zz.node 0).score = (z.node 0).score ∧
      (zz.node 0).backwards = (z.node 0).backwards ∧
      (zz.node 0).level.length = (z.node 0).level.length ∧
      (∀ l, l < a ∨ a + n ≤ l → (zz.node 0).levelAt l = (z.node 0).levelAt l) ∧
      (∀ l, a ≤ l → l < a + n → l < (z.node 0).level.length →
        (zz.node 0).levelAt l = ⟨((z.node 0).levelAt l).forward, z.length⟩)
  | 0, z, a, h0, zz, hzz => by
    subst hzz
    exact ⟨h0, rfl, rfl, rfl, rfl, fun j _ => rfl, rfl, rfl, rfl, rfl,
      fun l _ => rfl, fun l h1 h2 _ => by omega⟩
  | n+1, z, a, h0, zz, hzz => by
    rw [List.range'_succ, List.foldl_cons] at hzz
    have hstep := insExtStep_eq z a h0
    have h0' : (insExtStep z a).head = 0 := by
      rw [hstep, Zskiplist.setLevelOf]
      rw [setNode_head]
      exact h0
    obtain ⟨ih1, ih2, ih3, ih4, ih5, ih6, ih7, ih8, ih9, ih10, ih11, ih12⟩ :=
      extFold_spec n (insExtStep z a) (a+1) h0' zz hzz
    have hdata := nodeData_setLevelOf z 0 a 0 ⟨((z.node 0).levelAt a).forward, z.length⟩
    have hslot := fun (j l' : Nat) =>
      slot_setLevelOf z 0 a j l' ⟨((z.node 0).levelAt a).forward, z.length⟩
    have hfields : (insExtStep z a).tail = z.tail ∧ (insExtStep z a).length = z.length ∧
        (insExtStep z a).level = z.level ∧ (insExtStep z a).nodes.length = z.nodes.length := by
      rw [hstep, Zskiplist.setLevelOf]
      exact ⟨rfl, rfl, rfl, by rw [setNode_nodes_length]⟩
    have hnode : ∀ j, j ≠ 0 → (insExtStep z a).node j = z.node j := by
      intro j hj
      rw [hstep, Zskiplist.setLevelOf, node_setNode]
      rw [if_neg (by intro hcon; exact hj hcon.1)]
    have hslot_ne : ∀ l', l' ≠ a → ((insExtStep z a).node 0).levelAt l' = (z.node 0).levelAt l' := by
      intro l' hl'
      by_cases hz : 0 < z.nodes.length
      · rw [hstep]
        rw [slot_setLevelOf z 0 a 0 l' _ hz]
        rw [if_neg (by intro hcon; exact hl' hcon.2.1)]
      · rw [hstep, Zskiplist.setLevelOf, Zskiplist.setNode]
        rw [show z.nodes.set 0 ((z.node 0).setLevel a _) = z.nodes from by
          rw [List.set_eq_of_length_le]; omega]
    have hslot_a : a < (z.node 0).level.length →
        ((insExtStep z a).node 0).levelAt a = ⟨((z.node 0).levelAt a).forward, z.length⟩ := by
      intro hl
      have hz : 0 < z.nodes.length := by
        by_contra hcon
        push_neg at hcon
        interval_cases h : z.nodes.length
        have : z.node 0 = default := by
          rw [Zskiplist.node, getD_big]
          omega
        rw [this] at hl
        simp [default] at hl
      rw [hstep]
      rw [slot_setLevelOf z 0 a 0 a _ hz]
      rw [if_pos ⟨rfl, rfl, hl⟩]
    have hdata0 : ((insExtStep z a).node 0).member = (z.node 0).member ∧
        ((insExtStep z a).node 0).score = (z.node 0).score ∧
        ((insExtStep z a).node 0).backwards = (z.node 0).backwards ∧
        ((insExtStep z a).node 0).level.length = (z.node 0).level.length := by
      rw [hstep]
      exact hdata
    refine ⟨ih1, by rw [ih2, hfields.1], by rw [ih3, hfields.2.1],
      by rw [ih4, hfields.2.2.1], by rw [ih5, hfields.2.2.2],
      fun j hj => by rw [ih6 j hj, hnode j hj],
      by rw [ih7, hdata0.1], by rw [ih8, hdata0.2.1], by rw [ih9, hdata0.2.2.1],
      by rw [ih10, hdata0.2.2.2], ?_, ?_⟩
    · intro l hl
      have hne : l ≠ a := by omega
      rw [ih11 l (by omega), hslot_ne l hne]
    · intro l h1 h2 h3
      rcases eq_or_lt_of_le h1 with rfl | hlt
      · rw [ih11 a (by omega), hslot_a h3]
      · rw [ih12 l (by omega) (by omega) (by rw [hdata0.2.2.2]; exact h3)]
        rw [hslot_ne l (by omega), hfields.2.1]

theorem insSpliceStep_eq (ur : List (Nat × Nat)) (rank0 newId : Nat)
    (z : Zskiplist) (a : Nat) :
    insSpliceStep ur rank0 newId z a =
      (z.setLevelOf newId a
        ⟨((z.node (ur.getD a (0,0)).1).levelAt a).forward,
         ((z.node (ur.getD a (0,0)).1).levelAt a).span - (rank0 - (ur.getD a (0,0)).2)⟩).setLevelOf
        (ur.getD a (0,0)).1 a ⟨some newId, (rank0 - (ur.getD a (0,0)).2) + 1⟩ := rfl

theorem spliceFold_spec (ur : List (Nat × Nat)) (rank0 newId : Nat) :
    ∀ (n a : Nat) (z : Zskiplist),
      (∀ l, a ≤ l → l < a + n → (ur.getD l (0,0)).1 ≠ newId) →
      (∀ l, a ≤ l → l < a + n → (ur.getD l (0,0)).1 < z.nodes.length) →
      newId < z.nodes.length →
      ∀ zz, zz = (List.range' a n).foldl (insSpliceStep ur rank0 newId) z →
        zz.head = z.head ∧ zz.tail = z.tail ∧ zz.length = z.length ∧ zz.level = z.level ∧
        zz.nodes.length = z.nodes.length ∧
        (∀ j, (zz.node j).member = (z.node j).member ∧ (zz.node j).score = (z.node j).score ∧
              (zz.node j).backwards = (z.node j).backwards ∧
              (zz.node j).level.length = (z.node j).level.length) ∧
        (∀ j l, (l < a ∨ a + n ≤ l) → ((zz.node j).levelAt l) = ((z.node j).levelAt l)) ∧
        (∀ l, a ≤ l → l < a + n →
          (l < (z.node newId).level.length →
            ((zz.node newId).levelAt l) =
              ⟨((z.node (ur.getD l (0,0)).1).levelAt l).forward,
               ((z.node (ur.getD l (0,0)).1).levelAt l).span - (rank0 - (ur.getD l (0,0)).2)⟩) ∧
          (l < (z.node (ur.getD l (0,0)).1).level.length →
            ((zz.node (ur.getD l (0,0)).1).levelAt l) =
              ⟨some newId, (rank0 - (ur.getD l (0,0)).2) + 1⟩) ∧
          (∀ j, j ≠ newId → j ≠ (ur.getD l (0,0)).1 →
            ((zz.node j).levelAt l) = ((z.node j).levelAt l)))
  | 0, a, z, _, _, _, zz, hzz => by
    subst hzz
    exact ⟨rfl, rfl, rfl, rfl, rfl, fun j => ⟨rfl, rfl, rfl, rfl⟩,
      fun j l _ => rfl, fun l h1 h2 => by omega⟩
  | n+1, a, z, hne, hlt, hN, zz, hzz => by
    rw [List.range'_succ, List.foldl_cons] at hzz
    have hua := hne a le_rfl (by omega)
    have hula := hlt a le_rfl (by omega)
    have hstep := insSpliceStep_eq ur rank0 newId z a
    obtain ⟨v1, hv1⟩ : ∃ v, (⟨((z.node (ur.getD a (0,0)).1).levelAt a).forward,
        ((z.node (ur.getD a (0,0)).1).levelAt a).span - (rank0 - (ur.getD a (0,0)).2)⟩ :
          ZslLevel) = v := ⟨_, rfl⟩
    obtain ⟨v2, hv2⟩ : ∃ v, (⟨some newId, (rank0 - (ur.getD a (0,0)).2) + 1⟩ : ZslLevel) = v :=
      ⟨_, rfl⟩
    rw [hv1, hv2] at hstep
    obtain ⟨z', hz'⟩ : ∃ w, insSpliceStep ur rank0 newId z a = w := ⟨_, rfl⟩
    rw [hz'] at hzz
    rw [hz'] at hstep
    -- basic facts about the single step
    have hfields : z'.head = z.head ∧ z'.tail = z.tail ∧ z'.length = z.length ∧
        z'.level = z.level ∧ z'.nodes.length = z.nodes.length := by
      rw [hstep, Zskiplist.setLevelOf, Zskiplist.setLevelOf]
      refine ⟨rfl, rfl, rfl, rfl, ?_⟩
      rw [setNode_nodes_length, setNode_nodes_length]
    have hdata : ∀ j, (z'.node j).member = (z.node j).member ∧
        (z'.node j).score = (z.node j).score ∧
        (z'.node j).backwards = (z.node j).backwards ∧
        (z'.node j).level.length = (z.node j).level.length := by
      intro j
      rw [hstep]
      obtain ⟨d1, d2, d3, d4⟩ := nodeData_setLevelOf (z.setLevelOf newId a v1)
        (ur.getD a (0,0)).1 a j v2
      obtain ⟨e1, e2, e3, e4⟩ := nodeData_setLevelOf z newId a j v1
      exact ⟨by rw [d1, e1], by rw [d2, e2], by rw [d3, e3], by rw [d4, e4]⟩
    have hN' : newId < (z.setLevelOf newId a v1).nodes.length := by
      rw [Zskiplist.setLevelOf, setNode_nodes_length]
      exact hN
    have hu' : (ur.getD a (0,0)).1 < (z.setLevelOf newId a v1).nodes.length := by
      rw [Zskiplist.setLevelOf, setNode_nodes_length]
      exact hula
    have hslot_ne : ∀ j l', l' ≠ a → (z'.node j).levelAt l' = (z.node j).levelAt l' := by
      intro j l' hl'
      rw [hstep]
      rw [slot_setLevelOf _ _ _ _ _ _ hu']
      rw [if_neg (by intro hcon; exact hl' hcon.2.1)]
      rw [slot_setLevelOf _ _ _ _ _ _ hN]
      rw [if_neg (by intro hcon; exact hl' hcon.2.1)]
    have hslot_other : ∀ j, j ≠ newId → j ≠ (ur.getD a (0,0)).1 →
        (z'.node j).levelAt a = (z.node j).levelAt a := by
      intro j hj1 hj2
      rw [hstep]
      rw [slot_setLevelOf _ _ _ _ _ _ hu']
      rw [if_neg (by intro hcon; exact hj2 hcon.1)]
      rw [slot_setLevelOf _ _ _ _ _ _ hN]
      rw [if_neg (by intro hcon; exact hj1 hcon.1)]
    have hslot_new : a < (z.node newId).level.length →
        (z'.node newId).levelAt a = v1 := by
      intro hlen
      rw [hstep]
      rw [slot_setLevelOf _ _ _ _ _ _ hu']
      rw [if_neg (by intro hcon; exact hua hcon.1.symm)]
      rw [slot_setLevelOf _ _ _ _ _ _ hN]
      rw [if_pos ⟨rfl, rfl, hlen⟩]
    have hslot_u : a < (z.node (ur.getD a (0,0)).1).level.length →
        (z'.node (ur.getD a (0,0)).1).levelAt a = v2 := by
      intro hlen
      rw [hstep]
      rw [slot_setLevelOf _ _ _ _ _ _ hu']
      rw [if_pos ⟨rfl, rfl, by
        obtain ⟨e1, e2, e3, e4⟩ := nodeData_setLevelOf z newId a (ur.getD a (0,0)).1 v1
        rw [e4]
        exact hlen⟩]
    obtain ⟨ih1, ih2, ih3, ih4, ih5, ih6, ih7, ih8⟩ :=
      spliceFold_spec ur rank0 newId n (a+1) z'
        (fun l h1 h2 => hne l (by omega) (by omega))
        (fun l h1 h2 => by rw [hfields.2.2.2.2]; exact hlt l (by omega) (by omega))
        (by rw [hfields.2.2.2.2]; exact hN) zz hzz
    refine ⟨by rw [ih1, hfields.1], by rw [ih2, hfields.2.1], by rw [ih3, hfields.2.2.1],
      by rw [ih4, hfields.2.2.2.1], by rw [ih5, hfields.2.2.2.2],
      fun j => by
        obtain ⟨d1, d2, d3, d4⟩ := ih6 j
        obtain ⟨e1, e2, e3, e4⟩ := hdata j
        exact ⟨by rw [d1, e1], by rw [d2, e2], by rw [d3, e3], by rw [d4, e4]⟩,
      ?_, ?_⟩
    · intro j l hl
      have hne2 : l ≠ a := by omega
      rw [ih7 j l (by omega), hslot_ne j l hne2]
    · intro l h1 h2
      rcases eq_or_lt_of_le h1 with rfl | hlgt
      · refine ⟨?_, ?_, ?_⟩
        · intro hlen
          rw [ih7 newId a (by omega), hslot_new hlen, hv1]
        · intro hlen
          rw [ih7 _ a (by omega), hslot_u hlen, hv2]
        · intro j hj1 hj2
          rw [ih7 j a (by omega), hslot_other j hj1 hj2]
      · obtain ⟨c1, c2, c3⟩ := ih8 l (by omega) (by omega)
        have hud : ∀ j, (z'.node j).levelAt l = (z.node j).levelAt l := fun j =>
          hslot_ne j l (by omega)
        refine ⟨?_, ?_, ?_⟩
        · intro hlen
          rw [c1 (by rw [(hdata newId).2.2.2]; exact hlen), hud]
        · intro hlen
          rw [c2 (by rw [(hdata _).2.2.2]; exact hlen)]
        · intro j hj1 hj2
          rw [c3 j hj1 hj2, hud]

theorem insBumpStep_eq (ur : List (Nat × Nat)) (z : Zskiplist) (a : Nat) :
    insBumpStep ur z a =
      z.setLevelOf (ur.getD a (0,0)).1 a
        ⟨((z.node (ur.getD a (0,0)).1).levelAt a).forward,
         ((z.node (ur.getD a (0,0)).1).levelAt a).span + 1⟩ := rfl

theorem bumpFold_spec (ur : List (Nat × Nat)) :
    ∀ (n a : Nat) (z : Zskiplist),
      (∀ l, a ≤ l → l < a + n → (ur.getD l (0,0)).1 < z.nodes.length) →
      ∀ zz, zz = (List.range' a n).foldl (insBumpStep ur) z →
        zz.head = z.head ∧ zz.tail = z.tail ∧ zz.length = z.length ∧ zz.level = z.level ∧
        zz.nodes.length = z.nodes.length ∧
        (∀ j, (zz.node j).member = (z.node j).member ∧ (zz.node j).score = (z.node j).score ∧
              (zz.node j).backwards = (z.node j).backwards ∧
              (zz.node j).level.length = (z.node j).level.length) ∧
        (∀ j l, (l < a ∨ a + n ≤ l) → ((zz.node j).levelAt l) = ((z.node j).levelAt l)) ∧
        (∀ l, a ≤ l → l < a + n →
          (l < (z.node (ur.getD l (0,0)).1).level.length →
            ((zz.node (ur.getD l (0,0)).1).levelAt l) =
              ⟨((z.node (ur.getD l (0,0)).1).levelAt l).forward,
               ((z.node (ur.getD l (0,0)).1).levelAt l).span + 1⟩) ∧
          (∀ j, j ≠ (ur.getD l (0,0)).1 →
            ((zz.node j).levelAt l) = ((z.node j).levelAt l)))
  | 0, a, z, _, zz, hzz => by
    subst hzz
    exact ⟨rfl, rfl, rfl, rfl, rfl, fun j => ⟨rfl, rfl, rfl, rfl⟩,
      fun j l _ => rfl, fun l h1 h2 => by omega⟩
  | n+1, a, z, hlt, zz, hzz => by
    rw [List.range'_succ, List.foldl_cons] at hzz
    have hula := hlt a le_rfl (by omega)
    have hstep := insBumpStep_eq ur z a
    obtain ⟨v1, hv1⟩ : ∃ v, (⟨((z.node (ur.getD a (0,0)).1).levelAt a).forward,
        ((z.node (ur.getD a (0,0)).1).levelAt a).span + 1⟩ : ZslLevel) = v := ⟨_, rfl⟩
    rw [hv1] at hstep
    obtain ⟨z', hz'⟩ : ∃ w, insBumpStep ur z a = w := ⟨_, rfl⟩
    rw [hz'] at hzz hstep
    have hfields : z'.head = z.head ∧ z'.tail = z.tail ∧ z'.length = z.length ∧
        z'.level = z.level ∧ z'.nodes.length = z.nodes.length := by
      rw [hstep, Zskiplist.setLevelOf]
      exact ⟨rfl, rfl, rfl, rfl, by rw [setNode_nodes_length]⟩
    have hdata : ∀ j, (z'.node j).member = (z.node j).member ∧
        (z'.node j).score = (z.node j).score ∧
        (z'.node j).backwards = (z.node j).backwards ∧
        (z'.node j).level.length = (z.node j).level.length := by
      intro j
      rw [hstep]
      exact nodeData_setLevelOf z _ a j v1
    have hslot_ne : ∀ j l', l' ≠ a → (z'.node j).levelAt l' = (z.node j).levelAt l' := by
      intro j l' hl'
      rw [hstep, slot_setLevelOf _ _ _ _ _ _ hula]
      rw [if_neg (by intro hcon; exact hl' hcon.2.1)]
    have hslot_other : ∀ j, j ≠ (ur.getD a (0,0)).1 →
        (z'.node j).levelAt a = (z.node j).levelAt a := by
      intro j hj
      rw [hstep, slot_setLevelOf _ _ _ _ _ _ hula]
      rw [if_neg (by intro hcon; exact hj hcon.1)]
    have hslot_u : a < (z.node (ur.getD a (0,0)).1).level.length →
        (z'.node (ur.getD a (0,0)).1).levelAt a = v1 := by
      intro hlen
      rw [hstep, slot_setLevelOf _ _ _ _ _ _ hula]
      rw [if_pos ⟨rfl, rfl, hlen⟩]
    obtain ⟨ih1, ih2, ih3, ih4, ih5, ih6, ih7, ih8⟩ :=
      bumpFold_spec ur n (a+1) z'
        (fun l h1 h2 => by rw [hfields.2.2.2.2]; exact hlt l (by omega) (by omega)) zz hzz
    refine ⟨by rw [ih1, hfields.1], by rw [ih2, hfields.2.1], by rw [ih3, hfields.2.2.1],
      by rw [ih4, hfields.2.2.2.1], by rw [ih5, hfields.2.2.2.2],
      fun j => by
        obtain ⟨d1, d2, d3, d4⟩ := ih6 j
        obtain ⟨e1, e2, e3, e4⟩ := hdata j
        exact ⟨by rw [d1, e1], by rw [d2, e2], by rw [d3, e3], by rw [d4, e4]⟩,
      ?_, ?_⟩
    · intro j l hl
      rw [ih7 j l (by omega), hslot_ne j l (by omega)]
    · intro l h1 h2
      rcases eq_or_lt_of_le h1 with rfl | hlgt
      · refine ⟨?_, ?_⟩
        · intro hlen
          rw [ih7 _ a (by omega), hslot_u hlen, hv1]
        · intro j hj
          rw [ih7 j a (by omega), hslot_other j hj]
      · obtain ⟨c1, c2⟩ := ih8 l (by omega) (by omega)
        have hud : ∀ j, (z'.node j).levelAt l = (z.node j).levelAt l := fun j =>
          hslot_ne j l (by omega)
        refine ⟨?_, ?_⟩
        · intro hlen
          rw [c1 (by rw [(hdata _).2.2.2]; exact hlen), hud]
        · intro j hj
          rw [c2 j hj, hud]

theorem delStep_eq (updates : List Nat) (del : Nat) (z : Zskiplist) (a : Nat) :
    delStep updates del z a =
      z.setLevelOf (updates.getD a 0) a
        (if ((z.node (updates.getD a 0)).levelAt a).forward = some del then
          ⟨((z.node del).levelAt a).forward,
           ((z.node (updates.getD a 0)).levelAt a).span + ((z.node del).levelAt a).span - 1⟩
        else ⟨((z.node (updates.getD a 0)).levelAt a).forward,
              ((z.node (updates.getD a 0)).levelAt a).span - 1⟩) := by
  by_cases hc : ((z.node (updates.getD a 0)).levelAt a).forward = some del
  · simp only [delStep]
    rw [if_pos hc, if_pos hc]
  · simp only [delStep]
    rw [if_neg hc, if_neg hc, Zskiplist.setSpan]

theorem delFold_spec (updates : List Nat) (del : Nat) :
    ∀ (n a : Nat) (z : Zskiplist),
      (∀ l, a ≤ l → l < a + n → updates.getD l 0 ≠ del) →
      (∀ l, a ≤ l → l < a + n → updates.getD l 0 < z.nodes.length) →
      ∀ zz, zz = (List.range' a n).foldl (delStep updates del) z →
        zz.head = z.head ∧ zz.tail = z.tail ∧ zz.length = z.length ∧ zz.level = z.level ∧
        zz.nodes.length = z.nodes.length ∧
        (∀ j, (zz.node j).member = (z.node j).member ∧ (zz.node j).score = (z.node j).score ∧
              (zz.node j).backwards = (z.node j).backwards ∧
              (zz.node j).level.length = (z.node j).level.length) ∧
        (∀ j l, (l < a ∨ a + n ≤ l) → ((zz.node j).levelAt l) = ((z.node j).levelAt l)) ∧
        (∀ l, a ≤ l → l < a + n →
          (l < (z.node (updates.getD l 0)).level.length →
            ((zz.node (updates.getD l 0)).levelAt l) =
              (if ((z.node (updates.getD l 0)).levelAt l).forward = some del then
                ⟨((z.node del).levelAt l).forward,
                 ((z.node (updates.getD l 0)).levelAt l).span + ((z.node del).levelAt l).span - 1⟩
              else ⟨((z.node (updates.getD l 0)).levelAt l).forward,
                    ((z.node (updates.getD l 0)).levelAt l).span - 1⟩)) ∧
          (∀ j, j ≠ updates.getD l 0 →
            ((zz.node j).levelAt l) = ((z.node j).levelAt l)))
  | 0, a, z, _, _, zz, hzz => by
    subst hzz
    exact ⟨rfl, rfl, rfl, rfl, rfl, fun j => ⟨rfl, rfl, rfl, rfl⟩,
      fun j l _ => rfl, fun l h1 h2 => by omega⟩
  | n+1, a, z, hned, hlt, zz, hzz => by
    rw [List.range'_succ, List.foldl_cons] at hzz
    have hula := hlt a le_rfl (by omega)
    have hstep := delStep_eq updates del z a
    obtain ⟨v1, hv1⟩ : ∃ v,
        (if ((z.node (updates.getD a 0)).levelAt a).forward = some del then
          (⟨((z.node del).levelAt a).forward,
           ((z.node (updates.getD a 0)).levelAt a).span + ((z.node del).levelAt a).span - 1⟩ :
             ZslLevel)
        else ⟨((z.node (updates.getD a 0)).levelAt a).forward,
              ((z.node (updates.getD a 0)).levelAt a).span - 1⟩) = v := ⟨_, rfl⟩
    rw [hv1] at hstep
    obtain ⟨z', hz'⟩ : ∃ w, delStep updates del z a = w := ⟨_, rfl⟩
    rw [hz'] at hzz hstep
    have hfields : z'.head = z.head ∧ z'.tail = z.tail ∧ z'.length = z.length ∧
        z'.level = z.level ∧ z'.nodes.length = z.nodes.length := by
      rw [hstep, Zskiplist.setLevelOf]
      exact ⟨rfl, rfl, rfl, rfl, by rw [setNode_nodes_length]⟩
    have hdata : ∀ j, (z'.node j).member = (z.node j).member ∧
        (z'.node j).score = (z.node j).score ∧
        (z'.node j).backwards = (z.node j).backwards ∧
        (z'.node j).level.length = (z.node j).level.length := by
      intro j
      rw [hstep]
      exact nodeData_setLevelOf z _ a j v1
    have hslot_ne : ∀ j l', l' ≠ a → (z'.node j).levelAt l' = (z.node j).levelAt l' := by
      intro j l' hl'
      rw [hstep, slot_setLevelOf _ _ _ _ _ _ hula]
      rw [if_neg (by intro hcon; exact hl' hcon.2.1)]
    have hslot_other : ∀ j, j ≠ updates.getD a 0 →
        (z'.node j).levelAt a = (z.node j).levelAt a := by
      intro j hj
      rw [hstep, slot_setLevelOf _ _ _ _ _ _ hula]
      rw [if_neg (by intro hcon; exact hj hcon.1)]
    have hslot_u : a < (z.node (updates.getD a 0)).level.length →
        (z'.node (updates.getD a 0)).levelAt a = v1 := by
      intro hlen
      rw [hstep, slot_setLevelOf _ _ _ _ _ _ hula]
      rw [if_pos ⟨rfl, rfl, hlen⟩]
    obtain ⟨ih1, ih2, ih3, ih4, ih5, ih6, ih7, ih8⟩ :=
      delFold_spec updates del n (a+1) z'
        (fun l h1 h2 => hned l (by omega) (by omega))
        (fun l h1 h2 => by rw [hfields.2.2.2.2]; exact hlt l (by omega) (by omega)) zz hzz
    refine ⟨by rw [ih1, hfields.1], by rw [ih2, hfields.2.1], by rw [ih3, hfields.2.2.1],
      by rw [ih4, hfields.2.2.2.1], by rw [ih5, hfields.2.2.2.2],
      fun j => by
        obtain ⟨d1, d2, d3, d4⟩ := ih6 j
        obtain ⟨e1, e2, e3, e4⟩ := hdata j
        exact ⟨by rw [d1, e1], by rw [d2, e2], by rw [d3, e3], by rw [d4, e4]⟩,
      ?_, ?_⟩
    · intro j l hl
      rw [ih7 j l (by omega), hslot_ne j l (by omega)]
    · intro l h1 h2
      rcases eq_or_lt_of_le h1 with rfl | hlgt
      · refine ⟨?_, ?_⟩
        · intro hlen
          rw [ih7 _ a (by omega), hslot_u hlen, hv1]
        · intro j hj
          rw [ih7 j a (by omega), hslot_other j hj]
      · obtain ⟨c1, c2⟩ := ih8 l (by omega) (by omega)
        have hud : ∀ j, (z'.node j).levelAt l = (z.node j).levelAt l := fun j =>
          hslot_ne j l (by omega)
        refine ⟨?_, ?_⟩
        · intro hlen
          rw [c1 (by rw [(hdata _).2.2.2]; exact hlen)]
          simp only [hud]
        · intro j hj
          rw [c2 j hj, hud]

/-! ## Assembling `insert`: branch reduction and shared suffix -/

theorem shrinkLevel_spec (z : Zskiplist) (T : Nat) (hT1 : 1 ≤ T) :
    ∀ (k : Nat), T ≤ k →
      (∀ l, T ≤ l → l < k → ((z.node z.head).levelAt l).forward = none) →
      (2 ≤ T → ((z.node z.head).levelAt (T-1)).forward ≠ none) →
      shrinkLevel z k = T
  | 0, hk, _, _ => by omega
  | 1, hk, _, _ => by rw [shrinkLevel]; omega
  | k+2, hk, hnone, hne => by
    rw [shrinkLevel]
    rcases eq_or_lt_of_le hk with heq | hlt
    · have h3 : ((z.node z.head).levelAt (k+1)).forward ≠ none := by
        have h4 := hne (by omega)
        rw [show T - 1 = k + 1 from by omega] at h4
        exact h4
      rw [if_neg h3]
      omega
    · have h3 : ((z.node z.head).levelAt (k+1)).forward = none :=
        hnone (k+1) (by omega) (by omega)
      rw [if_pos h3]
      exact shrinkLevel_spec z T hT1 (k+1) (by omega)
        (fun l hl1 hl2 => hnone l hl1 (by omega)) hne

theorem rankFrontier_zero_of_level {L : List E} {B l : Nat} (hB : B ≤ L.length)
    (hl : listLevel L ≤ l) : rankFrontier L B l = 0 := by
  by_contra h
  have h1 := rankFrontier_height (L := L) (B := B) (l := l) h
  have hFle := rankFrontier_le L B l
  have hm : posHeight L (rankFrontier L B l) ≤ listLevel L := by
    rcases hF : rankFrontier L B l with _ | p
    · exact absurd hF h
    · rw [hF] at hFle
      simp only [posHeight]
      exact height_le_listLevel (entry_mem L (show p < L.length from by omega))
  omega

theorem posId_zero (L : List E) : posId L 0 = 0 := rfl

theorem posId_pos {z : Zskiplist} {L : List E} (hR : Represents z L) {p : Nat}
    (hp1 : 1 ≤ p) (hpn : p ≤ L.length) : 1 ≤ posId L p := by
  cases p with
  | zero => omega
  | succ p => exact hR.ids_pos _ (entry_mem L (by omega))

theorem posId_lt {z : Zskiplist} {L : List E} (hR : Represents z L) {p : Nat}
    (hpn : p ≤ L.length) : posId L p < z.nodes.length := by
  cases p with
  | zero =>
    cases hne : z.nodes with
    | nil => exact absurd hne hR.nodes_ne
    | cons a t => simp [posId, hne]
  | succ p => exact hR.ids_lt _ (entry_mem L (by omega))

theorem nodeAt_len {z : Zskiplist} {L : List E} (hR : Represents z L) {p : Nat}
    (hp : p ≤ L.length) : (z.node (posId L p)).level.length = posHeight L p := by
  cases p with
  | zero => exact hR.head_len
  | succ p => exact hR.node_len _ (entry_mem L (by omega))

theorem getD_map_range {α : Type} [Inhabited α] (f : Nat → α) {k l : Nat} (h : l < k) :
    ((List.range k).map f).getD l default = f l := by
  rw [getD_bridge _ (by simpa using h)]
  simp

theorem getD_map_range_big {α : Type} [Inhabited α] (f : Nat → α) {k l : Nat} (h : k ≤ l) :
    ((List.range k).map f).getD l default = default := by
  rw [getD_big]
  simpa using h

theorem getD_append_ge {α : Type} [Inhabited α] (a b : List α) {j : Nat}
    (h : a.length ≤ j) : (a ++ b).getD j default = b.getD (j - a.length) default := by
  simp only [List.getD_eq_getElem?_getD]
  rw [List.getElem?_append_right h]

theorem getD_append_lt {α : Type} [Inhabited α] (a b : List α) {j : Nat}
    (h : j < a.length) : (a ++ b).getD j default = a.getD j default := by
  simp only [List.getD_eq_getElem?_getD]
  rw [List.getElem?_append_left h]

theorem getD_replicate {α : Type} [Inhabited α] (x : α) {n j : Nat} (h : j < n) :
    (List.replicate n x).getD j default = x := by
  rw [getD_bridge _ (by simpa using h)]
  simp

/-- The update vector handed to the suffix, in both branches: element `l`
is the frontier pair at level `l` (it vanishes to the head pair above
every present level). -/
theorem insert_ur_getD {z : Zskiplist} {L : List E} (hR : Represents z L)
    (s : Score) (m : String) (H : Nat) :
    ∀ l, ((if decide (H > z.level) then
        insertDescend z s m z.level z.head 0 ++ List.replicate (H - z.level) (z.head, 0)
      else insertDescend z s m z.level z.head 0)).getD l (0, 0) =
      (posId L (rankFrontier L (countLtKey L s m) l), rankFrontier L (countLtKey L s m) l) := by
  intro l
  have hB := countLtKey_le_length L s m
  have hur : insertDescend z s m z.level z.head 0 =
      (List.range z.level).map (fun l =>
        (posId L (rankFrontier L (countLtKey L s m) l), rankFrontier L (countLtKey L s m) l)) := by
    have h := insertDescend_spec hR s m z.level 0 le_rfl (Nat.zero_le _) (Or.inl rfl)
    have h3 : insertDescend z s m z.level 0 0 =
        (List.range z.level).map (fun l =>
          (posId L (max 0 (rankFrontier L (countLtKey L s m) l)),
           max 0 (rankFrontier L (countLtKey L s m) l))) := h
    rw [hR.head_eq, h3]
    apply List.map_congr_left
    intro a _
    simp
  have hFhigh : ∀ l', z.level ≤ l' → rankFrontier L (countLtKey L s m) l' = 0 := by
    intro l' hl'
    refine rankFrontier_zero_of_level hB ?_
    rw [← hR.level_eq]
    exact hl'
  have hlen : (insertDescend z s m z.level z.head 0).length = z.level := by
    rw [hur]
    simp
  by_cases hl : l < z.level
  · have hgl : (insertDescend z s m z.level z.head 0).getD l (0, 0) =
        (posId L (rankFrontier L (countLtKey L s m) l), rankFrontier L (countLtKey L s m) l) := by
      rw [hur]
      exact getD_map_range _ hl
    by_cases hext : H > z.level
    · rw [if_pos (by simpa using hext)]
      rw [show ((0, 0) : Nat × Nat) = (default : Nat × Nat) from rfl]
      rw [getD_append_lt _ _ (by omega)]
      rw [show (default : Nat × Nat) = ((0, 0) : Nat × Nat) from rfl]
      exact hgl
    · rw [if_neg (by simpa using hext)]
      exact hgl
  · push_neg at hl
    have hF := hFhigh l hl
    rw [hF, posId_zero]
    rw [show ((0, 0) : Nat × Nat) = (default : Nat × Nat) from rfl]
    by_cases hext : H > z.level
    · rw [if_pos (by simpa using hext)]
      by_cases hlH : l < H
      · rw [getD_append_ge _ _ (by omega), hlen]
        rw [getD_replicate _ (by omega), hR.head_eq]
        rfl
      · rw [getD_big]
        simp only [List.length_append, List.length_replicate]
        rw [hlen]
        omega
    · rw [if_neg (by simpa using hext)]
      rw [hur, getD_map_range_big _ (by omega)]

set_option maxHeartbeats 2000000 in
/-- The core preservation argument: the suffix of `insert`, applied to a
base state satisfying the interface established by both branches of the
head-extension step, represents the abstract list with the new entry
spliced in at the count of smaller keys. -/
theorem insertTail_represents {z : Zskiplist} {L : List E} (hR : Represents z L)
    {s : Score} {m : String} {v : Val} {H : Nat} (h1 : 1 ≤ H) (h32 : H ≤ SkipListMaxLvl)
    (hm : ∀ e ∈ L, e.member ≠ m) (z1b : Zskiplist) (ur : List (Nat × Nat))
    (hb1 : z1b.head = 0) (hb2 : z1b.tail = z.tail) (hb3 : z1b.length = z.length)
    (hb4 : z1b.level = max z.level H) (hb5 : z1b.nodes.length = z.nodes.length)
    (hb6 : ∀ j, j ≠ 0 → z1b.node j = z.node j)
    (hb7m : (z1b.node 0).member = (z.node 0).member)
    (hb7s : (z1b.node 0).score = (z.node 0).score)
    (hb7b : (z1b.node 0).backwards = (z.node 0).backwards)
    (hb7l : (z1b.node 0).level.length = (z.node 0).level.length)
    (hb8 : ∀ l, l < z.level ∨ max z.level H ≤ l →
      (z1b.node 0).levelAt l = (z.node 0).levelAt l)
    (hb9 : ∀ l, z.level ≤ l → l < max z.level H →
      (z1b.node 0).levelAt l = ⟨((z.node 0).levelAt l).forward, z.length⟩)
    (hurD : ∀ l, ur.getD l (0, 0) =
      (posId L (rankFrontier L (countLtKey L s m) l), rankFrontier L (countLtKey L s m) l)) :
    Represents (insertTail H s m v z1b ur).1
      (insertAt L (countLtKey L s m) ⟨s, m, z.nodes.length, H⟩) ∧
    (insertTail H s m v z1b ur).2 = z.nodes.length ∧
    (insertTail H s m v z1b ur).1.nodes.length = z.nodes.length + 1 := by
  obtain ⟨B, hBdef⟩ : ∃ B, countLtKey L s m = B := ⟨_, rfl⟩
  rw [hBdef] at hurD ⊢
  have hBle : B ≤ L.length := by rw [← hBdef]; exact countLtKey_le_length L s m
  have hFle : ∀ l, rankFrontier L B l ≤ B := fun l => rankFrontier_le L B l
  have hF0 : rankFrontier L B 0 = B := frontier_zero_eq hR hBle
  have hu1 : ∀ l, (ur.getD l (0, 0)).1 = posId L (rankFrontier L B l) := fun l => by
    rw [hurD l]
  have hu2 : ∀ l, (ur.getD l (0, 0)).2 = rankFrontier L B l := fun l => by rw [hurD l]
  have hN1 : 1 ≤ z.nodes.length := by
    rcases hnn : z.nodes with _ | ⟨a, t⟩
    · exact absurd hnn hR.nodes_ne
    · simp [hnn]
  have hlvlpos := hR.lvl_pos
  have hlvl32 := hR.lvl_le32
  have hM32 : max z.level H ≤ SkipListMaxLvl := max_le hlvl32 h32
  -- the appended-node stage
  obtain ⟨z2, hz2⟩ : ∃ w, ({ z1b with nodes := z1b.nodes ++ [createNode H s m v] } :
      Zskiplist) = w := ⟨_, rfl⟩
  obtain ⟨z3, hz3⟩ : ∃ w, (List.range H).foldl
      (insSpliceStep ur (ur.getD 0 (0, 0)).2 z1b.nodes.length) z2 = w := ⟨_, rfl⟩
  obtain ⟨z4, hz4⟩ : ∃ w, (List.range' H (z3.level - H)).foldl (insBumpStep ur) z3 = w :=
    ⟨_, rfl⟩
  obtain ⟨z5, hz5⟩ : ∃ w, (if (ur.getD 0 (0, 0)).1 = z4.head then
      z4.setBackwards z1b.nodes.length none
    else z4.setBackwards z1b.nodes.length (some (ur.getD 0 (0, 0)).1)) = w := ⟨_, rfl⟩
  obtain ⟨z6, hz6⟩ : ∃ w, (match ((z5.node z1b.nodes.length).levelAt 0).forward with
      | some f => z5.setBackwards f (some z1b.nodes.length)
      | none => { z5 with tail := some z1b.nodes.length }) = w := ⟨_, rfl⟩
  have hfin : insertTail H s m v z1b ur =
      ({ z6 with length := z6.length + 1 }, z1b.nodes.length) := by
    simp only [insertTail]
    rw [hz2, hz3, hz4, hz5, hz6]
  -- stage-2 facts
  have h2head : z2.head = 0 := by rw [← hz2]; exact hb1
  have h2tail : z2.tail = z.tail := by rw [← hz2]; exact hb2
  have h2len : z2.length = z.length := by rw [← hz2]; exact hb3
  have h2lvl : z2.level = max z.level H := by rw [← hz2]; exact hb4
  have h2nl : z2.nodes.length = z.nodes.length + 1 := by
    rw [← hz2]
    show (z1b.nodes ++ [createNode H s m v]).length = z.nodes.length + 1
    rw [List.length_append, hb5]
    rfl
  have h2node_lt : ∀ j, j < z.nodes.length → z2.node j = z1b.node j := by
    intro j hj
    rw [← hz2]
    show (z1b.nodes ++ [createNode H s m v]).getD j default = z1b.nodes.getD j default
    exact getD_append_lt _ _ (by rw [hb5]; omega)
  have h2node_new : z2.node z1b.nodes.length = createNode H s m v := by
    rw [← hz2]
    show (z1b.nodes ++ [createNode H s m v]).getD z1b.nodes.length default = _
    exact getD_append_self _ _
  have h2node_z : ∀ j, j ≠ 0 → j < z.nodes.length → z2.node j = z.node j := by
    intro j hj hjl
    rw [h2node_lt j hjl, hb6 j hj]
  have h2newlen : (z2.node z1b.nodes.length).level.length = H := by
    rw [h2node_new]
    show (List.replicate H (⟨none, 0⟩ : ZslLevel)).length = H
    exact List.length_replicate _ _
  -- reading a canonical slot of `z2` (low levels follow `z` exactly)
  have hz2slot_z : ∀ p l, p ≤ L.length → l < z.level →
      (z2.node (posId L p)).levelAt l = (z.node (posId L p)).levelAt l := by
    intro p l hp hl
    cases p with
    | zero =>
      rw [posId_zero, h2node_lt 0 (by omega), hb8 l (Or.inl hl)]
    | succ p =>
      rw [h2node_z _ (by
          have := posId_pos hR (p := p+1) (by omega) hp
          omega) (posId_lt hR hp)]
  have hz2slot_hi : ∀ l, z.level ≤ l → l < max z.level H →
      (z2.node 0).levelAt l = ⟨((z.node 0).levelAt l).forward, z.length⟩ := by
    intro l hl1 hl2
    rw [h2node_lt 0 (by omega), hb9 l hl1 hl2]
  have hz2len_at : ∀ p, p ≤ L.length →
      (z2.node (posId L p)).level.length = posHeight L p := by
    intro p hp
    cases p with
    | zero =>
      rw [posId_zero, h2node_lt 0 (by omega)]
      show (z1b.node 0).level.length = posHeight L 0
      rw [hb7l, hR.head_len]
      rfl
    | succ p =>
      rw [h2node_z _ (by
          have := posId_pos hR (p := p+1) (by omega) hp
          omega) (posId_lt hR hp)]
      exact nodeAt_len hR hp
  -- splice fold observations
  have hz3' : z3 = (List.range' 0 H).foldl
      (insSpliceStep ur (ur.getD 0 (0, 0)).2 z1b.nodes.length) z2 := by
    rw [← hz3, List.range_eq_range']
  obtain ⟨s1, s2, s3, s4, s5, s6, s7, s8⟩ :=
    spliceFold_spec ur (ur.getD 0 (0, 0)).2 z1b.nodes.length H 0 z2
      (fun l _ _ => by
        rw [hu1 l, hb5]
        exact Nat.ne_of_lt (posId_lt hR (le_trans (hFle l) hBle)))
      (fun l _ _ => by
        rw [hu1 l, h2nl]
        have := posId_lt hR (le_trans (hFle l) hBle)
        omega)
      (by rw [hb5, h2nl]; omega) z3 hz3'
  -- bump fold observations
  have h3lvl : z3.level = max z.level H := by rw [s4, h2lvl]
  have hz4' : z4 = (List.range' H (max z.level H - H)).foldl (insBumpStep ur) z3 := by
    rw [← hz4, h3lvl]
  obtain ⟨b1, b2, b3, b4, b5, b6, b7, b8⟩ :=
    bumpFold_spec ur (max z.level H - H) H z3
      (fun l _ _ => by
        rw [hu1 l, s5, h2nl]
        have := posId_lt hR (le_trans (hFle l) hBle)
        omega) z4 hz4'
  -- backwards-stage facts
  have h4head : z4.head = 0 := by rw [b1, s1, h2head]
  have h4nl : z4.nodes.length = z.nodes.length + 1 := by rw [b5, s5, h2nl]
  have hNlt4 : z1b.nodes.length < z4.nodes.length := by rw [hb5, h4nl]; omega
  have hz5node : ∀ j l, (z5.node j).levelAt l = (z4.node j).levelAt l := by
    intro j l
    rw [← hz5]
    by_cases hc : (ur.getD 0 (0, 0)).1 = z4.head
    · rw [if_pos hc]
      exact slot_setBackwards _ _ _ _ _
    · rw [if_neg hc]
      exact slot_setBackwards _ _ _ _ _
  have hz5data : ∀ j, ((z5.node j).member = (z4.node j).member ∧
      (z5.node j).score = (z4.node j).score ∧
      (z5.node j).level.length = (z4.node j).level.length) := by
    intro j
    rw [← hz5]
    by_cases hc : (ur.getD 0 (0, 0)).1 = z4.head
    · rw [if_pos hc]
      exact data_setBackwards _ _ _ _
    · rw [if_neg hc]
      exact data_setBackwards _ _ _ _
  have hz5fields : z5.head = z4.head ∧ z5.tail = z4.tail ∧ z5.length = z4.length ∧
      z5.level = z4.level ∧ z5.nodes.length = z4.nodes.length := by
    rw [← hz5]
    by_cases hc : (ur.getD 0 (0, 0)).1 = z4.head
    · rw [if_pos hc]
      exact ⟨rfl, rfl, rfl, rfl, by rw [Zskiplist.setBackwards, setNode_nodes_length]⟩
    · rw [if_neg hc]
      exact ⟨rfl, rfl, rfl, rfl, by rw [Zskiplist.setBackwards, setNode_nodes_length]⟩
  have hz5backN : (z5.node z1b.nodes.length).backwards =
      (if B = 0 then none else some (posId L B)) := by
    rw [← hz5]
    have hu0 : (ur.getD 0 (0, 0)).1 = posId L B := by rw [hu1 0, hF0]
    by_cases hB0 : B = 0
    · rw [if_pos (by rw [hu0, h4head, hB0, posId_zero])]
      rw [back_setBackwards, if_pos ⟨rfl, hNlt4⟩, if_pos hB0]
    · rw [if_neg (by
        rw [hu0, h4head]
        have := posId_pos hR (p := B) (by omega) hBle
        omega)]
      rw [back_setBackwards, if_pos ⟨rfl, hNlt4⟩, hu0, if_neg hB0]
  have hz5back_other : ∀ j, j ≠ z1b.nodes.length →
      (z5.node j).backwards = (z4.node j).backwards := by
    intro j hj
    rw [← hz5]
    by_cases hc : (ur.getD 0 (0, 0)).1 = z4.head
    · rw [if_pos hc, back_setBackwards, if_neg (by intro hcon; exact hj hcon.1)]
    · rw [if_neg hc, back_setBackwards, if_neg (by intro hcon; exact hj hcon.1)]
  -- the level-0 forward pointer of the new node decides the tail branch
  have hfwdN : ((z5.node z1b.nodes.length).levelAt 0).forward =
      (if B < L.length then some (posId L (B + 1)) else none) := by
    rw [hz5node, b7 _ 0 (Or.inl h1)]
    have hs8 := (s8 0 (Nat.zero_le _) (by omega)).1 (by rw [h2newlen]; omega)
    rw [hs8]
    show ((z2.node (ur.getD 0 (0, 0)).1).levelAt 0).forward = _
    rw [hu1 0, hF0, hz2slot_z B 0 hBle (by omega)]
    rcases eq_or_lt_of_le hBle with heq | hlt
    · rw [if_neg (by omega)]
      have := (slot0_at hR (p := B) hBle).2 heq
      exact this
    · rw [if_pos hlt]
      exact ((slot0_at hR (p := B) hBle).1 hlt).1
  -- stage-6 facts
  have hz6slot : ∀ j l, (z6.node j).levelAt l = (z5.node j).levelAt l := by
    intro j l
    rw [← hz6]
    rcases hf : ((z5.node z1b.nodes.length).levelAt 0).forward with _ | f
    · rfl
    · exact slot_setBackwards _ _ _ _ _
  have hz6data : ∀ j, ((z6.node j).member = (z5.node j).member ∧
      (z6.node j).score = (z5.node j).score ∧
      (z6.node j).level.length = (z5.node j).level.length) := by
    intro j
    rw [← hz6]
    rcases hf : ((z5.node z1b.nodes.length).levelAt 0).forward with _ | f
    · exact ⟨rfl, rfl, rfl⟩
    · exact data_setBackwards _ _ _ _
  have hz6fields : z6.head = z5.head ∧ z6.length = z5.length ∧
      z6.level = z5.level ∧ z6.nodes.length = z5.nodes.length := by
    rw [← hz6]
    rcases hf : ((z5.node z1b.nodes.length).levelAt 0).forward with _ | f
    · exact ⟨rfl, rfl, rfl, rfl⟩
    · refine ⟨rfl, rfl, rfl, ?_⟩
      show (z5.setBackwards f (some z1b.nodes.length)).nodes.length = z5.nodes.length
      rw [Zskiplist.setBackwards, setNode_nodes_length]
  have hz6tail : z6.tail = (if B < L.length then z.tail else some z1b.nodes.length) := by
    rw [← hz6]
    by_cases hBL : B < L.length
    · have h9 : ((z5.node z1b.nodes.length).levelAt 0).forward = some (posId L (B + 1)) := by
        rw [hfwdN, if_pos hBL]
      rw [h9, if_pos hBL]
      show z5.tail = z.tail
      rw [hz5fields.2.1, b2, s2, h2tail]
    · have h9 : ((z5.node z1b.nodes.length).levelAt 0).forward = none := by
        rw [hfwdN, if_neg hBL]
      rw [h9, if_neg hBL]
  have hz6backN : (z6.node z1b.nodes.length).backwards =
      (if B = 0 then none else some (posId L B)) := by
    rw [← hz6]
    rcases hf : ((z5.node z1b.nodes.length).levelAt 0).forward with _ | f
    · show (z5.node z1b.nodes.length).backwards = _
      exact hz5backN
    · rw [back_setBackwards]
      rw [if_neg (by
        intro hcon
        rw [hfwdN] at hf
        by_cases hBL : B < L.length
        · rw [if_pos hBL] at hf
          have hfval : f = posId L (B + 1) := by
            injection hf with hf2
            exact hf2.symm
          have := posId_lt hR (p := B + 1) (by omega)
          rw [← hfval, ← hcon.1, hb5] at this
          omega
        · rw [if_neg hBL] at hf
          cases hf)]
      exact hz5backN
  have hz6back_f : B < L.length →
      (z6.node (posId L (B + 1))).backwards = some z1b.nodes.length := by
    intro hBL
    rw [← hz6]
    have h9 : ((z5.node z1b.nodes.length).levelAt 0).forward = some (posId L (B + 1)) := by
      rw [hfwdN, if_pos hBL]
    rw [h9]
    rw [back_setBackwards, if_pos ⟨rfl, by
      rw [hz5fields.2.2.2.2, h4nl]
      have := posId_lt hR (p := B + 1) (by omega)
      omega⟩]
  have hz6back_other : ∀ j, j ≠ z1b.nodes.length →
      (B < L.length → j ≠ posId L (B + 1)) →
      (z6.node j).backwards = (z4.node j).backwards := by
    intro j hj1 hj2
    rw [← hz6]
    rcases hf : ((z5.node z1b.nodes.length).levelAt 0).forward with _ | f
    · show (z5.node j).backwards = _
      exact hz5back_other j hj1
    · rw [back_setBackwards, if_neg (by
        intro hcon
        rw [hfwdN] at hf
        by_cases hBL : B < L.length
        · rw [if_pos hBL] at hf
          have hfval : f = posId L (B + 1) := by
            injection hf with hf2
            exact hf2.symm
          exact (hj2 hBL) (by rw [hcon.1, hfval])
        · rw [if_neg hBL] at hf
          cases hf)]
      exact hz5back_other j hj1
  -- composite accessors
  have hslotA : ∀ j l, (z6.node j).levelAt l = (z4.node j).levelAt l := by
    intro j l
    rw [hz6slot, hz5node]
  have hdataA : ∀ j, ((z6.node j).member = (z2.node j).member ∧
      (z6.node j).score = (z2.node j).score ∧
      (z6.node j).level.length = (z2.node j).level.length) := by
    intro j
    obtain ⟨c1, c2, c3⟩ := hz6data j
    obtain ⟨d1, d2, d3⟩ := hz5data j
    obtain ⟨e1, e2, e3, e4⟩ := b6 j
    obtain ⟨f1, f2, f3, f4⟩ := s6 j
    exact ⟨by rw [c1, d1, e1, f1], by rw [c2, d2, e2, f2], by rw [c3, d3, e4, f4]⟩
  have hbackA : ∀ j, j ≠ z1b.nodes.length → (B < L.length → j ≠ posId L (B + 1)) →
      (z6.node j).backwards = (z2.node j).backwards := by
    intro j hj1 hj2
    rw [hz6back_other j hj1 hj2, (b6 j).2.2.1, (s6 j).2.2.1]
  have hbackz : ∀ j, j ≠ 0 → j ≠ z1b.nodes.length → (B < L.length → j ≠ posId L (B + 1)) →
      j < z.nodes.length → (z6.node j).backwards = (z.node j).backwards := by
    intro j hj0 hj1 hj2 hjl
    rw [hbackA j hj1 hj2, h2node_z j hj0 hjl]
  -- untouched canonical slots pass straight through to `z`
  have huntouched : ∀ pz l, pz ≤ L.length → l < max z.level H → l < z.level →
      posId L pz ≠ posId L (rankFrontier L B l) →
      (z6.node (posId L pz)).levelAt l = (z.node (posId L pz)).levelAt l := by
    intro pz l hpz hlM hlz hne
    have hjneN : posId L pz ≠ z1b.nodes.length := by
      rw [hb5]
      exact Nat.ne_of_lt (posId_lt hR hpz)
    rw [hslotA]
    by_cases hlH : l < H
    · rw [b7 _ l (Or.inl hlH)]
      have hc3 := (s8 l (Nat.zero_le _) (by omega)).2.2 (posId L pz) hjneN
        (by rw [hu1 l]; exact hne)
      rw [hc3]
      exact hz2slot_z pz l hpz hlz
    · push_neg at hlH
      have hc2 := (b8 l hlH (by omega)).2 (posId L pz) (by rw [hu1 l]; exact hne)
      rw [hc2]
      rw [s7 _ l (Or.inr (by omega))]
      exact hz2slot_z pz l hpz hlz
  -- the spliced update-node slot (levels below the new height)
  have htouched_lo : ∀ l, l < max z.level H → l < H →
      (z6.node (posId L (rankFrontier L B l))).levelAt l =
        ⟨some z1b.nodes.length, (B - rankFrontier L B l) + 1⟩ := by
    intro l hlM hlH
    have hlen : l < (z2.node (posId L (rankFrontier L B l))).level.length := by
      rw [hz2len_at _ (le_trans (hFle l) hBle)]
      rcases Nat.eq_zero_or_pos (rankFrontier L B l) with hF | hF
      · rw [hF]
        show l < SkipListMaxLvl
        omega
      · exact rankFrontier_height (by omega)
    have hc2 := (s8 l (Nat.zero_le _) (by omega)).2.1
    rw [hu1 l, hu2 l, hu2 0, hF0] at hc2
    rw [hslotA, b7 _ l (Or.inl hlH), hc2 hlen]
  -- the bumped update-node slot (levels at or above the new height)
  have htouched_hi : ∀ l, H ≤ l → l < max z.level H →
      (z6.node (posId L (rankFrontier L B l))).levelAt l =
        ⟨((z.node (posId L (rankFrontier L B l))).levelAt l).forward,
         ((z.node (posId L (rankFrontier L B l))).levelAt l).span + 1⟩ := by
    intro l hlH hlM
    have hlz : l < z.level := by omega
    have hlen3 : l < (z3.node (posId L (rankFrontier L B l))).level.length := by
      rw [(s6 _).2.2.2, hz2len_at _ (le_trans (hFle l) hBle)]
      rcases Nat.eq_zero_or_pos (rankFrontier L B l) with hF | hF
      · rw [hF]
        show l < SkipListMaxLvl
        omega
      · exact rankFrontier_height (by omega)
    have hc1 := (b8 l hlH (by omega)).1
    rw [hu1 l] at hc1
    rw [hslotA, hc1 hlen3]
    rw [s7 _ l (Or.inr (by omega)), hz2slot_z _ l (le_trans (hFle l) hBle) hlz]
  -- the new node's slot at each of its levels
  have htouched_new : ∀ l, l < H →
      (z6.node z1b.nodes.length).levelAt l =
        ⟨((z2.node (posId L (rankFrontier L B l))).levelAt l).forward,
         ((z2.node (posId L (rankFrontier L B l))).levelAt l).span -
           (B - rankFrontier L B l)⟩ := by
    intro l hlH
    have hc1 := (s8 l (Nat.zero_le _) (by omega)).1
    rw [hu1 l, hu2 l, hu2 0, hF0] at hc1
    rw [hslotA, b7 _ l (Or.inl hlH), hc1 (by rw [h2newlen]; omega)]
  -- a frontier's next high node lies beyond the insertion point
  have hcrossB : ∀ l q0, nextPos L l (rankFrontier L B l) = some q0 → B < q0 := by
    intro l q0 hq
    obtain ⟨c1, c2, c3, c4⟩ := nextPos_some hq
    by_contra hcon
    push_neg at hcon
    have h5 := le_rankFrontier hcon c3
    omega
  have hgoodz : ∀ l, l < z.level → goodLevel z L (rankFrontier L B l) l := by
    intro l hlz
    rcases Nat.eq_zero_or_pos (rankFrontier L B l) with hF | hF
    · rw [hF]
      exact hR.head_levels l hlz
    · exact hR.node_levels _ l (by omega) (le_trans (hFle l) hBle)
        (rankFrontier_height (by omega))
  -- the canonical goodness of every slot of the final state
  have hgood : ∀ p l, p ≤ L.length + 1 → l < max z.level H →
      l < posHeight (insertAt L B ⟨s, m, z.nodes.length, H⟩) p →
      goodLevel { z6 with length := z6.length + 1 }
        (insertAt L B ⟨s, m, z.nodes.length, H⟩) p l := by
    intro p l hp hlM hl
    have hslot_node : ∀ j, ({ z6 with length := z6.length + 1 } : Zskiplist).node j =
        z6.node j := fun j => rfl
    have hid : (⟨s, m, z.nodes.length, H⟩ : E).id = z1b.nodes.length := hb5.symm
    by_cases hpB : p ≤ B
    · rw [posHeight_insertAt_le _ hpB hBle] at hl
      by_cases hpF : p = rankFrontier L B l
      · by_cases hlH : l < H
        · -- spliced slot: forward to the new node
          have hnext : nextPos (insertAt L B ⟨s, m, z.nodes.length, H⟩) l p =
              some (B + 1) := by
            refine nextPos_insertAt_new hBle _ hpB ?_ (by show l < H; omega)
            intro r hr1 hr2
            rw [hpF] at hr1
            exact rankFrontier_max hr1 hr2
          rw [goodLevel, hnext]
          dsimp only
          rw [hslot_node, posId_insertAt_le _ hpB hBle, posId_insertAt_mid _ hBle]
          rw [hpF, htouched_lo l hlM hlH, hid]
          refine ⟨rfl, ?_⟩
          show (B - rankFrontier L B l) + 1 = B + 1 - rankFrontier L B l
          have := hFle l
          omega
        · -- bumped slot: the old forward target shifts one position up
          push_neg at hlH
          have hlz : l < z.level := by omega
          have hgz := hgoodz l hlz
          rw [goodLevel] at hgz
          rcases hq : nextPos L l (rankFrontier L B l) with _ | q0
          · rw [hq] at hgz
            have hnext : nextPos (insertAt L B ⟨s, m, z.nodes.length, H⟩) l p = none := by
              rw [hpF]
              exact nextPos_insertAt_crossNone hBle _ (hFle l) hq (by show H ≤ l; omega)
            rw [goodLevel, hnext]
            dsimp only
            rw [hslot_node, posId_insertAt_le _ hpB hBle]
            rw [hpF, htouched_hi l hlH hlM]
            show ((z.node (posId L (rankFrontier L B l))).levelAt l).forward = none
            exact hgz
          · rw [hq] at hgz
            have hq0B : B < q0 := hcrossB l q0 hq
            obtain ⟨c1, c2, c3, c4⟩ := nextPos_some hq
            have hnext : nextPos (insertAt L B ⟨s, m, z.nodes.length, H⟩) l p =
                some (q0 + 1) := by
              rw [hpF]
              exact nextPos_insertAt_cross hBle _ (hFle l) hq hq0B (by show H ≤ l; omega)
            rw [goodLevel, hnext]
            dsimp only
            rw [hslot_node, posId_insertAt_le _ hpB hBle]
            rw [hpF, htouched_hi l hlH hlM]
            refine ⟨?_, ?_⟩
            · show ((z.node (posId L (rankFrontier L B l))).levelAt l).forward =
                some (posId (insertAt L B ⟨s, m, z.nodes.length, H⟩) (q0 + 1))
              rw [posId_insertAt_gt _ (by omega) hBle]
              exact hgz.1
            · show ((z.node (posId L (rankFrontier L B l))).levelAt l).span + 1 =
                q0 + 1 - rankFrontier L B l
              rw [hgz.2]
              omega
      · -- untouched below the frontier
        have hpleF : p ≤ rankFrontier L B l := le_rankFrontier hpB hl
        have hpltF : p < rankFrontier L B l := by omega
        have hlz : l < z.level := by
          have h5 := rankFrontier_height (L := L) (B := B) (l := l) (by omega)
          have h6 := posHeight_le_level hR (p := rankFrontier L B l) (by omega)
            (le_trans (hFle l) hBle)
          omega
        have hgz : goodLevel z L p l := by
          rcases Nat.eq_zero_or_pos p with rfl | hppos
          · exact hR.head_levels l hlz
          · exact hR.node_levels p l (by omega) (by omega) hl
        rw [goodLevel] at hgz
        rcases hq : nextPos L l p with _ | q0
        · exfalso
          exact nextPos_none (by omega) hq (rankFrontier L B l) hpltF
            (le_trans (hFle l) hBle) (rankFrontier_height (by omega))
        · rw [hq] at hgz
          have hq0F : q0 ≤ rankFrontier L B l := by
            by_contra hcon
            push_neg at hcon
            obtain ⟨c1, c2, c3, c4⟩ := nextPos_some hq
            exact c4 (rankFrontier L B l) hpltF hcon (rankFrontier_height (by omega))
          have hnext : nextPos (insertAt L B ⟨s, m, z.nodes.length, H⟩) l p = some q0 :=
            nextPos_insertAt_low hBle _ hpB hq (le_trans hq0F (hFle l))
          rw [goodLevel, hnext]
          dsimp only
          rw [hslot_node, posId_insertAt_le _ hpB hBle]
          rw [huntouched p l (by omega) hlM hlz (fun hcon =>
            hpF (posId_inj hR (by omega) (le_trans (hFle l) hBle) hcon))]
          obtain ⟨hg1, hg2⟩ := hgz
          refine ⟨?_, hg2⟩
          rw [posId_insertAt_le _ (le_trans hq0F (hFle l)) hBle]
          exact hg1
    · push_neg at hpB
      rcases eq_or_lt_of_le (show B + 1 ≤ p from hpB) with heq | hgt
      · -- the new node's own slots
        rw [← heq] at hl hp ⊢
        rw [posHeight_insertAt_mid _ hBle] at hl
        have hlH : l < H := hl
        by_cases hlz : l < z.level
        · have hgz := hgoodz l hlz
          rw [goodLevel] at hgz
          rcases hq : nextPos L l (rankFrontier L B l) with _ | q0
          · rw [hq] at hgz
            have hnext : nextPos (insertAt L B ⟨s, m, z.nodes.length, H⟩) l (B + 1) =
                none := by
              refine nextPos_eq_none ?_
              intro r hr1 hr2
              rw [length_insertAt hBle] at hr2
              rw [show r = (r-1)+1 from by omega, posHeight_insertAt_gt _ (by omega) hBle]
              exact nextPos_none (le_trans (hFle l) hBle) hq (r-1)
                (by have := hFle l; omega) (by omega)
            rw [goodLevel, hnext]
            dsimp only
            rw [hslot_node, posId_insertAt_mid _ hBle]
            rw [hid, htouched_new l hlH]
            show ((z2.node (posId L (rankFrontier L B l))).levelAt l).forward = none
            rw [hz2slot_z _ l (le_trans (hFle l) hBle) hlz]
            exact hgz
          · rw [hq] at hgz
            have hq0B : B < q0 := hcrossB l q0 hq
            obtain ⟨c1, c2, c3, c4⟩ := nextPos_some hq
            have hnext : nextPos (insertAt L B ⟨s, m, z.nodes.length, H⟩) l (B + 1) =
                some (q0 + 1) := by
              refine nextPos_eq_some (by omega) (by rw [length_insertAt hBle]; omega) ?_ ?_
              · rw [posHeight_insertAt_gt _ (by omega) hBle]
                exact c3
              · intro r hr1 hr2
                rw [show r = (r-1)+1 from by omega, posHeight_insertAt_gt _ (by omega) hBle]
                refine c4 (r-1) ?_ (by omega)
                have := hFle l
                omega
            rw [goodLevel, hnext]
            dsimp only
            rw [hslot_node, posId_insertAt_mid _ hBle]
            rw [hid, htouched_new l hlH]
            refine ⟨?_, ?_⟩
            · show ((z2.node (posId L (rankFrontier L B l))).levelAt l).forward =
                some (posId (insertAt L B ⟨s, m, z.nodes.length, H⟩) (q0 + 1))
              rw [hz2slot_z _ l (le_trans (hFle l) hBle) hlz]
              rw [posId_insertAt_gt _ (by omega) hBle]
              exact hgz.1
            · show ((z2.node (posId L (rankFrontier L B l))).levelAt l).span -
                (B - rankFrontier L B l) = q0 + 1 - (B + 1)
              rw [hz2slot_z _ l (le_trans (hFle l) hBle) hlz]
              rw [hgz.2]
              have := hFle l
              omega
        · -- above every present level: no forward pointer there
          push_neg at hlz
          have hF00 : rankFrontier L B l = 0 := by
            refine rankFrontier_zero_of_level hBle ?_
            rw [← hR.level_eq]
            exact hlz
          have hnext : nextPos (insertAt L B ⟨s, m, z.nodes.length, H⟩) l (B + 1) =
              none := by
            refine nextPos_eq_none ?_
            intro r hr1 hr2
            rw [length_insertAt hBle] at hr2
            rw [show r = (r-1)+1 from by omega, posHeight_insertAt_gt _ (by omega) hBle]
            intro hcon
            have h7 := posHeight_le_level hR (p := r-1) (by omega) (by omega)
            omega
          rw [goodLevel, hnext]
          dsimp only
          rw [hslot_node, posId_insertAt_mid _ hBle]
          rw [hid, htouched_new l hlH]
          show ((z2.node (posId L (rankFrontier L B l))).levelAt l).forward = none
          rw [hF00, posId_zero, hz2slot_hi l hlz hlM]
          show ((z.node 0).levelAt l).forward = none
          exact hR.head_hi l hlz (by omega)
      · -- a node past the insertion point
        have hpL : p - 1 ≤ L.length := by omega
        rw [show p = (p-1)+1 from by omega] at hl hp ⊢
        rw [posHeight_insertAt_gt _ (by omega) hBle] at hl
        have hlz : l < z.level := lt_of_lt_of_le hl
          (posHeight_le_level hR (p := p-1) (by omega) hpL)
        have hgz : goodLevel z L (p-1) l := hR.node_levels (p-1) l (by omega) hpL hl
        rw [goodLevel] at hgz
        have hneq : posId L (p-1) ≠ posId L (rankFrontier L B l) := fun hcon => by
          have h8 := posId_inj hR hpL (le_trans (hFle l) hBle) hcon
          have := hFle l
          omega
        rcases hq : nextPos L l (p-1) with _ | q1
        · rw [hq] at hgz
          have hnext := nextPos_insertAt_highNone hBle
            (⟨s, m, z.nodes.length, H⟩ : E) (show B ≤ p - 1 from by omega) hpL hq
          rw [goodLevel, hnext]
          dsimp only
          rw [hslot_node, posId_insertAt_gt _ (by omega) hBle]
          rw [huntouched (p-1) l hpL hlM hlz hneq]
          exact hgz
        · rw [hq] at hgz
          obtain ⟨c1, c2, c3, c4⟩ := nextPos_some hq
          have hnext := nextPos_insertAt_high hBle
            (⟨s, m, z.nodes.length, H⟩ : E) (show B ≤ p - 1 from by omega) hq
          rw [goodLevel, hnext]
          dsimp only
          rw [hslot_node, posId_insertAt_gt _ (by omega) hBle]
          rw [huntouched (p-1) l hpL hlM hlz hneq]
          refine ⟨?_, ?_⟩
          · rw [posId_insertAt_gt _ (by omega) hBle]
            exact hgz.1
          · rw [hgz.2]
            omega
  -- node-data accessors relative to `z`
  have hdz : ∀ j, j ≠ 0 → j < z.nodes.length →
      ((z6.node j).member = (z.node j).member ∧ (z6.node j).score = (z.node j).score ∧
       (z6.node j).level.length = (z.node j).level.length) := by
    intro j hj0 hjl
    obtain ⟨c1, c2, c3⟩ := hdataA j
    rw [h2node_z j hj0 hjl] at c1 c2 c3
    exact ⟨c1, c2, c3⟩
  have hd0 : ((z6.node 0).member = (z.node 0).member ∧
      (z6.node 0).score = (z.node 0).score ∧
      (z6.node 0).level.length = (z.node 0).level.length) := by
    obtain ⟨c1, c2, c3⟩ := hdataA 0
    rw [h2node_lt 0 (by omega)] at c1 c2 c3
    exact ⟨by rw [c1, hb7m], by rw [c2, hb7s], by rw [c3, hb7l]⟩
  have hdN : ((z6.node z1b.nodes.length).member = m ∧
      (z6.node z1b.nodes.length).score = s ∧
      (z6.node z1b.nodes.length).level.length = H) := by
    obtain ⟨c1, c2, c3⟩ := hdataA z1b.nodes.length
    rw [h2node_new] at c1 c2 c3
    refine ⟨by rw [c1]; rfl, by rw [c2]; rfl, ?_⟩
    rw [c3]
    show (List.replicate H (⟨none, 0⟩ : ZslLevel)).length = H
    exact List.length_replicate _ _
  have hz6nl : z6.nodes.length = z.nodes.length + 1 := by
    rw [hz6fields.2.2.2, hz5fields.2.2.2.2, h4nl]
  have hzilvl : z6.level = max z.level H := by
    rw [hz6fields.2.2.1, hz5fields.2.2.2.1, b4, s4, h2lvl]
  have hLIlen : (insertAt L B (⟨s, m, z.nodes.length, H⟩ : E)).length = L.length + 1 :=
    length_insertAt hBle _
  have hfresh : m ∉ L.map E.member := by
    intro hcon
    rw [List.mem_map] at hcon
    obtain ⟨e, he, hem⟩ := hcon
    exact hm e he hem
  have hidfresh : z.nodes.length ∉ L.map E.id := by
    intro hcon
    rw [List.mem_map] at hcon
    obtain ⟨e, he, hei⟩ := hcon
    have := hR.ids_lt e he
    omega
  have hphM : ∀ p, 1 ≤ p → p ≤ L.length + 1 →
      posHeight (insertAt L B (⟨s, m, z.nodes.length, H⟩ : E)) p ≤ max z.level H := by
    intro p hp1 hp2
    by_cases hpB : p ≤ B
    · rw [posHeight_insertAt_le _ hpB hBle]
      exact le_trans (posHeight_le_level hR hp1 (by omega)) (le_max_left _ _)
    · push_neg at hpB
      rcases eq_or_lt_of_le (show B + 1 ≤ p from hpB) with heq | hgt
      · rw [← heq, posHeight_insertAt_mid _ hBle]
        exact le_trans (le_refl H) (le_max_right _ _)
      · rw [show p = (p-1)+1 from by omega, posHeight_insertAt_gt _ (by omega) hBle]
        exact le_trans (posHeight_le_level hR (by omega) (by omega)) (le_max_left _ _)
  rw [hfin]
  refine ⟨?_, hb5, ?_⟩
  · -- the representation invariant for the extended list
    refine ⟨?_, ?_, ?_, ?_, ?_, ?_, ?_, ?_, ?_, ?_, ?_, ?_, ?_, ?_, ?_, ?_, ?_, ?_,
      ?_, ?_, ?_, ?_⟩
    · show z6.head = 0
      rw [hz6fields.1, hz5fields.1, b1, s1, h2head]
    · show (z6.node 0).member = ""
      rw [hd0.1]
      exact hR.head_member
    · show (z6.node 0).score = 0
      rw [hd0.2.1]
      exact hR.head_score
    · show (z6.node 0).backwards = none
      rw [hbackA 0 (by rw [hb5]; omega) (fun hBL => by
        have := posId_pos hR (p := B + 1) (by omega) (by omega)
        omega)]
      rw [h2node_lt 0 (by omega), hb7b]
      exact hR.head_back
    · show (z6.node 0).level.length = SkipListMaxLvl
      rw [hd0.2.2]
      exact hR.head_len
    · show z6.nodes ≠ []
      intro hcon
      have h9 := hz6nl
      rw [hcon] at h9
      exact absurd h9 (by simp)
    · show z6.length + 1 = (insertAt L B (⟨s, m, z.nodes.length, H⟩ : E)).length
      rw [hz6fields.2.1, hz5fields.2.2.1, b3, s3, h2len, hR.length_eq, hLIlen]
    · show z6.level = listLevel (insertAt L B (⟨s, m, z.nodes.length, H⟩ : E))
      rw [hzilvl, listLevel_insertAt hBle _ (by show 1 ≤ H; omega)]
      show max z.level H = max H (listLevel L)
      rw [← hR.level_eq]
      exact Nat.max_comm _ _
    · show (insertAt L B (⟨s, m, z.nodes.length, H⟩ : E)).Pairwise eLt
      rw [← hBdef]
      exact sorted_insertAt hR.sorted hm (countLtKey_le_length L s m)
    · exact nodup_map_insertAt _ E.member hR.members_nodup hfresh
    · intro e he
      rcases (mem_insertAt hBle _ e).1 he with rfl | he2
      · show (⟨s, m, z.nodes.length, H⟩ : E).id < z6.nodes.length
        rw [hz6nl]
        show z.nodes.length < z.nodes.length + 1
        omega
      · show e.id < z6.nodes.length
        rw [hz6nl]
        have := hR.ids_lt e he2
        omega
    · intro e he
      rcases (mem_insertAt hBle _ e).1 he with rfl | he2
      · show 0 < z.nodes.length
        omega
      · exact hR.ids_pos e he2
    · exact ids_inj_of_nodup (nodup_map_insertAt _ E.id hR.ids_nodup hidfresh)
    · intro e he
      rcases (mem_insertAt hBle _ e).1 he with rfl | he2
      · exact ⟨h1, h32⟩
      · exact hR.h_bounds e he2
    · intro e he
      rcases (mem_insertAt hBle _ e).1 he with rfl | he2
      · show (z6.node z.nodes.length).member = m
        rw [← hb5]
        exact hdN.1
      · show (z6.node e.id).member = e.member
        rw [(hdz e.id (by have := hR.ids_pos e he2; omega) (hR.ids_lt e he2)).1]
        exact hR.node_member e he2
    · intro e he
      rcases (mem_insertAt hBle _ e).1 he with rfl | he2
      · show (z6.node z.nodes.length).score = s
        rw [← hb5]
        exact hdN.2.1
      · show (z6.node e.id).score = e.score
        rw [(hdz e.id (by have := hR.ids_pos e he2; omega) (hR.ids_lt e he2)).2.1]
        exact hR.node_score e he2
    · intro e he
      rcases (mem_insertAt hBle _ e).1 he with rfl | he2
      · show (z6.node z.nodes.length).level.length = H
        rw [← hb5]
        exact hdN.2.2
      · show (z6.node e.id).level.length = e.height
        rw [(hdz e.id (by have := hR.ids_pos e he2; omega) (hR.ids_lt e he2)).2.2]
        exact hR.node_len e he2
    · -- backwards pointers
      intro p hp1 hp2
      rw [hLIlen] at hp2
      have hnrec : ∀ j, ({ z6 with length := z6.length + 1 } : Zskiplist).node j =
          z6.node j := fun j => rfl
      by_cases hpB : p ≤ B
      · rw [posId_insertAt_le _ hpB hBle, hnrec]
        have hzb := hR.node_back p hp1 (by omega)
        have hb := hbackz (posId L p) (by
            have := posId_pos hR hp1 (by omega)
            omega)
          (by rw [hb5]; exact Nat.ne_of_lt (posId_lt hR (by omega)))
          (fun hBL hcon => by
            have h8 := posId_inj hR (p := p) (q := B + 1) (by omega) (by omega) hcon
            omega)
          (posId_lt hR (by omega))
        rw [hb, hzb]
        by_cases hpe : p = 1
        · rw [if_pos hpe, if_pos hpe]
        · rw [if_neg hpe, if_neg hpe, posId_insertAt_le _ (by omega) hBle]
      · push_neg at hpB
        rcases eq_or_lt_of_le (show B + 1 ≤ p from hpB) with heq | hgt
        · rw [← heq, posId_insertAt_mid _ hBle]
          show (z6.node (⟨s, m, z.nodes.length, H⟩ : E).id).backwards = _
          rw [show (⟨s, m, z.nodes.length, H⟩ : E).id = z1b.nodes.length from hb5.symm]
          rw [hz6backN]
          by_cases hB0 : B = 0
          · rw [if_pos hB0, if_pos (by omega)]
          · rw [if_neg hB0, if_neg (by omega), show B + 1 - 1 = B from by omega,
              posId_insertAt_le _ (by omega) hBle]
        · rcases eq_or_lt_of_le (show B + 2 ≤ p from hgt) with heq2 | hgt2
          · rw [show p = (p-1)+1 from by omega, posId_insertAt_gt _ (by omega) hBle, hnrec]
            rw [show p - 1 = B + 1 from by omega]
            rw [hz6back_f (by omega)]
            rw [if_neg (by omega)]
            rw [show B + 1 + 1 - 1 = B + 1 from by omega, posId_insertAt_mid _ hBle]
            show some z1b.nodes.length = some (⟨s, m, z.nodes.length, H⟩ : E).id
            rw [hb5]
          · rw [show p = (p-1)+1 from by omega, posId_insertAt_gt _ (by omega) hBle, hnrec]
            have hzb := hR.node_back (p-1) (by omega) (by omega)
            have hb := hbackz (posId L (p-1)) (by
                have := posId_pos hR (p := p-1) (by omega) (by omega)
                omega)
              (by rw [hb5]; exact Nat.ne_of_lt (posId_lt hR (by omega)))
              (fun hBL hcon => by
                have h8 := posId_inj hR (p := p-1) (q := B + 1) (by omega) (by omega) hcon
                omega)
              (posId_lt hR (by omega))
            rw [hb, hzb, if_neg (by omega), if_neg (by omega)]
            rw [show p - 1 + 1 - 1 = (p-2)+1 from by omega, posId_insertAt_gt _ (by omega) hBle]
            rw [show p - 1 - 1 = p - 2 from by omega]
    · -- head levels
      intro l hl
      have hlM : l < max z.level H := by
        have h9 : ({ z6 with length := z6.length + 1 } : Zskiplist).level = z6.level := rfl
        rw [h9, hzilvl] at hl
        exact hl
      refine hgood 0 l (by omega) hlM ?_
      rw [posHeight_insertAt_le _ (by omega) hBle]
      show l < SkipListMaxLvl
      omega
    · -- node levels
      intro p l hp1 hp2 hl
      rw [hLIlen] at hp2
      refine hgood p l hp2 ?_ hl
      exact lt_of_lt_of_le hl (hphM p hp1 hp2)
    · -- unused head levels stay nil
      intro l hl1 hl2
      have h9 : ({ z6 with length := z6.length + 1 } : Zskiplist).level = z6.level := rfl
      rw [h9, hzilvl] at hl1
      show ((z6.node 0).levelAt l).forward = none
      rw [hslotA, b7 _ l (Or.inr (by omega)), s7 _ l (Or.inr (by omega))]
      rw [h2node_lt 0 (by omega), hb8 l (Or.inr hl1)]
      exact hR.head_hi l (le_trans (le_max_left _ _) hl1) hl2
    · -- the tail
      rw [hLIlen, if_neg (by omega)]
      show z6.tail = some (posId (insertAt L B (⟨s, m, z.nodes.length, H⟩ : E)) (L.length + 1))
      rw [hz6tail]
      rcases eq_or_lt_of_le hBle with heq | hlt
      · rw [if_neg (by omega)]
        rw [show L.length + 1 = B + 1 from by omega, posId_insertAt_mid _ hBle]
        show some z1b.nodes.length = some (⟨s, m, z.nodes.length, H⟩ : E).id
        rw [hb5]
      · rw [if_pos hlt]
        have htz := hR.tail_ok
        rw [if_neg (by omega)] at htz
        rw [htz]
        rw [show L.length + 1 = L.length + 1 from rfl, posId_insertAt_gt _ (by omega) hBle]
  · show z6.nodes.length = z.nodes.length + 1
    exact hz6nl

theorem insert_eq_insertTail (z : Zskiplist) (s : Score) (m : String) (v : Val) (H : Nat) :
    z.insert s m v H =
      insertTail H s m v
        (if decide (H > z.level) then
          { ((List.range' z.level (H - z.level)).foldl insExtStep z) with level := H }
        else z)
        (if decide (H > z.level) then
          insertDescend z s m z.level z.head 0 ++ List.replicate (H - z.level) (z.head, 0)
        else insertDescend z s m z.level z.head 0) := by
  by_cases hext : H > z.level
  · have hd : decide (H > z.level) = true := by simpa using hext
    simp only [insert_unfold, insertTail, hd, if_true]
  · have hd : decide (H > z.level) = false := by simpa using hext
    simp only [insert_unfold, insertTail, hd, Bool.false_eq_true, if_false]

theorem insert_z1b_spec {z : Zskiplist} {L : List E} (hR : Represents z L) (H : Nat)
    (h32 : H ≤ SkipListMaxLvl) :
    ∀ z1b, z1b = (if decide (H > z.level) then
        { ((List.range' z.level (H - z.level)).foldl insExtStep z) with level := H }
      else z) →
      z1b.head = 0 ∧ z1b.tail = z.tail ∧ z1b.length = z.length ∧
      z1b.level = max z.level H ∧ z1b.nodes.length = z.nodes.length ∧
      (∀ j, j ≠ 0 → z1b.node j = z.node j) ∧
      (z1b.node 0).member = (z.node 0).member ∧
      (z1b.node 0).score = (z.node 0).score ∧
      (z1b.node 0).backwards = (z.node 0).backwards ∧
      (z1b.node 0).level.length = (z.node 0).level.length ∧
      (∀ l, l < z.level ∨ max z.level H ≤ l →
        (z1b.node 0).levelAt l = (z.node 0).levelAt l) ∧
      (∀ l, z.level ≤ l → l < max z.level H →
        (z1b.node 0).levelAt l = ⟨((z.node 0).levelAt l).forward, z.length⟩) := by
  intro z1b hz1b
  by_cases hext : H > z.level
  · rw [if_pos (by simpa using hext)] at hz1b
    obtain ⟨e1, e2, e3, e4, e5, e6, e7, e8, e9, e10, e11, e12⟩ :=
      extFold_spec (H - z.level) z z.level hR.head_eq
        ((List.range' z.level (H - z.level)).foldl insExtStep z) rfl
    have hM : max z.level H = H := max_eq_right (by omega)
    have hnode_rec : ∀ j, z1b.node j =
        ((List.range' z.level (H - z.level)).foldl insExtStep z).node j := by
      intro j
      rw [hz1b]
      rfl
    refine ⟨by rw [hz1b]; exact e1, by rw [hz1b]; exact e2, by rw [hz1b]; exact e3,
      by rw [hz1b]; show H = max z.level H; omega,
      by rw [hz1b]; exact e5,
      fun j hj => by rw [hnode_rec, e6 j hj],
      by rw [hnode_rec]; exact e7, by rw [hnode_rec]; exact e8,
      by rw [hnode_rec]; exact e9, by rw [hnode_rec]; exact e10, ?_, ?_⟩
    · intro l hl
      rw [hnode_rec]
      refine e11 l ?_
      rcases hl with hl | hl
      · exact Or.inl hl
      · right
        omega
    · intro l hl1 hl2
      rw [hnode_rec]
      refine e12 l hl1 (by omega) ?_
      rw [hR.head_len]
      omega
  · rw [if_neg (by simpa using hext)] at hz1b
    have hM : max z.level H = z.level := max_eq_left (by omega)
    rw [hz1b]
    exact ⟨hR.head_eq, rfl, rfl, by omega, rfl, fun j _ => rfl, rfl, rfl, rfl, rfl,
      fun l _ => rfl, fun l h1 h2 => by omega⟩

/-- `insert` preserves the representation invariant: the result
represents the entry list with the new `(score, member)` spliced in at
the count of strictly smaller keys, and the returned id is the fresh
arena slot. -/
theorem insert_represents {z : Zskiplist} {L : List E} (hR : Represents z L)
    {s : Score} {m : String} (v : Val) {H : Nat} (h1 : 1 ≤ H) (h32 : H ≤ SkipListMaxLvl)
    (hm : ∀ e ∈ L, e.member ≠ m) :
    Represents (z.insert s m v H).1
      (insertAt L (countLtKey L s m) ⟨s, m, z.nodes.length, H⟩) ∧
    (z.insert s m v H).2 = z.nodes.length ∧
    (z.insert s m v H).1.nodes.length = z.nodes.length + 1 := by
  rw [insert_eq_insertTail]
  obtain ⟨c1, c2, c3, c4, c5, c6, c7, c8, c9, c10, c11, c12⟩ :=
    insert_z1b_spec hR H h32 _ rfl
  exact insertTail_represents hR h1 h32 hm _ _ c1 c2 c3 c4 c5 c6 c7 c8 c9 c10 c11 c12
    (insert_ur_getD hR s m H)

/-! ## `nextPos` transfer from the extension back to the base list -/

theorem nextPos_back_low {L : List E} {B : Nat} (hB : B ≤ L.length) (e : E)
    {l p q0 : Nat} (hp : p ≤ B) (hq : nextPos (insertAt L B e) l p = some q0)
    (hq0 : q0 ≤ B) : nextPos L l p = some q0 := by
  obtain ⟨h1, h2, h3, h4⟩ := nextPos_some hq
  refine nextPos_eq_some h1 (by omega) ?_ ?_
  · rw [posHeight_insertAt_le e hq0 hB] at h3
    exact h3
  · intro r hr1 hr2
    have h5 := h4 r hr1 hr2
    rw [posHeight_insertAt_le e (by omega) hB] at h5
    exact h5

theorem nextPos_back_mid_some {L : List E} {B : Nat} (hB : B ≤ L.length) (e : E)
    {l p q1 : Nat} (hp : p ≤ B) (hq : nextPos (insertAt L B e) l p = some (B + 1))
    (hq1 : nextPos (insertAt L B e) l (B + 1) = some q1) :
    nextPos L l p = some (q1 - 1) := by
  obtain ⟨h1, h2, h3, h4⟩ := nextPos_some hq
  obtain ⟨g1, g2, g3, g4⟩ := nextPos_some hq1
  rw [length_insertAt hB] at g2
  refine nextPos_eq_some (by omega) (by omega) ?_ ?_
  · rw [show q1 - 1 = (q1 - 1 - 1) + 1 from by omega]
    rw [show q1 = (q1 - 1 - 1 + 1) + 1 from by omega] at g3
    rw [posHeight_insertAt_gt e (by omega) hB] at g3
    exact g3
  · intro r hr1 hr2
    rcases le_or_lt r B with hrB | hrB
    · have h5 := h4 r hr1 (by omega)
      rw [posHeight_insertAt_le e hrB hB] at h5
      exact h5
    · have h5 := g4 (r + 1) (by omega) (by omega)
      rw [posHeight_insertAt_gt e (by omega) hB] at h5
      exact h5

theorem nextPos_back_mid_none {L : List E} {B : Nat} (hB : B ≤ L.length) (e : E)
    {l p : Nat} (hp : p ≤ B) (hq : nextPos (insertAt L B e) l p = some (B + 1))
    (hq1 : nextPos (insertAt L B e) l (B + 1) = none) :
    nextPos L l p = none := by
  obtain ⟨h1, h2, h3, h4⟩ := nextPos_some hq
  have g4 := nextPos_none (by rw [length_insertAt hB]; omega) hq1
  refine nextPos_eq_none ?_
  intro q hq2 hq3
  rcases le_or_lt q B with hrB | hrB
  · have h5 := h4 q hq2 (by omega)
    rw [posHeight_insertAt_le e hrB hB] at h5
    exact h5
  · have h5 := g4 (q + 1) (by omega) (by rw [length_insertAt hB]; omega)
    rw [posHeight_insertAt_gt e (by omega) hB] at h5
    exact h5

theorem nextPos_back_cross {L : List E} {B : Nat} (hB : B ≤ L.length) (e : E)
    {l p q0 : Nat} (hp : p ≤ B) (hq : nextPos (insertAt L B e) l p = some q0)
    (hq0 : B + 1 < q0) : nextPos L l p = some (q0 - 1) := by
  obtain ⟨h1, h2, h3, h4⟩ := nextPos_some hq
  rw [length_insertAt hB] at h2
  refine nextPos_eq_some (by omega) (by omega) ?_ ?_
  · rw [show q0 - 1 = (q0 - 1 - 1) + 1 from by omega]
    rw [show q0 = (q0 - 1 - 1 + 1) + 1 from by omega] at h3
    rw [posHeight_insertAt_gt e (by omega) hB] at h3
    exact h3
  · intro r hr1 hr2
    rcases le_or_lt r B with hrB | hrB
    · have h5 := h4 r hr1 (by omega)
      rw [posHeight_insertAt_le e hrB hB] at h5
      exact h5
    · have h5 := h4 (r + 1) (by omega) (by omega)
      rw [posHeight_insertAt_gt e (by omega) hB] at h5
      exact h5

theorem nextPos_back_none {L : List E} {B : Nat} (hB : B ≤ L.length) (e : E)
    {l p : Nat} (hp : p ≤ B) (hq : nextPos (insertAt L B e) l p = none) :
    nextPos L l p = none := by
  have h4 := nextPos_none (by rw [length_insertAt hB]; omega) hq
  refine nextPos_eq_none ?_
  intro q hq2 hq3
  rcases le_or_lt q B with hrB | hrB
  · have h5 := h4 q hq2 (by rw [length_insertAt hB]; omega)
    rw [posHeight_insertAt_le e hrB hB] at h5
    exact h5
  · have h5 := h4 (q + 1) (by omega) (by rw [length_insertAt hB]; omega)
    rw [posHeight_insertAt_gt e (by omega) hB] at h5
    exact h5

theorem nextPos_back_high {L : List E} {B : Nat} (hB : B ≤ L.length) (e : E)
    {l p q1 : Nat} (hp : B ≤ p) (hq : nextPos (insertAt L B e) l (p + 1) = some q1) :
    nextPos L l p = some (q1 - 1) := by
  obtain ⟨h1, h2, h3, h4⟩ := nextPos_some hq
  rw [length_insertAt hB] at h2
  refine nextPos_eq_some (by omega) (by omega) ?_ ?_
  · rw [show q1 - 1 = (q1 - 1 - 1) + 1 from by omega]
    rw [show q1 = (q1 - 1 - 1 + 1) + 1 from by omega] at h3
    rw [posHeight_insertAt_gt e (by omega) hB] at h3
    exact h3
  · intro r hr1 hr2
    have h5 := h4 (r + 1) (by omega) (by omega)
    rw [posHeight_insertAt_gt e (by omega) hB] at h5
    exact h5

theorem nextPos_back_highNone {L : List E} {B : Nat} (hB : B ≤ L.length) (e : E)
    {l p : Nat} (hp : B ≤ p) (hpn : p ≤ L.length)
    (hq : nextPos (insertAt L B e) l (p + 1) = none) : nextPos L l p = none := by
  have h4 := nextPos_none (by rw [length_insertAt hB]; omega) hq
  refine nextPos_eq_none ?_
  intro q hq2 hq3
  have h5 := h4 (q + 1) (by omega) (by rw [length_insertAt hB]; omega)
  rw [posHeight_insertAt_gt e (by omega) hB] at h5
  exact h5

theorem exists_height_gt : ∀ {L : List E} {k : Nat}, k < listLevel L → 1 ≤ k →
    ∃ e ∈ L, k < e.height
  | [], k, h2, h1 => by
    exfalso
    have : listLevel ([] : List E) = 1 := rfl
    omega
  | a :: t, k, h2, h1 => by
    have hll : listLevel (a :: t) = max a.height (listLevel t) := rfl
    rcases le_or_lt a.height k with hak | hak
    · obtain ⟨e, he, hegt⟩ := exists_height_gt (L := t) (k := k) (by omega) h1
      exact ⟨e, by simp [he], hegt⟩
    · exact ⟨a, by simp, hak⟩

theorem listLevel_eraseIdx_le {L : List E} (B : Nat) :
    listLevel (L.eraseIdx B) ≤ listLevel L := by
  refine listLevel_le ?_ (listLevel_pos L)
  intro e he
  exact height_le_listLevel ((List.eraseIdx_sublist L B).subset he)

theorem getD_in_range {α : Type} (l : List α) (d : α) {j : Nat} (h : j < l.length) :
    l.getD j d = l[j] := by
  simp [List.getD_eq_getElem?_getD, List.getElem?_eq_getElem h]

/-- The update vector computed by `delete`. -/
theorem delete_updates {z : Zskiplist} {L : List E} (hR : Represents z L)
    (s : Score) (m : String) :
    deleteDescend z s m z.level z.head =
      (List.range z.level).map (fun l => posId L (rankFrontier L (countLtKey L s m) l)) := by
  have h := deleteDescend_spec hR s m z.level 0 le_rfl (Nat.zero_le _) (Or.inl rfl)
  have h3 : deleteDescend z s m z.level 0 =
      (List.range z.level).map (fun l =>
        posId L (max 0 (rankFrontier L (countLtKey L s m) l))) := h
  rw [hR.head_eq, h3]
  apply List.map_congr_left
  intro a _
  simp

/-- On a present key, `delete` reduces to `deleteNode` of the node at
position `countLtKey + 1`. -/
theorem delete_eq_deleteNode {z : Zskiplist} {L : List E} (hR : Represents z L)
    {s : Score} {m : String} (hB : countLtKey L s m < L.length)
    (hs : posScore L (countLtKey L s m + 1) = s)
    (hmm : posMember L (countLtKey L s m + 1) = m) :
    z.delete s m = z.deleteNode (posId L (countLtKey L s m + 1))
      (deleteDescend z s m z.level z.head) := by
  have hx : (deleteDescend z s m z.level z.head).getD 0 z.head =
      posId L (countLtKey L s m) := by
    rw [delete_updates hR s m, getD_in_range _ _ (by
      rw [List.length_map, List.length_range]
      exact hR.lvl_pos)]
    rw [List.getElem_map, List.getElem_range]
    rw [frontier_zero_eq hR (countLtKey_le_length L s m)]
  have hfwd : ((z.node (posId L (countLtKey L s m))).levelAt 0).forward =
      some (posId L (countLtKey L s m + 1)) :=
    ((slot0_at hR (p := countLtKey L s m) (by omega)).1 hB).1
  have hcond : ((z.node (posId L (countLtKey L s m + 1))).score == s &&
      ((z.node (posId L (countLtKey L s m + 1))).member == m)) = true := by
    rw [nodeAt_score hR (by omega), nodeAt_member hR (by omega), hs, hmm]
    simp
  simp only [Zskiplist.delete]
  rw [hx, hfwd]
  dsimp only
  rw [if_pos hcond]

/-- On an absent key, `delete` is the identity. -/
theorem delete_not_found {z : Zskiplist} {L : List E} (hR : Represents z L)
    {s : Score} {m : String}
    (habs : countLtKey L s m < L.length →
      ¬(posScore L (countLtKey L s m + 1) = s ∧ posMember L (countLtKey L s m + 1) = m)) :
    z.delete s m = z := by
  have hBle := countLtKey_le_length L s m
  have hx : (deleteDescend z s m z.level z.head).getD 0 z.head =
      posId L (countLtKey L s m) := by
    rw [delete_updates hR s m, getD_in_range _ _ (by
      rw [List.length_map, List.length_range]
      exact hR.lvl_pos)]
    rw [List.getElem_map, List.getElem_range]
    rw [frontier_zero_eq hR (countLtKey_le_length L s m)]
  simp only [Zskiplist.delete]
  rw [hx]
  rcases eq_or_lt_of_le hBle with heqB | hltB
  · rw [(slot0_at hR (p := countLtKey L s m) hBle).2 heqB]
  · rw [((slot0_at hR (p := countLtKey L s m) hBle).1 hltB).1]
    dsimp only
    have hcond : ¬ (((z.node (posId L (countLtKey L s m + 1))).score == s &&
        ((z.node (posId L (countLtKey L s m + 1))).member == m)) = true) := by
      intro hcon
      rw [nodeAt_score hR (by omega), nodeAt_member hR (by omega)] at hcon
      rw [Bool.and_eq_true, beq_iff_eq, beq_iff_eq] at hcon
      exact habs hltB hcon
    rw [if_neg hcond]

set_option maxHeartbeats 2000000 in
/-- `delete` on a present key preserves the representation invariant:
the result represents the entry list with the matched entry erased, the
arena is untouched, and emptying the list leaves a nil tail. -/
theorem delete_represents {z : Zskiplist} {L : List E} (hR : Represents z L)
    {s : Score} {m : String} (hBlt : countLtKey L s m < L.length)
    (hs : posScore L (countLtKey L s m + 1) = s)
    (hmm : posMember L (countLtKey L s m + 1) = m) :
    Represents (z.delete s m) (L.eraseIdx (countLtKey L s m)) ∧
    (z.delete s m).nodes.length = z.nodes.length ∧
    (L.eraseIdx (countLtKey L s m) = [] → (z.delete s m).tail = none) := by
  have hred : z.delete s m = z.deleteNode (posId L (countLtKey L s m + 1))
      ((List.range z.level).map (fun l => posId L (rankFrontier L (countLtKey L s m) l))) := by
    rw [delete_eq_deleteNode hR hBlt hs hmm, delete_updates hR s m]
  rw [hred]
  obtain ⟨B, hBdef⟩ : ∃ B, countLtKey L s m = B := ⟨_, rfl⟩
  rw [hBdef] at hBlt hs hmm ⊢
  have hBle : B ≤ L.length := by omega
  have hFle : ∀ l, rankFrontier L B l ≤ B := fun l => rankFrontier_le L B l
  have hF0 : rankFrontier L B 0 = B := frontier_zero_eq hR hBle
  have hlvlpos := hR.lvl_pos
  have hlvl32 := hR.lvl_le32
  -- list-side recomposition
  have heq : insertAt (L.eraseIdx B) B (L.getD B default) = L := insertAt_eraseIdx hBlt
  have hlen' : (L.eraseIdx B).length = L.length - 1 := eraseIdx_length hBlt
  have hB' : B ≤ (L.eraseIdx B).length := by omega
  have hPle : ∀ q, q ≤ B → posId L q = posId (L.eraseIdx B) q := by
    intro q hq
    have h := posId_insertAt_le (L := L.eraseIdx B) (B := B) (L.getD B default) hq hB'
    rw [heq] at h
    exact h
  have hPgt : ∀ q, B + 1 ≤ q → posId L (q + 1) = posId (L.eraseIdx B) q := by
    intro q hq
    have h := posId_insertAt_gt (L := L.eraseIdx B) (B := B) (L.getD B default) hq hB'
    rw [heq] at h
    exact h
  have hHle : ∀ q, q ≤ B → posHeight L q = posHeight (L.eraseIdx B) q := by
    intro q hq
    have h := posHeight_insertAt_le (L := L.eraseIdx B) (B := B) (L.getD B default) hq hB'
    rw [heq] at h
    exact h
  have hHgt : ∀ q, B + 1 ≤ q → posHeight L (q + 1) = posHeight (L.eraseIdx B) q := by
    intro q hq
    have h := posHeight_insertAt_gt (L := L.eraseIdx B) (B := B) (L.getD B default) hq hB'
    rw [heq] at h
    exact h
  -- back-transfer wrappers
  have hD1 : ∀ {l p q0 : Nat}, p ≤ B → nextPos L l p = some q0 → q0 ≤ B →
      nextPos (L.eraseIdx B) l p = some q0 := by
    intro l p q0 hp hq hq0
    rw [← heq] at hq
    exact nextPos_back_low hB' _ hp hq hq0
  have hD2a : ∀ {l p q1 : Nat}, p ≤ B → nextPos L l p = some (B + 1) →
      nextPos L l (B + 1) = some q1 → nextPos (L.eraseIdx B) l p = some (q1 - 1) := by
    intro l p q1 hp hq hq1
    rw [← heq] at hq hq1
    exact nextPos_back_mid_some hB' _ hp hq hq1
  have hD2b : ∀ {l p : Nat}, p ≤ B → nextPos L l p = some (B + 1) →
      nextPos L l (B + 1) = none → nextPos (L.eraseIdx B) l p = none := by
    intro l p hp hq hq1
    rw [← heq] at hq hq1
    exact nextPos_back_mid_none hB' _ hp hq hq1
  have hD3 : ∀ {l p q0 : Nat}, p ≤ B → nextPos L l p = some q0 → B + 1 < q0 →
      nextPos (L.eraseIdx B) l p = some (q0 - 1) := by
    intro l p q0 hp hq hq0
    rw [← heq] at hq
    exact nextPos_back_cross hB' _ hp hq hq0
  have hD4 : ∀ {l p : Nat}, p ≤ B → nextPos L l p = none →
      nextPos (L.eraseIdx B) l p = none := by
    intro l p hp hq
    rw [← heq] at hq
    exact nextPos_back_none hB' _ hp hq
  have hD5a : ∀ {l p q1 : Nat}, B ≤ p → nextPos L l (p + 1) = some q1 →
      nextPos (L.eraseIdx B) l p = some (q1 - 1) := by
    intro l p q1 hp hq
    rw [← heq] at hq
    exact nextPos_back_high hB' _ hp hq
  have hD5b : ∀ {l p : Nat}, B ≤ p → p ≤ (L.eraseIdx B).length →
      nextPos L l (p + 1) = none → nextPos (L.eraseIdx B) l p = none := by
    intro l p hp hpn hq
    rw [← heq] at hq
    exact nextPos_back_highNone hB' _ hp (by omega) hq
  -- stages of deleteNode
  obtain ⟨zd1, hzd1⟩ : ∃ w, (List.range z.level).foldl
      (delStep ((List.range z.level).map (fun l => posId L (rankFrontier L B l)))
        (posId L (B + 1))) z = w := ⟨_, rfl⟩
  obtain ⟨zd2, hzd2⟩ : ∃ w, (match ((zd1.node (posId L (B + 1))).levelAt 0).forward with
      | some f => zd1.setBackwards f ((zd1.node (posId L (B + 1))).backwards)
      | none => { zd1 with tail := (zd1.node (posId L (B + 1))).backwards }) = w := ⟨_, rfl⟩
  have hfin : z.deleteNode (posId L (B + 1))
      ((List.range z.level).map (fun l => posId L (rankFrontier L B l))) =
      { zd2 with level := shrinkLevel zd2 zd2.level, length := zd2.length - 1 } := by
    simp only [deleteNode_unfold]
    rw [hzd1, hzd2]
  have hupdD : ∀ l, l < z.level →
      ((List.range z.level).map (fun l => posId L (rankFrontier L B l))).getD l 0 =
        posId L (rankFrontier L B l) := by
    intro l hl
    rw [getD_in_range _ _ (by rw [List.length_map, List.length_range]; exact hl)]
    rw [List.getElem_map, List.getElem_range]
  have hzd1' : zd1 = (List.range' 0 z.level).foldl
      (delStep ((List.range z.level).map (fun l => posId L (rankFrontier L B l)))
        (posId L (B + 1))) z := by
    rw [← hzd1, List.range_eq_range']
  obtain ⟨d1, d2, d3, d4, d5, d6, d7, d8⟩ :=
    delFold_spec ((List.range z.level).map (fun l => posId L (rankFrontier L B l)))
      (posId L (B + 1)) z.level 0 z
      (fun l _ hl => by
        rw [hupdD l (by omega)]
        intro hcon
        have h9 := posId_inj hR (le_trans (hFle l) hBle) (by omega) hcon
        have := hFle l
        omega)
      (fun l _ hl => by
        rw [hupdD l (by omega)]
        exact posId_lt hR (le_trans (hFle l) hBle))
      zd1 hzd1'
  -- the deleted node's own slots and backwards are untouched by the fold
  have hdelslot : ∀ l, (zd1.node (posId L (B + 1))).levelAt l =
      (z.node (posId L (B + 1))).levelAt l := by
    intro l
    by_cases hl : l < z.level
    · refine (d8 l (Nat.zero_le _) (by omega)).2 _ ?_
      rw [hupdD l hl]
      intro hcon
      have h9 := posId_inj hR (by omega) (le_trans (hFle l) hBle) hcon
      have := hFle l
      omega
    · exact d7 _ l (Or.inr (by omega))
  have hdelback : (zd1.node (posId L (B + 1))).backwards =
      (z.node (posId L (B + 1))).backwards := (d6 _).2.2.1
  have hfwdDel : ((z.node (posId L (B + 1))).levelAt 0).forward =
      (if B + 1 < L.length then some (posId L (B + 2)) else none) := by
    rcases eq_or_lt_of_le (show B + 1 ≤ L.length from hBlt) with heqL | hltL
    · rw [if_neg (by omega)]
      exact (slot0_at hR (p := B + 1) (by omega)).2 heqL
    · rw [if_pos hltL]
      exact ((slot0_at hR (p := B + 1) (by omega)).1 hltL).1
  have hbackDel : (z.node (posId L (B + 1))).backwards =
      (if B = 0 then none else some (posId L B)) := by
    have h := hR.node_back (B + 1) (by omega) (by omega)
    rw [h]
    by_cases hB0 : B = 0
    · rw [if_pos (by omega), if_pos hB0]
    · rw [if_neg (by omega), if_neg hB0, show B + 1 - 1 = B from by omega]
  -- stage-2 observations
  have hz2slot : ∀ j l, (zd2.node j).levelAt l = (zd1.node j).levelAt l := by
    intro j l
    rw [← hzd2]
    rcases hf : ((zd1.node (posId L (B + 1))).levelAt 0).forward with _ | f
    · rfl
    · exact slot_setBackwards _ _ _ _ _
  have hz2data : ∀ j, ((zd2.node j).member = (zd1.node j).member ∧
      (zd2.node j).score = (zd1.node j).score ∧
      (zd2.node j).level.length = (zd1.node j).level.length) := by
    intro j
    rw [← hzd2]
    rcases hf : ((zd1.node (posId L (B + 1))).levelAt 0).forward with _ | f
    · exact ⟨rfl, rfl, rfl⟩
    · exact data_setBackwards _ _ _ _
  have hz2fields : zd2.head = zd1.head ∧ zd2.length = zd1.length ∧
      zd2.level = zd1.level ∧ zd2.nodes.length = zd1.nodes.length := by
    rw [← hzd2]
    rcases hf : ((zd1.node (posId L (B + 1))).levelAt 0).forward with _ | f
    · exact ⟨rfl, rfl, rfl, rfl⟩
    · refine ⟨rfl, rfl, rfl, ?_⟩
      show (zd1.setBackwards f ((zd1.node (posId L (B + 1))).backwards)).nodes.length =
        zd1.nodes.length
      rw [Zskiplist.setBackwards, setNode_nodes_length]
  have hz2head : zd2.head = 0 := by rw [hz2fields.1, d1, hR.head_eq]
  have hz2nl : zd2.nodes.length = z.nodes.length := by rw [hz2fields.2.2.2, d5]
  have hz2level : zd2.level = z.level := by rw [hz2fields.2.2.1, d4]
  have hz2tail : zd2.tail = (if B + 1 < L.length then z.tail
      else (z.node (posId L (B + 1))).backwards) := by
    rw [← hzd2]
    by_cases hBL : B + 1 < L.length
    · have h9 : ((zd1.node (posId L (B + 1))).levelAt 0).forward =
          some (posId L (B + 2)) := by
        rw [hdelslot 0, hfwdDel, if_pos hBL]
      rw [h9, if_pos hBL]
      show zd1.tail = z.tail
      rw [d2]
    · have h9 : ((zd1.node (posId L (B + 1))).levelAt 0).forward = none := by
        rw [hdelslot 0, hfwdDel, if_neg hBL]
      rw [h9, if_neg hBL]
      show (zd1.node (posId L (B + 1))).backwards = _
      exact hdelback
  have hz2back_f : B + 1 < L.length → (zd2.node (posId L (B + 2))).backwards =
      (z.node (posId L (B + 1))).backwards := by
    intro hBL
    rw [← hzd2]
    have h9 : ((zd1.node (posId L (B + 1))).levelAt 0).forward =
        some (posId L (B + 2)) := by
      rw [hdelslot 0, hfwdDel, if_pos hBL]
    rw [h9]
    rw [back_setBackwards, if_pos ⟨rfl, by
      rw [d5]
      exact posId_lt hR (p := B + 2) (by omega)⟩]
    exact hdelback
  have hz2back_other : ∀ j, (B + 1 < L.length → j ≠ posId L (B + 2)) →
      (zd2.node j).backwards = (zd1.node j).backwards := by
    intro j hj
    rw [← hzd2]
    rcases hf : ((zd1.node (posId L (B + 1))).levelAt 0).forward with _ | f
    · rfl
    · rw [back_setBackwards, if_neg (by
        intro hcon
        rw [hdelslot 0, hfwdDel] at hf
        by_cases hBL : B + 1 < L.length
        · rw [if_pos hBL] at hf
          have hfval : f = posId L (B + 2) := by
            injection hf with hf2
            exact hf2.symm
          exact (hj hBL) (by rw [hcon.1, hfval])
        · rw [if_neg hBL] at hf
          cases hf)]
  have hbackz : ∀ j, (B + 1 < L.length → j ≠ posId L (B + 2)) →
      (zd2.node j).backwards = (z.node j).backwards := by
    intro j hj
    rw [hz2back_other j hj, (d6 j).2.2.1]
  have hdataz : ∀ j, ((zd2.node j).member = (z.node j).member ∧
      (zd2.node j).score = (z.node j).score ∧
      (zd2.node j).level.length = (z.node j).level.length) := by
    intro j
    obtain ⟨c1, c2, c3⟩ := hz2data j
    obtain ⟨e1, e2, e3, e4⟩ := d6 j
    exact ⟨by rw [c1, e1], by rw [c2, e2], by rw [c3, e4]⟩
  -- slot access to `z` for untouched nodes
  have huntD : ∀ pz l, pz ≤ L.length → l < z.level →
      posId L pz ≠ posId L (rankFrontier L B l) →
      (zd2.node (posId L pz)).levelAt l = (z.node (posId L pz)).levelAt l := by
    intro pz l hpz hlz hne
    rw [hz2slot]
    refine (d8 l (Nat.zero_le _) (by omega)).2 _ ?_
    rw [hupdD l hlz]
    exact hne
  have hgoodzD : ∀ l, l < z.level → goodLevel z L (rankFrontier L B l) l := by
    intro l hlz
    rcases Nat.eq_zero_or_pos (rankFrontier L B l) with hF | hF
    · rw [hF]
      exact hR.head_levels l hlz
    · exact hR.node_levels _ l (by omega) (le_trans (hFle l) hBle)
        (rankFrontier_height (by omega))
  have hcrossBD : ∀ l q0, nextPos L l (rankFrontier L B l) = some q0 → B < q0 := by
    intro l q0 hq
    obtain ⟨c1, c2, c3, c4⟩ := nextPos_some hq
    by_contra hcon
    push_neg at hcon
    have h5 := le_rankFrontier hcon c3
    omega
  -- the touched slot value from the unlink fold
  have htouchedD : ∀ l, l < z.level →
      (zd2.node (posId L (rankFrontier L B l))).levelAt l =
        (if ((z.node (posId L (rankFrontier L B l))).levelAt l).forward =
            some (posId L (B + 1)) then
          ⟨((z.node (posId L (B + 1))).levelAt l).forward,
           ((z.node (posId L (rankFrontier L B l))).levelAt l).span +
             ((z.node (posId L (B + 1))).levelAt l).span - 1⟩
        else ⟨((z.node (posId L (rankFrontier L B l))).levelAt l).forward,
              ((z.node (posId L (rankFrontier L B l))).levelAt l).span - 1⟩) := by
    intro l hlz
    have hlen : l < (z.node (posId L (rankFrontier L B l))).level.length := by
      rw [nodeAt_len hR (le_trans (hFle l) hBle)]
      rcases Nat.eq_zero_or_pos (rankFrontier L B l) with hF | hF
      · rw [hF]
        show l < SkipListMaxLvl
        omega
      · exact rankFrontier_height (by omega)
    have hval := (d8 l (Nat.zero_le _) (by omega)).1
    rw [hupdD l hlz] at hval
    rw [hz2slot]
    exact hval hlen
  -- the canonical goodness of every remaining slot
  have hgoodD : ∀ p l, p ≤ (L.eraseIdx B).length → l < z.level →
      l < posHeight (L.eraseIdx B) p →
      goodLevel { zd2 with level := shrinkLevel zd2 zd2.level, length := zd2.length - 1 }
        (L.eraseIdx B) p l := by
    intro p l hp hlz hl
    have hnrec : ∀ j, ({ zd2 with level := shrinkLevel zd2 zd2.level, length := zd2.length - 1 } : Zskiplist).node j = zd2.node j := fun j => rfl
    by_cases hpB : p ≤ B
    · rw [← hHle p hpB] at hl
      by_cases hpF : p = rankFrontier L B l
      · have hval := htouchedD l hlz
        have hgz := hgoodzD l hlz
        rw [goodLevel] at hgz
        rcases hq : nextPos L l (rankFrontier L B l) with _ | q0
        · rw [hq] at hgz
          rw [if_neg (by rw [hgz]; intro hcon; cases hcon)] at hval
          have hnext : nextPos (L.eraseIdx B) l p = none := hD4 hpB (by rw [hpF]; exact hq)
          rw [goodLevel, hnext]
          dsimp only
          rw [hnrec, ← hPle p hpB, hpF, hval]
          show ((z.node (posId L (rankFrontier L B l))).levelAt l).forward = none
          exact hgz
        · rw [hq] at hgz
          have hq0B : B < q0 := hcrossBD l q0 hq
          obtain ⟨c1, c2, c3, c4⟩ := nextPos_some hq
          rcases eq_or_lt_of_le (show B + 1 ≤ q0 from hq0B) with heq0 | hgt0
          · -- the forward target is exactly the removed node
            have hcondT : ((z.node (posId L (rankFrontier L B l))).levelAt l).forward =
                some (posId L (B + 1)) := by
              rw [hgz.1, ← heq0]
            rw [if_pos hcondT] at hval
            have hgdel : goodLevel z L (B + 1) l :=
              hR.node_levels (B + 1) l (by omega) (by omega) (by rw [heq0]; exact c3)
            rw [goodLevel] at hgdel
            rcases hq1 : nextPos L l (B + 1) with _ | q1
            · rw [hq1] at hgdel
              have hnext : nextPos (L.eraseIdx B) l p = none :=
                hD2b hpB (by rw [hpF, hq, heq0]) hq1
              rw [goodLevel, hnext]
              dsimp only
              rw [hnrec, ← hPle p hpB, hpF, hval]
              show ((z.node (posId L (B + 1))).levelAt l).forward = none
              exact hgdel
            · rw [hq1] at hgdel
              obtain ⟨e1, e2, e3, e4⟩ := nextPos_some hq1
              have hnext : nextPos (L.eraseIdx B) l p = some (q1 - 1) :=
                hD2a hpB (by rw [hpF, hq, heq0]) hq1
              rw [goodLevel, hnext]
              dsimp only
              rw [hnrec, ← hPle p hpB, hpF, hval]
              refine ⟨?_, ?_⟩
              · show ((z.node (posId L (B + 1))).levelAt l).forward =
                  some (posId (L.eraseIdx B) (q1 - 1))
                rw [← hPgt (q1 - 1) (by omega), show q1 - 1 + 1 = q1 from by omega]
                exact hgdel.1
              · show ((z.node (posId L (rankFrontier L B l))).levelAt l).span +
                  ((z.node (posId L (B + 1))).levelAt l).span - 1 = q1 - 1 - rankFrontier L B l
                rw [hgz.2, hgdel.2]
                omega
          · have hcondF : ¬(((z.node (posId L (rankFrontier L B l))).levelAt l).forward =
                some (posId L (B + 1))) := by
              rw [hgz.1]
              intro hcon
              injection hcon with hcon2
              have h9 := posId_inj hR (by omega) (by omega) hcon2
              omega
            rw [if_neg hcondF] at hval
            have hnext : nextPos (L.eraseIdx B) l p = some (q0 - 1) :=
              hD3 hpB (by rw [hpF]; exact hq) hgt0
            rw [goodLevel, hnext]
            dsimp only
            rw [hnrec, ← hPle p hpB, hpF, hval]
            refine ⟨?_, ?_⟩
            · show ((z.node (posId L (rankFrontier L B l))).levelAt l).forward =
                some (posId (L.eraseIdx B) (q0 - 1))
              rw [← hPgt (q0 - 1) (by omega), show q0 - 1 + 1 = q0 from by omega]
              exact hgz.1
            · show ((z.node (posId L (rankFrontier L B l))).levelAt l).span - 1 =
                q0 - 1 - rankFrontier L B l
              rw [hgz.2]
              omega
      · -- untouched, strictly below the frontier
        have hpleF : p ≤ rankFrontier L B l := le_rankFrontier hpB hl
        have hpltF : p < rankFrontier L B l := by omega
        have hgz : goodLevel z L p l := by
          rcases Nat.eq_zero_or_pos p with rfl | hppos
          · exact hR.head_levels l hlz
          · exact hR.node_levels p l (by omega) (by omega) hl
        rw [goodLevel] at hgz
        rcases hq : nextPos L l p with _ | q0
        · exfalso
          exact nextPos_none (by omega) hq (rankFrontier L B l) hpltF
            (le_trans (hFle l) hBle) (rankFrontier_height (by omega))
        · rw [hq] at hgz
          have hq0F : q0 ≤ rankFrontier L B l := by
            by_contra hcon
            push_neg at hcon
            obtain ⟨c1, c2, c3, c4⟩ := nextPos_some hq
            exact c4 (rankFrontier L B l) hpltF hcon (rankFrontier_height (by omega))
          have hnext : nextPos (L.eraseIdx B) l p = some q0 :=
            hD1 hpB hq (le_trans hq0F (hFle l))
          rw [goodLevel, hnext]
          dsimp only
          rw [hnrec, ← hPle p hpB]
          rw [huntD p l (by omega) hlz (fun hcon =>
            hpF (posId_inj hR (by omega) (le_trans (hFle l) hBle) hcon))]
          obtain ⟨hg1, hg2⟩ := hgz
          refine ⟨?_, hg2⟩
          rw [← hPle q0 (le_trans hq0F (hFle l))]
          exact hg1
    · -- beyond the removed position: everything shifts down by one
      push_neg at hpB
      have hp1L : p + 1 ≤ L.length := by omega
      rw [← hHgt p (by omega)] at hl
      have hgz : goodLevel z L (p + 1) l := hR.node_levels (p + 1) l (by omega) hp1L hl
      rw [goodLevel] at hgz
      have hneq : posId L (p + 1) ≠ posId L (rankFrontier L B l) := fun hcon => by
        have h8 := posId_inj hR (by omega) (le_trans (hFle l) hBle) hcon
        have := hFle l
        omega
      rcases hq : nextPos L l (p + 1) with _ | q1
      · rw [hq] at hgz
        have hnext : nextPos (L.eraseIdx B) l p = none := hD5b (by omega) (by omega) hq
        rw [goodLevel, hnext]
        dsimp only
        rw [hnrec, ← hPgt p (by omega)]
        rw [huntD (p + 1) l hp1L hlz hneq]
        exact hgz
      · rw [hq] at hgz
        obtain ⟨c1, c2, c3, c4⟩ := nextPos_some hq
        have hnext : nextPos (L.eraseIdx B) l p = some (q1 - 1) := hD5a (by omega) hq
        rw [goodLevel, hnext]
        dsimp only
        rw [hnrec, ← hPgt p (by omega)]
        rw [huntD (p + 1) l hp1L hlz hneq]
        refine ⟨?_, ?_⟩
        · rw [← hPgt (q1 - 1) (by omega), show q1 - 1 + 1 = q1 from by omega]
          exact hgz.1
        · rw [hgz.2]
          omega
  -- the shrink loop lands exactly on the new list level
  have hT1 : 1 ≤ listLevel (L.eraseIdx B) := listLevel_pos _
  have hTle : listLevel (L.eraseIdx B) ≤ z.level := by
    rw [hR.level_eq]
    exact listLevel_eraseIdx_le B
  have hph' : ∀ q, 1 ≤ q → q ≤ (L.eraseIdx B).length →
      posHeight (L.eraseIdx B) q ≤ listLevel (L.eraseIdx B) := by
    intro q hq1 hq2
    cases q with
    | zero => omega
    | succ qq =>
      simp only [posHeight]
      exact height_le_listLevel (entry_mem _ (by omega))
  have hheadnone : ∀ l, listLevel (L.eraseIdx B) ≤ l → l < z.level →
      ((zd2.node zd2.head).levelAt l).forward = none := by
    intro l h1 h2
    have hnone : nextPos (L.eraseIdx B) l 0 = none := by
      refine nextPos_eq_none ?_
      intro q hq1 hq2
      have := hph' q (by omega) hq2
      omega
    have hg := hgoodD 0 l (by omega) h2 (by
      show l < posHeight (L.eraseIdx B) 0
      show l < SkipListMaxLvl
      omega)
    rw [goodLevel, hnone] at hg
    rw [hz2head]
    exact hg
  have hheadsome : 2 ≤ listLevel (L.eraseIdx B) →
      ((zd2.node zd2.head).levelAt (listLevel (L.eraseIdx B) - 1)).forward ≠ none := by
    intro h2
    obtain ⟨e, he, hegt⟩ := exists_height_gt (L := L.eraseIdx B)
      (k := listLevel (L.eraseIdx B) - 1) (by omega) (by omega)
    obtain ⟨i, hi, hei⟩ := List.getElem_of_mem he
    have hpos : listLevel (L.eraseIdx B) - 1 < posHeight (L.eraseIdx B) (i + 1) := by
      rw [posHeight_succ hi, hei]
      exact hegt
    rcases hq : nextPos (L.eraseIdx B) (listLevel (L.eraseIdx B) - 1) 0 with _ | q
    · exfalso
      exact nextPos_none (Nat.zero_le _) hq (i + 1) (by omega) (by omega) hpos
    · have hg := hgoodD 0 (listLevel (L.eraseIdx B) - 1) (by omega) (by omega) (by
        show listLevel (L.eraseIdx B) - 1 < posHeight (L.eraseIdx B) 0
        show listLevel (L.eraseIdx B) - 1 < SkipListMaxLvl
        omega)
      rw [goodLevel, hq] at hg
      have hgg : ((zd2.node zd2.head).levelAt (listLevel (L.eraseIdx B) - 1)).forward =
          some (posId (L.eraseIdx B) q) := by
        rw [hz2head]
        exact hg.1
      rw [hgg]
      intro hcon
      cases hcon
  have hshrink : shrinkLevel zd2 zd2.level = listLevel (L.eraseIdx B) := by
    rw [hz2level]
    exact shrinkLevel_spec zd2 (listLevel (L.eraseIdx B)) hT1 z.level hTle hheadnone
      hheadsome
  rw [hfin]
  have hnrec2 : ∀ j, ({ zd2 with level := shrinkLevel zd2 zd2.level, length := zd2.length - 1 } : Zskiplist).node j = zd2.node j := fun j => rfl
  have hmemsub : ∀ e, e ∈ L.eraseIdx B → e ∈ L := fun e he =>
    (List.eraseIdx_sublist L B).subset he
  refine ⟨?_, ?_, ?_⟩
  · refine ⟨?_, ?_, ?_, ?_, ?_, ?_, ?_, ?_, ?_, ?_, ?_, ?_, ?_, ?_, ?_, ?_, ?_, ?_,
      ?_, ?_, ?_, ?_⟩
    · show zd2.head = 0
      exact hz2head
    · show (zd2.node 0).member = ""
      rw [(hdataz 0).1]
      exact hR.head_member
    · show (zd2.node 0).score = 0
      rw [(hdataz 0).2.1]
      exact hR.head_score
    · show (zd2.node 0).backwards = none
      rw [hbackz 0 (fun hBL => by
        have := posId_pos hR (p := B + 2) (by omega) (by omega)
        omega)]
      exact hR.head_back
    · show (zd2.node 0).level.length = SkipListMaxLvl
      rw [(hdataz 0).2.2]
      exact hR.head_len
    · show zd2.nodes ≠ []
      intro hcon
      have h9 := hz2nl
      rw [hcon] at h9
      have h10 : z.nodes.length = 0 := by simpa using h9.symm
      rcases hnn : z.nodes with _ | ⟨a, t⟩
      · exact absurd hnn hR.nodes_ne
      · rw [hnn] at h10
        simp at h10
    · show zd2.length - 1 = (L.eraseIdx B).length
      rw [hz2fields.2.1, d3, hR.length_eq, hlen']
    · show shrinkLevel zd2 zd2.level = listLevel (L.eraseIdx B)
      exact hshrink
    · exact hR.sorted.sublist (List.eraseIdx_sublist L B)
    · exact ((List.eraseIdx_sublist L B).map E.member).nodup hR.members_nodup
    · intro e he
      show e.id < zd2.nodes.length
      rw [hz2nl]
      exact hR.ids_lt e (hmemsub e he)
    · intro e he
      exact hR.ids_pos e (hmemsub e he)
    · exact ids_inj_of_nodup (((List.eraseIdx_sublist L B).map E.id).nodup hR.ids_nodup)
    · intro e he
      exact hR.h_bounds e (hmemsub e he)
    · intro e he
      show (zd2.node e.id).member = e.member
      rw [(hdataz e.id).1]
      exact hR.node_member e (hmemsub e he)
    · intro e he
      show (zd2.node e.id).score = e.score
      rw [(hdataz e.id).2.1]
      exact hR.node_score e (hmemsub e he)
    · intro e he
      show (zd2.node e.id).level.length = e.height
      rw [(hdataz e.id).2.2]
      exact hR.node_len e (hmemsub e he)
    · -- backwards
      intro p hp1 hp2
      rw [hlen'] at hp2
      by_cases hpB : p ≤ B
      · rw [hnrec2, ← hPle p hpB]
        rw [hbackz (posId L p) (fun hBL hcon => by
          have h8 := posId_inj hR (p := p) (q := B + 2) (by omega) (by omega) hcon
          omega)]
        rw [hR.node_back p hp1 (by omega)]
        by_cases hpe : p = 1
        · rw [if_pos hpe, if_pos hpe]
        · rw [if_neg hpe, if_neg hpe, ← hPle (p - 1) (by omega)]
      · push_neg at hpB
        rcases eq_or_lt_of_le (show B + 1 ≤ p from hpB) with heqp | hgtp
        · rw [hnrec2, ← heqp, ← hPgt (B + 1) (by omega)]
          rw [hz2back_f (by omega), hbackDel]
          by_cases hB0 : B = 0
          · rw [if_pos hB0, if_pos (by omega)]
          · rw [if_neg hB0, if_neg (by omega), show B + 1 - 1 = B from by omega,
              ← hPle B (by omega)]
        · rw [hnrec2, ← hPgt p (by omega)]
          rw [hbackz (posId L (p + 1)) (fun hBL hcon => by
            have h8 := posId_inj hR (p := p + 1) (q := B + 2) (by omega) (by omega) hcon
            omega)]
          rw [hR.node_back (p + 1) (by omega) (by omega)]
          rw [if_neg (by omega), if_neg (by omega)]
          rw [show p + 1 - 1 = (p - 1) + 1 from by omega, ← hPgt (p - 1) (by omega)]
    · -- head levels
      intro l hl
      have hlz : l < z.level := by
        have h9 : ({ zd2 with level := shrinkLevel zd2 zd2.level, length := zd2.length - 1 } : Zskiplist).level = shrinkLevel zd2 zd2.level := rfl
        rw [h9, hshrink] at hl
        omega
      refine hgoodD 0 l (by omega) hlz ?_
      show l < SkipListMaxLvl
      omega
    · -- node levels
      intro p l hp1 hp2 hl
      rw [hlen'] at hp2
      have hlz : l < z.level := by
        have h9 := hph' p hp1 (by omega)
        omega
      exact hgoodD p l (by omega) hlz hl
    · -- unused head levels stay nil
      intro l hl1 hl2
      have h9 : ({ zd2 with level := shrinkLevel zd2 zd2.level, length := zd2.length - 1 } : Zskiplist).level = shrinkLevel zd2 zd2.level := rfl
      rw [h9, hshrink] at hl1
      show ((zd2.node 0).levelAt l).forward = none
      by_cases hlz : l < z.level
      · have := hheadnone l hl1 hlz
        rw [hz2head] at this
        exact this
      · push_neg at hlz
        rw [hz2slot, d7 _ l (Or.inr (by omega))]
        exact hR.head_hi l hlz hl2
    · -- the tail
      show (if (L.eraseIdx B).length = 0 then
          ({ zd2 with level := shrinkLevel zd2 zd2.level, length := zd2.length - 1 } : Zskiplist).tail = none ∨
          ({ zd2 with level := shrinkLevel zd2 zd2.level, length := zd2.length - 1 } : Zskiplist).tail = some 0
        else _)
      by_cases hLe : (L.eraseIdx B).length = 0
      · rw [if_pos hLe]
        left
        show zd2.tail = none
        rw [hz2tail, if_neg (by omega), hbackDel, if_pos (by omega)]
      · rw [if_neg hLe]
        show zd2.tail = some (posId (L.eraseIdx B) (L.eraseIdx B).length)
        rw [hz2tail]
        rcases eq_or_lt_of_le (show B + 1 ≤ L.length from hBlt) with heqL | hltL
        · rw [if_neg (by omega), hbackDel, if_neg (by omega)]
          rw [hlen', show L.length - 1 = B from by omega, ← hPle B (by omega)]
        · rw [if_pos hltL]
          have htz := hR.tail_ok
          rw [if_neg (by omega)] at htz
          rw [htz, hlen', ← hPgt (L.length - 1) (by omega)]
          rw [show L.length - 1 + 1 = L.length from by omega]
  · show zd2.nodes.length = z.nodes.length
    exact hz2nl
  · intro hLe
    show zd2.tail = none
    have h9 : (L.eraseIdx B).length = 0 := by rw [hLe]; rfl
    rw [hz2tail, if_neg (by omega), hbackDel, if_pos (by omega)]

/-! ## The empty skip list and reachability -/

/-- A fresh `newZSkipList` represents the empty entry list. -/
theorem represents_nil : Represents newZSkipList [] := by
  refine ⟨rfl, rfl, rfl, rfl, rfl, ?_, rfl, rfl, List.Pairwise.nil, List.nodup_nil,
    ?_, ?_, ?_, ?_, ?_, ?_, ?_, ?_, ?_, ?_, ?_, ?_⟩
  · exact List.cons_ne_nil _ _
  · exact fun e he => absurd he (List.not_mem_nil e)
  · exact fun e he => absurd he (List.not_mem_nil e)
  · exact fun i j hi => absurd hi (Nat.not_lt_zero i)
  · exact fun e he => absurd he (List.not_mem_nil e)
  · exact fun e he => absurd he (List.not_mem_nil e)
  · exact fun e he => absurd he (List.not_mem_nil e)
  · exact fun e he => absurd he (List.not_mem_nil e)
  · intro p h1 h2
    simp only [List.length_nil] at h2
    omega
  · intro l hl
    have h0 : l = 0 := by
      have : newZSkipList.level = 1 := rfl
      omega
    subst h0
    exact rfl
  · intro p l h1 h2
    simp only [List.length_nil] at h2
    omega
  · intro l h1 h2
    show ((List.replicate SkipListMaxLvl (⟨none, 0⟩ : ZslLevel)).getD l default).forward =
      none
    rw [getD_replicate _ h2]
  · exact Or.inr rfl

/-- Every reachable skip list represents some sorted entry list. -/
theorem zslReachable_represents {z : Zskiplist} (h : ZslReachable z) :
    ∃ L, Represents z L := by
  induction h with
  | base => exact ⟨[], represents_nil⟩
  | ins z0 s m v lvl hz h1 h32 hni ih =>
    obtain ⟨L, hR⟩ := ih
    have hm : ∀ e ∈ L, e.member ≠ m := by
      intro e he hcon
      apply hni
      rw [chain0_members hR, ← hcon]
      exact List.mem_map_of_mem E.member he
    exact ⟨_, (insert_represents hR v h1 h32 hm).1⟩
  | del z0 s m hz ih =>
    obtain ⟨L, hR⟩ := ih
    by_cases hBlt : countLtKey L s m < L.length
    · by_cases hsm : posScore L (countLtKey L s m + 1) = s ∧
          posMember L (countLtKey L s m + 1) = m
      · exact ⟨_, (delete_represents hR hBlt hsm.1 hsm.2).1⟩
      · rw [delete_not_found hR (fun _ => hsm)]
        exact ⟨L, hR⟩
    · rw [delete_not_found hR (fun hcon => absurd hcon hBlt)]
      exact ⟨L, hR⟩

/-! ## The index of a present member -/

/-- In a sorted entry list, the count of keys strictly below the key of
the `i`-th entry is exactly `i`. -/
theorem countLtKey_getElem {L : List E} (hs : L.Pairwise eLt) {i : Nat}
    (hi : i < L.length) :
    countLtKey L (L[i].score) (L[i].member) = i := by
  have hle : countLtKey L (L[i].score) (L[i].member) ≤ i := by
    by_contra hcon
    push_neg at hcon
    have h2 := (pos_le_ipos_iff hs (s := L[i].score) (m := L[i].member) (q := i + 1)
      (by omega) (by omega)).2 (by omega)
    rw [posScore_succ hi, posMember_succ hi] at h2
    exact keyLtP_irrefl _ _ h2
  have hge : i ≤ countLtKey L (L[i].score) (L[i].member) := by
    cases i with
    | zero => exact Nat.zero_le _
    | succ j =>
      have h2 := pos_keyLt_of_lt hs (p := j + 1) (q := j + 1 + 1) (by omega) (by omega)
        (by omega)
      rw [posScore_succ hi, posMember_succ hi] at h2
      exact (pos_le_ipos_iff hs (q := j + 1) (by omega) (by omega)).1 h2
  omega

/-- Positions with equal members coincide when the member projection is
duplicate-free. -/
theorem getD_member_inj {L : List E} (hnd : (L.map E.member).Nodup) :
    ∀ i j, i < L.length → j < L.length →
      (L.getD i default).member = (L.getD j default).member → i = j := by
  intro i j hi hj hij
  rw [getD_bridge L hi, getD_bridge L hj] at hij
  have hinj := List.nodup_iff_injective_get.1 hnd
  have h2 := @hinj ⟨i, by simpa using hi⟩ ⟨j, by simpa using hj⟩ (by simpa using hij)
  simpa using congrArg Fin.val h2

/-- After erasing index `i`, no remaining entry carries the erased
entry's member. -/
theorem members_eraseIdx_ne {L : List E} (hnd : (L.map E.member).Nodup) {i : Nat}
    (hi : i < L.length) :
    ∀ f ∈ L.eraseIdx i, f.member ≠ (L.getD i default).member := by
  intro f hf hcon
  have hlen2 : (L.eraseIdx i).length = L.length - 1 := eraseIdx_length hi
  obtain ⟨j, hj, hfj⟩ := List.getElem_of_mem hf
  have hfd : (L.eraseIdx i).getD j default = f := by
    rw [getD_bridge _ hj, hfj]
  by_cases hji : j < i
  · have h2 := getD_insertAt_lt (L := L.eraseIdx i) (B := i) (L.getD i default) hji
      (by omega)
    rw [insertAt_eraseIdx hi] at h2
    rw [hfd] at h2
    have h3 := getD_member_inj hnd j i (by omega) hi (by rw [h2, hcon])
    omega
  · push_neg at hji
    have h2 := getD_insertAt_gt (L := L.eraseIdx i) (B := i) (j := j + 1)
      (L.getD i default) (by omega) (by omega)
    rw [insertAt_eraseIdx hi] at h2
    rw [show j + 1 - 1 = j from by omega, hfd] at h2
    have h3 := getD_member_inj hnd (j + 1) i (by omega) hi (by rw [h2, hcon])
    omega

/-- An entry whose member differs from the erased entry's member
survives the erasure. -/
theorem mem_eraseIdx_of_ne_member {L : List E} {i : Nat} (hi : i < L.length) {f : E}
    (hf : f ∈ L) (hne : f.member ≠ (L.getD i default).member) : f ∈ L.eraseIdx i := by
  obtain ⟨j, hj, hfj⟩ := List.getElem_of_mem hf
  have hlen2 : (L.eraseIdx i).length = L.length - 1 := eraseIdx_length hi
  have hji : j ≠ i := by
    intro hcon
    subst hcon
    apply hne
    rw [getD_bridge L hj, hfj]
  by_cases hjlt : j < i
  · have h2 := getD_insertAt_lt (L := L.eraseIdx i) (B := i) (L.getD i default) hjlt
      (by omega)
    rw [insertAt_eraseIdx hi] at h2
    have h4 : (L.eraseIdx i).getD j default = f := by
      rw [← h2, getD_bridge L hj, hfj]
    rw [← h4]
    exact entry_mem _ (by omega)
  · have hjgt : i < j := by omega
    have h2 := getD_insertAt_gt (L := L.eraseIdx i) (B := i) (j := j)
      (L.getD i default) hjgt (by omega)
    rw [insertAt_eraseIdx hi] at h2
    have h4 : (L.eraseIdx i).getD (j - 1) default = f := by
      rw [← h2, getD_bridge L hj, hfj]
    rw [← h4]
    exact entry_mem _ (by omega)

/-! ## Association-list facts for the member and key directories -/

theorem lookupA_mem {α : Type} : ∀ {l : List (String × α)} {k : String} {v : α},
    l.lookup k = some v → (k, v) ∈ l
  | [], _, _, h => by simp [List.lookup] at h
  | (a, b) :: t, k, v, h => by
    simp only [List.lookup] at h
    split at h
    · rename_i hbeq
      rw [Option.some.injEq] at h
      subst h
      have hak : k = a := eq_of_beq hbeq
      subst hak
      exact List.mem_cons_self _ _
    · exact List.mem_cons_of_mem _ (lookupA_mem h)

theorem lookupA_of_mem {α : Type} : ∀ {l : List (String × α)} {k : String} {v : α},
    (l.map Prod.fst).Nodup → (k, v) ∈ l → l.lookup k = some v
  | [], _, _, _, h => absurd h (List.not_mem_nil _)
  | (a, b) :: t, k, v, hnd, h => by
    rcases List.mem_cons.1 h with heq | hmem
    · rw [Prod.mk.injEq] at heq
      obtain ⟨h1, h2⟩ := heq
      subst h1
      subst h2
      simp [List.lookup]
    · have hnd2 : (∀ x : α, (a, x) ∉ t) ∧ (t.map Prod.fst).Nodup := by simpa using hnd
      have hak : (k == a) = false := by
        rw [beq_eq_false_iff_ne]
        intro hcon
        subst hcon
        exact hnd2.1 v hmem
      simp only [List.lookup, hak]
      exact lookupA_of_mem hnd2.2 hmem

theorem mem_keys_lookupA {α : Type} : ∀ {l : List (String × α)} {k : String},
    k ∈ l.map Prod.fst → ∃ v, l.lookup k = some v
  | [], _, h => absurd h (List.not_mem_nil _)
  | (a, b) :: t, k, h => by
    by_cases hak : a = k
    · subst hak
      exact ⟨b, by simp [List.lookup]⟩
    · have h2 : k = a ∨ k ∈ t.map Prod.fst := by simpa using h
      have hmem : k ∈ t.map Prod.fst := by
        rcases h2 with h2 | h2
        · exact absurd h2.symm hak
        · exact h2
      obtain ⟨v, hv⟩ := mem_keys_lookupA hmem
      refine ⟨v, ?_⟩
      simp only [List.lookup, show (k == a) = false from
        beq_eq_false_iff_ne.2 (fun h => hak h.symm)]
      exact hv

theorem lookup_setA_self {α : Type} (v : α) :
    ∀ (l : List (String × α)) (k : String), (setA l k v).lookup k = some v
  | [], k => by simp [setA, List.lookup]
  | (a, b) :: t, k => by
    rw [setA]
    by_cases hak : a = k
    · rw [if_pos hak]
      simp [List.lookup]
    · rw [if_neg hak]
      simp only [List.lookup, show (k == a) = false from
        beq_eq_false_iff_ne.2 (fun h => hak h.symm)]
      exact lookup_setA_self v t k

theorem lookup_setA_ne {α : Type} (v : α) {c k : String} (hck : c ≠ k) :
    ∀ (l : List (String × α)), (setA l k v).lookup c = l.lookup c
  | [] => by
    simp [setA, List.lookup, show (c == k) = false from beq_eq_false_iff_ne.2 hck]
  | (a, b) :: t => by
    rw [setA]
    by_cases hak : a = k
    · rw [if_pos hak]
      subst hak
      simp only [List.lookup, show (c == a) = false from beq_eq_false_iff_ne.2 hck]
    · rw [if_neg hak]
      by_cases hac : a = c
      · subst hac
        simp [List.lookup]
      · simp only [List.lookup, show (c == a) = false from
          beq_eq_false_iff_ne.2 (fun h => hac h.symm)]
        exact lookup_setA_ne v hck t

theorem mem_keys_setA {α : Type} (v : α) :
    ∀ (l : List (String × α)) (k c : String), c ∈ (setA l k v).map Prod.fst →
      c = k ∨ c ∈ l.map Prod.fst
  | [], k, c, h => by
    left
    simpa [setA] using h
  | (a, b) :: t, k, c, h => by
    rw [setA] at h
    by_cases hak : a = k
    · rw [if_pos hak] at h
      have h2 : c = k ∨ c ∈ t.map Prod.fst := by simpa using h
      rcases h2 with h2 | h2
      · exact Or.inl h2
      · right
        simp [h2]
    · rw [if_neg hak] at h
      have h2 : c = a ∨ c ∈ (setA t k v).map Prod.fst := by simpa using h
      rcases h2 with h2 | h2
      · right
        simp [h2]
      · rcases mem_keys_setA v t k c h2 with h3 | h3
        · exact Or.inl h3
        · right
          simp [h3]

theorem setA_keys_nodup {α : Type} (v : α) :
    ∀ (l : List (String × α)) (k : String), (l.map Prod.fst).Nodup →
      ((setA l k v).map Prod.fst).Nodup
  | [], k, _ => by simp [setA]
  | (a, b) :: t, k, hnd => by
    have hnd1 : (∀ x : α, (a, x) ∉ t) ∧ (t.map Prod.fst).Nodup := by simpa using hnd
    rw [setA]
    by_cases hak : a = k
    · rw [if_pos hak]
      subst hak
      simpa using hnd1
    · rw [if_neg hak]
      have hna : a ∉ (setA t k v).map Prod.fst := by
        intro hcon
        rcases mem_keys_setA v t k a hcon with h3 | h3
        · exact hak h3
        · obtain ⟨q, hq, hqa⟩ := List.mem_map.1 h3
          obtain ⟨q1, q2⟩ := q
          have hq1a : q1 = a := hqa
          subst hq1a
          exact hnd1.1 q2 hq
      have hgoal : (∀ x : α, (a, x) ∉ setA t k v) ∧
          ((setA t k v).map Prod.fst).Nodup :=
        ⟨fun x hx => hna (List.mem_map_of_mem Prod.fst hx),
          setA_keys_nodup v t k hnd1.2⟩
      simpa using hgoal

theorem lookup_removeA_self {α : Type} (k : String) :
    ∀ (l : List (String × α)), (removeA l k).lookup k = none
  | [] => rfl
  | (a, b) :: t => by
    by_cases hak : a = k
    · subst hak
      have h2 : removeA ((a, b) :: t) a = removeA t a := by
        simp [removeA, List.filter_cons]
      rw [h2]
      exact lookup_removeA_self a t
    · have h2 : removeA ((a, b) :: t) k = (a, b) :: removeA t k := by
        simp [removeA, List.filter_cons, hak]
      rw [h2]
      simp only [List.lookup, show (k == a) = false from
        beq_eq_false_iff_ne.2 (fun h => hak h.symm)]
      exact lookup_removeA_self k t

theorem lookup_removeA_ne {α : Type} {c k : String} (hck : c ≠ k) :
    ∀ (l : List (String × α)), (removeA l k).lookup c = l.lookup c
  | [] => rfl
  | (a, b) :: t => by
    by_cases hak : a = k
    · subst hak
      have h2 : removeA ((a, b) :: t) a = removeA t a := by
        simp [removeA, List.filter_cons]
      rw [h2, lookup_removeA_ne hck t]
      simp only [List.lookup, show (c == a) = false from beq_eq_false_iff_ne.2 hck]
    · have h2 : removeA ((a, b) :: t) k = (a, b) :: removeA t k := by
        simp [removeA, List.filter_cons, hak]
      rw [h2]
      by_cases hac : a = c
      · subst hac
        simp [List.lookup]
      · simp only [List.lookup, show (c == a) = false from
          beq_eq_false_iff_ne.2 (fun h => hac h.symm)]
        exact lookup_removeA_ne hck t

theorem removeA_keys_nodup {α : Type} (l : List (String × α)) (k : String)
    (hnd : (l.map Prod.fst).Nodup) : ((removeA l k).map Prod.fst).Nodup :=
  ((List.filter_sublist l).map Prod.fst).nodup hnd

/-- A consistent member directory has exactly one record per entry. -/
theorem dir_length {set : Zset} {L : List E} (hD : DirConsistent set L)
    (hnd : (L.map E.member).Nodup) : set.records.length = L.length := by
  have h1 : set.records.map Prod.fst ⊆ L.map E.member := by
    intro m hm
    obtain ⟨v, hv⟩ := mem_keys_lookupA hm
    obtain ⟨e, he, hem, _⟩ := hD.2.1 m v hv
    rw [← hem]
    exact List.mem_map_of_mem E.member he
  have h2 : L.map E.member ⊆ set.records.map Prod.fst := by
    intro m hm
    obtain ⟨e, he, hem⟩ := List.mem_map.1 hm
    have hv := hD.2.2 e he
    rw [← hem]
    exact List.mem_map_of_mem Prod.fst (lookupA_mem hv)
  have h3 := (List.subperm_of_subset hD.1 h1).length_le
  have h4 := (List.subperm_of_subset hnd h2).length_le
  simp only [List.length_map] at h3 h4
  omega

/-- A consistent directory is empty exactly when the entry list is. -/
theorem dir_nil {set : Zset} {L : List E} (hD : DirConsistent set L) :
    (set.records = [] ↔ L = []) := by
  constructor
  · intro h
    rcases hL : L with _ | ⟨e, t⟩
    · rfl
    · exfalso
      have he : e ∈ L := by
        rw [hL]
        exact List.mem_cons_self _ _
      have hv := hD.2.2 e he
      rw [h] at hv
      simp [List.lookup] at hv
  · intro h
    rcases hr : set.records with _ | ⟨p, t⟩
    · rfl
    · exfalso
      obtain ⟨a, b⟩ := p
      have hv : set.records.lookup a = some b := by
        rw [hr]
        simp [List.lookup]
      obtain ⟨e, he, _⟩ := hD.2.1 _ _ hv
      rw [h] at he
      cases he

/-- Replacing only the `value` payload of a node preserves the
representation invariant (no field of the invariant mentions values). -/
theorem represents_setValue {z : Zskiplist} {L : List E} (hR : Represents z L)
    (c : Nat) (v : Val) :
    Represents (z.setNode c { z.node c with value := v }) L := by
  have hnode : ∀ j,
      ((z.setNode c { z.node c with value := v }).node j).member = (z.node j).member ∧
      ((z.setNode c { z.node c with value := v }).node j).score = (z.node j).score ∧
      ((z.setNode c { z.node c with value := v }).node j).backwards =
        (z.node j).backwards ∧
      ((z.setNode c { z.node c with value := v }).node j).level = (z.node j).level := by
    intro j
    rw [node_setNode]
    by_cases hjc : j = c ∧ c < z.nodes.length
    · rw [if_pos hjc, hjc.1]
      exact ⟨rfl, rfl, rfl, rfl⟩
    · rw [if_neg hjc]
      exact ⟨rfl, rfl, rfl, rfl⟩
  have hlvAt : ∀ j l, ((z.setNode c { z.node c with value := v }).node j).levelAt l =
      (z.node j).levelAt l := by
    intro j l
    rw [ZslNode.levelAt, ZslNode.levelAt, (hnode j).2.2.2]
  have hgl : ∀ p l, goodLevel z L p l →
      goodLevel (z.setNode c { z.node c with value := v }) L p l := by
    intro p l hg
    rcases hq : nextPos L l p with _ | q
    · rw [goodLevel, hq] at hg
      rw [goodLevel, hq, hlvAt]
      exact hg
    · rw [goodLevel, hq] at hg
      rw [goodLevel, hq, hlvAt]
      exact hg
  refine ⟨hR.head_eq, ?_, ?_, ?_, ?_, ?_, hR.length_eq, hR.level_eq, hR.sorted,
    hR.members_nodup, ?_, hR.ids_pos, hR.ids_inj, hR.h_bounds, ?_, ?_, ?_, ?_, ?_, ?_,
    ?_, ?_⟩
  · rw [(hnode 0).1]
    exact hR.head_member
  · rw [(hnode 0).2.1]
    exact hR.head_score
  · rw [(hnode 0).2.2.1]
    exact hR.head_back
  · rw [(hnode 0).2.2.2]
    exact hR.head_len
  · intro hcon
    apply hR.nodes_ne
    have h0 : z.nodes.length = 0 := by
      have h1 := congrArg List.length hcon
      simpa using h1
    exact List.length_eq_zero.1 h0
  · intro e he
    rw [setNode_nodes_length]
    exact hR.ids_lt e he
  · intro e he
    rw [(hnode e.id).1]
    exact hR.node_member e he
  · intro e he
    rw [(hnode e.id).2.1]
    exact hR.node_score e he
  · intro e he
    rw [(hnode e.id).2.2.2]
    exact hR.node_len e he
  · intro p h1 h2
    rw [(hnode _).2.2.1]
    exact hR.node_back p h1 h2
  · intro l hl
    exact hgl 0 l (hR.head_levels l hl)
  · intro p l h1 h2 h3
    exact hgl p l (hR.node_levels p l h1 h2 h3)
  · intro l h1 h2
    rw [hlvAt]
    exact hR.head_hi l h1 h2
  · exact hR.tail_ok

/-! ## Deleting a present entry, by its index -/

/-- `delete` at the key of the `i`-th entry of a represented list erases
exactly that entry. -/
theorem delete_mem_represents {z : Zskiplist} {L : List E} (hR : Represents z L)
    {i : Nat} (hi : i < L.length) :
    Represents (z.delete (L[i].score) (L[i].member)) (L.eraseIdx i) ∧
    (z.delete (L[i].score) (L[i].member)).nodes.length = z.nodes.length ∧
    (L.eraseIdx i = [] → (z.delete (L[i].score) (L[i].member)).tail = none) := by
  have hcnt : countLtKey L (L[i].score) (L[i].member) = i :=
    countLtKey_getElem hR.sorted hi
  have h1 := delete_represents hR (s := L[i].score) (m := L[i].member)
    (by rw [hcnt]; exact hi)
    (by rw [hcnt, posScore_succ hi])
    (by rw [hcnt, posMember_succ hi])
  rw [hcnt] at h1
  exact h1

/-! ## Store-level well-formedness preservation -/

/-- The per-key update performed by `ZAdd` preserves per-set
well-formedness (and establishes the emptied-tail clause, since the
result always holds the added member). -/
theorem setWF_zadd_inner {t : Zset} {L : List E} (hR : Represents t.zsl L)
    (hD : DirConsistent t L) (s : Score) (m : String) (v : Val) {lvl : Nat}
    (h1 : 1 ≤ lvl) (h32 : lvl ≤ SkipListMaxLvl) :
    SetWF (match t.records.lookup m with
      | some nid =>
        if (t.zsl.node nid).score == s then
          { t with zsl := t.zsl.setNode nid { t.zsl.node nid with value := v } }
        else
          let zsl1 := t.zsl.delete (t.zsl.node nid).score m
          let ins := zsl1.insert s m v lvl
          { records := setA t.records m ins.2, zsl := ins.1 }
      | none =>
        let ins := t.zsl.insert s m v lvl
        { records := setA t.records m ins.2, zsl := ins.1 }) := by
  rcases hm : t.records.lookup m with _ | nid
  · show SetWF { records := setA t.records m (t.zsl.insert s m v lvl).2,
                 zsl := (t.zsl.insert s m v lvl).1 }
    have hfresh : ∀ e ∈ L, e.member ≠ m := by
      intro e he hcon
      have hv := hD.2.2 e he
      rw [hcon, hm] at hv
      cases hv
    obtain ⟨hRi, hid, hleni⟩ := insert_represents (s := s) hR v h1 h32 hfresh
    refine ⟨insertAt L (countLtKey L s m) ⟨s, m, t.zsl.nodes.length, lvl⟩, hRi,
      ⟨?_, ?_, ?_⟩, ?_⟩
    · exact setA_keys_nodup _ _ _ hD.1
    · intro m2 nid2 hlk
      by_cases hm2 : m2 = m
      · subst hm2
        rw [lookup_setA_self] at hlk
        have h5 := Option.some.inj hlk
        refine ⟨⟨s, m2, t.zsl.nodes.length, lvl⟩,
          (mem_insertAt (countLtKey_le_length L s m2) _ _).2 (Or.inl rfl), rfl, ?_⟩
        show t.zsl.nodes.length = nid2
        rw [← h5, hid]
      · rw [lookup_setA_ne _ hm2] at hlk
        obtain ⟨e, he, hem, heid⟩ := hD.2.1 m2 nid2 hlk
        exact ⟨e, (mem_insertAt (countLtKey_le_length L s m) _ _).2 (Or.inr he),
          hem, heid⟩
    · intro e he
      rcases (mem_insertAt (countLtKey_le_length L s m) _ _).1 he with heq | hmem
      · subst heq
        show (setA t.records m (t.zsl.insert s m v lvl).2).lookup m =
          some t.zsl.nodes.length
        rw [lookup_setA_self, hid]
      · have hne : e.member ≠ m := hfresh e hmem
        rw [lookup_setA_ne _ hne]
        exact hD.2.2 e hmem
    · intro hcon
      have h6 := congrArg List.length hcon
      rw [length_insertAt (countLtKey_le_length L s m)] at h6
      simp at h6
  · dsimp only
    obtain ⟨e, he, hem, heid⟩ := hD.2.1 m nid hm
    obtain ⟨i, hi, hie⟩ := List.getElem_of_mem he
    have hnsc : (t.zsl.node nid).score = e.score := by
      rw [← heid]
      exact hR.node_score e he
    by_cases hsc : (t.zsl.node nid).score = s
    · rw [if_pos (beq_iff_eq.2 hsc)]
      refine ⟨L, represents_setValue hR nid v, hD, ?_⟩
      intro hcon
      rw [hcon] at he
      cases he
    · rw [if_neg (by simpa using hsc)]
      show SetWF { records :=
                     setA t.records m
                       ((t.zsl.delete (t.zsl.node nid).score m).insert s m v lvl).2,
                   zsl :=
                     ((t.zsl.delete (t.zsl.node nid).score m).insert s m v lvl).1 }
      have hdel := delete_mem_represents hR (i := i) hi
      rw [hie] at hdel
      rw [hem, ← hnsc] at hdel
      obtain ⟨hRd, hdlen, hdtail⟩ := hdel
      have hfresh2 : ∀ f ∈ L.eraseIdx i, f.member ≠ m := by
        intro f hf
        have h7 := members_eraseIdx_ne hR.members_nodup hi f hf
        rw [getD_bridge L hi, hie, hem] at h7
        exact h7
      obtain ⟨hRi, hid, hleni⟩ := insert_represents (s := s) hRd v h1 h32 hfresh2
      refine ⟨insertAt (L.eraseIdx i) (countLtKey (L.eraseIdx i) s m)
          ⟨s, m, (t.zsl.delete (t.zsl.node nid).score m).nodes.length, lvl⟩, hRi,
        ⟨?_, ?_, ?_⟩, ?_⟩
      · exact setA_keys_nodup _ _ _ hD.1
      · intro m2 nid2 hlk
        by_cases hm2 : m2 = m
        · subst hm2
          rw [lookup_setA_self] at hlk
          have h5 := Option.some.inj hlk
          refine ⟨⟨s, m2, (t.zsl.delete (t.zsl.node nid).score m2).nodes.length, lvl⟩,
            (mem_insertAt (countLtKey_le_length (L.eraseIdx i) s m2) _ _).2
              (Or.inl rfl), rfl, ?_⟩
          show (t.zsl.delete (t.zsl.node nid).score m2).nodes.length = nid2
          rw [← h5, hid]
        · rw [lookup_setA_ne _ hm2] at hlk
          obtain ⟨f, hf, hfm, hfid⟩ := hD.2.1 m2 nid2 hlk
          refine ⟨f, ?_, hfm, hfid⟩
          apply (mem_insertAt (countLtKey_le_length (L.eraseIdx i) s m) _ _).2
          right
          apply mem_eraseIdx_of_ne_member hi hf
          rw [getD_bridge L hi, hie, hem, hfm]
          exact hm2
      · intro g hg
        rcases (mem_insertAt (countLtKey_le_length (L.eraseIdx i) s m) _ _).1 hg with
          heq | hmem
        · subst heq
          show (setA t.records m
              ((t.zsl.delete (t.zsl.node nid).score m).insert s m v lvl).2).lookup m =
            some (t.zsl.delete (t.zsl.node nid).score m).nodes.length
          rw [lookup_setA_self, hid]
        · have hne : g.member ≠ m := hfresh2 g hmem
          rw [lookup_setA_ne _ hne]
          exact hD.2.2 g ((List.eraseIdx_sublist L i).subset hmem)
      · intro hcon
        have h6 := congrArg List.length hcon
        rw [length_insertAt (countLtKey_le_length (L.eraseIdx i) s m)] at h6
        simp at h6

/-- `ZAdd` preserves store well-formedness. -/
theorem storeWF_zadd {z : ZSet} (hW : StoreWF z) (key : String) (s : Score)
    (m : String) (v : Val) {lvl : Nat} (h1 : 1 ≤ lvl) (h32 : lvl ≤ SkipListMaxLvl) :
    StoreWF (z.ZAdd key s m v lvl).1 := by
  rcases hk : z.records.lookup key with _ | t
  · simp only [ZSet.ZAdd, hk]
    refine ⟨setA_keys_nodup _ _ _ hW.1, ?_⟩
    intro key2 t2 hlk
    by_cases hkey : key2 = key
    · subst hkey
      rw [lookup_setA_self] at hlk
      have hx := Option.some.inj hlk
      subst hx
      have hDnil : DirConsistent { records := [], zsl := newZSkipList } [] :=
        ⟨List.nodup_nil, fun m2 nid2 h => by simp [List.lookup] at h,
          fun e he => absurd he (List.not_mem_nil e)⟩
      exact setWF_zadd_inner represents_nil hDnil s m v h1 h32
    · rw [lookup_setA_ne _ hkey] at hlk
      exact hW.2 key2 t2 hlk
  · simp only [ZSet.ZAdd, hk]
    obtain ⟨Lt, hRt, hDt, _⟩ := hW.2 key t hk
    refine ⟨setA_keys_nodup _ _ _ hW.1, ?_⟩
    intro key2 t2 hlk
    by_cases hkey : key2 = key
    · subst hkey
      rw [lookup_setA_self] at hlk
      have hx := Option.some.inj hlk
      subst hx
      exact setWF_zadd_inner hRt hDt s m v h1 h32
    · rw [lookup_setA_ne _ hkey] at hlk
      exact hW.2 key2 t2 hlk

/-- `ZRem` preserves store well-formedness, including the emptied-tail
clause for the key it empties. -/
theorem storeWF_zrem {z : ZSet} (hW : StoreWF z) (key m : String) :
    StoreWF (z.ZRem key m).1 := by
  rcases hk : z.records.lookup key with _ | t
  · simp only [ZSet.ZRem, hk]
    exact hW
  · obtain ⟨Lt, hRt, hDt, _⟩ := hW.2 key t hk
    rcases hm : t.records.lookup m with _ | nid
    · simp only [ZSet.ZRem, hk, hm]
      exact hW
    · simp only [ZSet.ZRem, hk, hm]
      refine ⟨setA_keys_nodup _ _ _ hW.1, ?_⟩
      intro key2 t2 hlk
      by_cases hkey : key2 = key
      · subst hkey
        rw [lookup_setA_self] at hlk
        have hx := Option.some.inj hlk
        subst hx
        obtain ⟨e, he, hem, heid⟩ := hDt.2.1 m nid hm
        obtain ⟨i, hi, hie⟩ := List.getElem_of_mem he
        have hnsc : (t.zsl.node nid).score = e.score := by
          rw [← heid]
          exact hRt.node_score e he
        have hdel := delete_mem_represents hRt (i := i) hi
        rw [hie] at hdel
        rw [hem, ← hnsc] at hdel
        obtain ⟨hRd, hdlen, hdtail⟩ := hdel
        refine ⟨Lt.eraseIdx i, hRd, ⟨?_, ?_, ?_⟩, hdtail⟩
        · exact removeA_keys_nodup _ _ hDt.1
        · intro m2 nid2 hlk2
          by_cases hm2 : m2 = m
          · subst hm2
            rw [lookup_removeA_self] at hlk2
            cases hlk2
          · rw [lookup_removeA_ne hm2] at hlk2
            obtain ⟨f, hf, hfm, hfid⟩ := hDt.2.1 m2 nid2 hlk2
            refine ⟨f, ?_, hfm, hfid⟩
            apply mem_eraseIdx_of_ne_member hi hf
            rw [getD_bridge Lt hi, hie, hem, hfm]
            exact hm2
        · intro g hg
          have hgm : g.member ≠ m := by
            have h7 := members_eraseIdx_ne hRt.members_nodup hi g hg
            rw [getD_bridge Lt hi, hie, hem] at h7
            exact h7
          rw [lookup_removeA_ne hgm]
          exact hDt.2.2 g ((List.eraseIdx_sublist Lt i).subset hg)
      · rw [lookup_setA_ne _ hkey] at hlk
        exact hW.2 key2 t2 hlk

/-- `ZClear` preserves store well-formedness. -/
theorem storeWF_zclear {z : ZSet} (hW : StoreWF z) (key : String) :
    StoreWF (z.ZClear key) := by
  rw [ZSet.ZClear]
  by_cases hk : z.ZKeyExists key = true
  · rw [if_pos hk]
    refine ⟨removeA_keys_nodup _ _ hW.1, ?_⟩
    intro key2 t2 hlk
    by_cases hkey : key2 = key
    · subst hkey
      rw [lookup_removeA_self] at hlk
      cases hlk
    · rw [lookup_removeA_ne hkey] at hlk
      exact hW.2 key2 t2 hlk
  · rw [if_neg hk]
    exact hW

/-- Every store reachable through the public operations is
well-formed. -/
theorem storeReachable_wf {z : ZSet} (h : StoreReachable z) : StoreWF z := by
  induction h with
  | base =>
    refine ⟨List.nodup_nil, ?_⟩
    intro key t hlk
    simp [New, List.lookup] at hlk
  | zadd z0 key s m v lvl hz h1 h32 ih => exact storeWF_zadd ih key s m v h1 h32
  | zrem z0 key m hz ih => exact storeWF_zrem ih key m
  | zclear z0 key hz ih => exact storeWF_zclear ih key
  | zpopmin z0 key hz ih =>
    by_cases hk : z0.ZKeyExists key = true
    · rcases hlk : z0.records.lookup key with _ | t
      · simp only [ZSet.ZPopMin, hk, hlk, Bool.not_true, Bool.false_eq_true, if_false]
        exact ih
      · rcases hf : ((t.zsl.node t.zsl.head).levelAt 0).forward with _ | f
        · simp only [ZSet.ZPopMin, hk, hlk, hf, Bool.not_true, Bool.false_eq_true,
            if_false]
          exact ih
        · simp only [ZSet.ZPopMin, hk, hlk, hf, Bool.not_true, Bool.false_eq_true,
            if_false]
          exact storeWF_zrem ih key ((t.zsl.node f).member)
    · have hk2 : z0.ZKeyExists key = false := by
        cases hq : z0.ZKeyExists key
        · rfl
        · exact absurd hq hk
      simp only [ZSet.ZPopMin, hk2, Bool.not_false, if_true]
      exact ih
  | zpopmax z0 key hz ih =>
    by_cases hk : z0.ZKeyExists key = true
    · rcases hlk : z0.records.lookup key with _ | t
      · simp only [ZSet.ZPopMax, hk, hlk, Bool.not_true, Bool.false_eq_true, if_false]
        exact ih
      · rcases hf : t.zsl.tail with _ | f
        · simp only [ZSet.ZPopMax, hk, hlk, hf, Bool.not_true, Bool.false_eq_true,
            if_false]
          exact ih
        · simp only [ZSet.ZPopMax, hk, hlk, hf, Bool.not_true, Bool.false_eq_true,
            if_false]
          exact storeWF_zrem ih key ((t.zsl.node f).member)
    · have hk2 : z0.ZKeyExists key = false := by
        cases hq : z0.ZKeyExists key
        · rfl
        · exact absurd hq hk
      simp only [ZSet.ZPopMax, hk2, Bool.not_false, if_true]
      exact ih

/-! ## Whole-range index queries and score clamping -/

/-- `findRange key 0 (-1)` without reversal lists every member in
ascending order. -/
theorem findRange_all_asc {t : Zset} {L : List E} (hR : Represents t.zsl L)
    (key : String) :
    t.findRange key 0 (-1) false false =
      (List.range' 1 L.length).map (fun q => RItem.str (posMember L q)) := by
  rw [Zset.findRange]
  dsimp only
  rw [hR.length_eq]
  rw [show adjustRange 0 ((L.length : Int)) = 0 from by
    rw [adjustRange, if_neg (by omega)]]
  rcases Nat.eq_zero_or_pos L.length with h0 | hpos
  · rw [h0]
    rw [show adjustRange (-1) (((0 : Nat) : Int)) = 0 from by
      rw [adjustRange, if_pos (by omega), if_pos (by omega)]]
    rw [if_neg (by omega)]
    have hnode : t.getStartNode 0 false = none := by
      rw [Zset.getStartNode]
      rw [if_neg (show ¬(false = true) from by simp)]
      rw [if_neg (by omega)]
      rw [show ((0 : Int) + 1).toNat = 1 from by omega]
      exact getNodeByRank_none hR (Or.inr (by omega))
    rw [hnode]
    rw [show ((0 : Int) - 0 + 1).toNat = 1 from by omega]
    show ([] : List RItem) = (List.range' 1 0).map (fun q => RItem.str (posMember L q))
    simp
  · rw [show adjustRange (-1) ((L.length : Int)) = (L.length : Int) - 1 from by
      rw [adjustRange, if_pos (by omega), if_neg (by omega)]
      omega]
    rw [if_neg (by omega)]
    have hnode : t.getStartNode 0 false = some (posId L 1) := by
      rw [Zset.getStartNode]
      rw [if_neg (show ¬(false = true) from by simp)]
      rw [if_neg (by omega)]
      rw [show ((0 : Int) + 1).toNat = 1 from by omega]
      exact getNodeByRank_spec hR (by omega) (by omega)
    rw [hnode]
    rw [show ((L.length : Int) - 1 - 0 + 1).toNat = L.length from by omega]
    rw [fetchLoop_asc_spec hR L.length 1 (by omega) (by omega)]
    rw [show min (L.length + 1 - 1) L.length = L.length from by omega]

/-- `findRange key 0 (length - 1)` with reversal lists every member in
descending order. -/
theorem findRange_all_desc {t : Zset} {L : List E} (hR : Represents t.zsl L)
    (key : String) (hpos : 1 ≤ L.length) :
    t.findRange key 0 ((L.length : Int) - 1) true false =
      ((List.range' 1 L.length).map (fun q => RItem.str (posMember L q))).reverse := by
  rw [Zset.findRange]
  dsimp only
  rw [hR.length_eq]
  rw [show adjustRange 0 ((L.length : Int)) = 0 from by
    rw [adjustRange, if_neg (by omega)]]
  rw [show adjustRange ((L.length : Int) - 1) ((L.length : Int)) = (L.length : Int) - 1
      from by rw [adjustRange, if_neg (by omega)]]
  rw [if_neg (by omega)]
  have hnode : t.getStartNode 0 true = some (posId L L.length) := by
    rw [Zset.getStartNode]
    rw [if_pos rfl]
    rw [hR.length_eq]
    rw [if_neg (by omega)]
    rw [show ((L.length : Int) - 0).toNat = L.length from by omega]
    exact getNodeByRank_spec hR (by omega) (by omega)
  rw [hnode]
  rw [show ((L.length : Int) - 1 - 0 + 1).toNat = L.length from by omega]
  rw [fetchLoop_desc_spec hR L.length L.length (by omega) (by omega)]
  rw [show min L.length L.length = L.length from by omega]
  rw [show L.length + 1 - L.length = 1 from by omega]

/-- What `limitScores` computes on a represented nonempty skip list:
`min` is raised to the smallest present score, `max` is lowered to the
largest present score — and nothing else. -/
theorem limitScores_spec {z : Zskiplist} {L : List E} (hR : Represents z L)
    (hpos : 1 ≤ L.length) (mn mx : Score) :
    limitScores z mn mx = some
      ((if mn < posScore L 1 then posScore L 1 else mn),
       (if mx > posScore L L.length then posScore L L.length else mx)) := by
  have hf : ((z.node z.head).levelAt 0).forward = some (posId L 1) := by
    rw [hR.head_eq]
    exact ((slot0_at hR (p := 0) (by omega)).1 (by omega)).1
  have ht : z.tail = some (posId L L.length) := by
    have h9 := hR.tail_ok
    rw [if_neg (by omega)] at h9
    exact h9
  rw [limitScores, hf, ht]
  show some ((if mn < (z.node (posId L 1)).score then (z.node (posId L 1)).score else mn),
      (if mx > (z.node (posId L L.length)).score then (z.node (posId L L.length)).score
       else mx)) =
    some ((if mn < posScore L 1 then posScore L 1 else mn),
      (if mx > posScore L L.length then posScore L L.length else mx))
  rw [nodeAt_score hR hpos, nodeAt_score hR (le_refl L.length)]

/-! ## Claim theorems -/

/-- C1: on every skip-list state reachable through `insert` and `delete`
the span invariant holds: the list represents a sorted entry list, the
level-0 chain enumerates the entries in ascending rank order, and for
every real node (the `k`-th of the chain) the sum of the level-0 spans
on the path from the head sentinel up to and including that node equals
`k`, its 1-based ascending rank. -/
theorem c1_span_invariant (z : Zskiplist) (h : ZslReachable z) :
    ∃ L, Represents z L ∧ L.Pairwise eLt ∧
      chain0 z = (List.range' 1 L.length).map (posId L) ∧
      ∀ k, k ≤ L.length → sumSpans0 z k = k := by
  obtain ⟨L, hR⟩ := zslReachable_represents h
  exact ⟨L, hR, hR.sorted, chain0_spec hR, fun k hk => sumSpans0_eq hR hk⟩

theorem c1_span_invariant_witness :
    ∃ L, Represents ((newZSkipList.insert 1 "a" "v" 1).1.insert 2 "b" "w" 1).1 L ∧
      L.Pairwise eLt ∧
      chain0 ((newZSkipList.insert 1 "a" "v" 1).1.insert 2 "b" "w" 1).1 =
        (List.range' 1 L.length).map (posId L) ∧
      ∀ k, k ≤ L.length →
        sumSpans0 ((newZSkipList.insert 1 "a" "v" 1).1.insert 2 "b" "w" 1).1 k = k :=
  c1_span_invariant _
    (ZslReachable.ins _ 2 "b" "w" 1
      (ZslReachable.ins _ 1 "a" "v" 1 ZslReachable.base (by decide) (by decide)
        (by decide))
      (by decide) (by decide) (by decide))

/-- C2: for every reachable store, every key present and every member
present in that key's set, `ZRank + ZRevRank = ZCard - 1` (the member
check of the query is witnessed by `ZScore` reporting the member as
present). -/
theorem c2_rank_revrank (z : ZSet) (h : StoreReachable z) (key member : String)
    (hmem : (z.ZScore key member).1 = true) :
    z.ZRank key member + z.ZRevRank key member = (z.ZCard key : Int) - 1 := by
  have hW := storeReachable_wf h
  rcases hlk : z.records.lookup key with _ | t
  · simp [ZSet.ZScore, hlk] at hmem
  · rcases hlkm : t.records.lookup member with _ | nid
    · simp [ZSet.ZScore, hlk, hlkm] at hmem
    · obtain ⟨L, hR, hD, _⟩ := hW.2 key t hlk
      obtain ⟨e, he, hem, heid⟩ := hD.2.1 member nid hlkm
      obtain ⟨i, hi, hie⟩ := List.getElem_of_mem he
      have hns : (t.zsl.node nid).score = e.score := by
        rw [← heid]
        exact hR.node_score e he
      have hrank := getRank_le hR (t.zsl.node nid).score member
      have hcnt : countLtKey L (t.zsl.node nid).score member = i := by
        rw [hns, ← hem]
        have h9 := countLtKey_getElem hR.sorted hi
        rw [hie] at h9
        exact h9
      have hlt : t.zsl.getRank (t.zsl.node nid).score member < L.length := by omega
      have hcard : t.records.length = L.length := dir_length hD hR.members_nodup
      have hzl : t.zsl.length = L.length := hR.length_eq
      simp only [ZSet.ZRank, ZSet.ZRevRank, ZSet.ZCard, hlk, hlkm, Int.ofNat_eq_coe]
      omega

theorem c2_rank_revrank_witness :
    (stOne.ZScore "k" "a").1 = true ∧
    stOne.ZRank "k" "a" + stOne.ZRevRank "k" "a" = (stOne.ZCard "k" : Int) - 1 :=
  ⟨by decide, c2_rank_revrank stOne
    (StoreReachable.zadd _ "k" 1 "a" "v" 1 StoreReachable.base (by decide) (by decide))
    "k" "a" (by decide)⟩

/-- C5 amended: on every reachable skip list, when the represented entry
list is nonempty the tail points at the highest-ordered real node (a
real arena id, distinct from the head sentinel id 0); when it is empty
the tail is either nil (after a deletion emptied the list) or the head
sentinel (the freshly created list). -/
theorem c5_tail_amended (z : Zskiplist) (h : ZslReachable z) :
    ∃ L, Represents z L ∧
      (L ≠ [] → z.tail = some (posId L L.length) ∧ 0 < posId L L.length) ∧
      (L = [] → z.tail = none ∨ z.tail = some z.head) := by
  obtain ⟨L, hR⟩ := zslReachable_represents h
  refine ⟨L, hR, ?_, ?_⟩
  · intro hne
    have hpos : 1 ≤ L.length := List.length_pos.2 hne
    have ht := hR.tail_ok
    rw [if_neg (by omega)] at ht
    exact ⟨ht, posId_pos hR (by omega) (le_refl L.length)⟩
  · intro hnil
    have ht := hR.tail_ok
    rw [if_pos (by simp [hnil])] at ht
    rcases ht with ht | ht
    · exact Or.inl ht
    · right
      rw [hR.head_eq]
      exact ht

theorem c5_tail_amended_witness :
    ∃ L, Represents (newZSkipList.insert 1 "a" "v" 1).1 L ∧
      (L ≠ [] → (newZSkipList.insert 1 "a" "v" 1).1.tail = some (posId L L.length) ∧
        0 < posId L L.length) ∧
      (L = [] → (newZSkipList.insert 1 "a" "v" 1).1.tail = none ∨
        (newZSkipList.insert 1 "a" "v" 1).1.tail =
          some (newZSkipList.insert 1 "a" "v" 1).1.head) :=
  c5_tail_amended _
    (ZslReachable.ins _ 1 "a" "v" 1 ZslReachable.base (by decide) (by decide)
      (by decide))

/-- C10: for every reachable store and every key that exists but whose
set has been emptied (cardinality zero), `ZPopMin` and `ZPopMax` both
return the unchanged store, no node and a nil error. -/
theorem c10_pops_on_emptied (z : ZSet) (h : StoreReachable z) (key : String)
    (hk : z.ZKeyExists key = true) (hc : z.ZCard key = 0) :
    z.ZPopMin key = (z, none, none) ∧ z.ZPopMax key = (z, none, none) := by
  have hW := storeReachable_wf h
  rcases hlk : z.records.lookup key with _ | t
  · simp [ZSet.ZKeyExists, hlk] at hk
  · obtain ⟨L, hR, hD, htail⟩ := hW.2 key t hlk
    have hrec : t.records = [] := by
      simp only [ZSet.ZCard, hlk] at hc
      exact List.length_eq_zero.1 hc
    have hL : L = [] := (dir_nil hD).1 hrec
    subst hL
    have hfwd : ((t.zsl.node t.zsl.head).levelAt 0).forward = none := by
      have hnx : nextPos ([] : List E) 0 0 = none :=
        nextPos_eq_none (fun q2 hq1 hq2 => by simp only [List.length_nil] at hq2; omega)
      have hg := hR.head_levels 0 hR.lvl_pos
      rw [goodLevel, hnx] at hg
      rw [hR.head_eq]
      exact hg
    have ht0 : t.zsl.tail = none := htail rfl
    constructor
    · simp only [ZSet.ZPopMin, hk, hlk, hfwd, Bool.not_true, Bool.false_eq_true,
        if_false]
    · simp only [ZSet.ZPopMax, hk, hlk, ht0, Bool.not_true, Bool.false_eq_true,
        if_false]

theorem c10_pops_on_emptied_witness :
    stEmptied.ZPopMin "k" = (stEmptied, none, none) ∧
    stEmptied.ZPopMax "k" = (stEmptied, none, none) :=
  c10_pops_on_emptied stEmptied
    (StoreReachable.zrem _ "k" "a"
      (StoreReachable.zadd _ "k" 3 "a" "v" 2 StoreReachable.base (by decide)
        (by decide)))
    "k" (by decide) (by decide)

/-- C3 amended: on every reachable store, a score-range query whose
lower bound lies strictly above every present score of an existing,
nonempty key returns the EMPTY result (never the highest-scored member):
`limitScores` only raises `min` and only lowers `max`, so the interval
keeps its out-of-extent lower bound and the collection walks past every
node. -/
theorem c3_above_extent_empty_all_levels (z : ZSet) (h : StoreReachable z)
    (key : String) (mn mx : Score) (hle : mn ≤ mx) (hk : z.ZKeyExists key = true)
    (hab : ∀ t, z.records.lookup key = some t →
      t.records ≠ [] ∧ ∀ q ∈ t.records, (t.zsl.node q.2).score < mn) :
    z.ZScoreRange key mn mx = some [] := by
  have hW := storeReachable_wf h
  rcases hlk : z.records.lookup key with _ | t
  · simp [ZSet.ZKeyExists, hlk] at hk
  · obtain ⟨hne, habove⟩ := hab t hlk
    obtain ⟨L, hR, hD, _⟩ := hW.2 key t hlk
    have hLne : L ≠ [] := fun hcon => hne ((dir_nil hD).2 hcon)
    have hpos : 1 ≤ L.length := List.length_pos.2 hLne
    have hscores : ∀ e ∈ L, e.score < mn := by
      intro e he
      have hv := hD.2.2 e he
      have hmem := lookupA_mem hv
      have h9 := habove (e.member, e.id) hmem
      have h10 : (t.zsl.node e.id).score = e.score := hR.node_score e he
      have h12 : (t.zsl.node (e.member, e.id).2).score = e.score := h10
      rw [h12] at h9
      exact h9
    have hmn1 : ¬(mn < posScore L 1) := by
      have h9 : posScore L 1 < mn := by
        rw [posScore_succ (by omega : 0 < L.length)]
        exact hscores _ (List.getElem_mem _)
      exact lt_asymm h9
    have hcLt : countScoreLt L mn = L.length :=
      List.countP_eq_length.2 (fun e he => by simpa using hscores e he)
    simp only [ZSet.ZScoreRange, hlk]
    rw [if_neg (by simpa using not_lt.2 hle)]
    rw [limitScores_spec hR hpos mn mx]
    show some (collectElementsInRange t.zsl
        (if mn < posScore L 1 then posScore L 1 else mn)
        (if mx > posScore L L.length then posScore L L.length else mx)) = some []
    rw [if_neg hmn1]
    rw [collectElementsInRange_spec hR mn
      (if mx > posScore L L.length then posScore L L.length else mx)]
    rw [hcLt]
    rw [show countScoreLe L
        (if mx > posScore L L.length then posScore L L.length else mx) + 1 -
        (L.length + 1) = 0 from by
      have h9 := countScoreLe_le_length L
        (if mx > posScore L L.length then posScore L L.length else mx)
      omega]
    simp

theorem c3_above_extent_empty_all_levels_witness :
    (scenarioFive 1 1 1 1 1).ZScoreRange "k" 10 20 = some [] :=
  c3_above_extent_empty_all_levels _
    (StoreReachable.zadd _ "k" 5 "m5" "v5" 1
      (StoreReachable.zadd _ "k" 4 "m4" "v4" 1
        (StoreReachable.zadd _ "k" 3 "m3" "v3" 1
          (StoreReachable.zadd _ "k" 2 "m2" "v2" 1
            (StoreReachable.zadd _ "k" 1 "m1" "v1" 1 StoreReachable.base
              (by decide) (by decide))
            (by decide) (by decide))
          (by decide) (by decide))
        (by decide) (by decide))
      (by decide) (by decide))
    "k" 10 20 (by norm_num) (by decide)
    (fun t ht => by
      rw [← Option.some.inj ht]
      exact ⟨by decide, by decide⟩)

/-- C6 amended: on every reachable store with an existing key,
`ZRevRange(key, 0, -1)` returns the EMPTY slice (its start-greater-stop
guard fires before negative indices are normalized), while
`ZRange(key, 0, -1)` returns all members ascending and the exact reverse
sequence is produced by `ZRevRange(key, 0, ZCard(key) - 1)`. -/
theorem c6_ranges_amended (z : ZSet) (h : StoreReachable z) (key : String)
    (hk : z.ZKeyExists key = true) :
    z.ZRevRange key 0 (-1) = [] ∧
    z.ZRevRange key 0 ((z.ZCard key : Int) - 1) = (z.ZRange key 0 (-1)).reverse ∧
    ∃ t L, z.records.lookup key = some t ∧ Represents t.zsl L ∧
      z.ZRange key 0 (-1) =
        (List.range' 1 L.length).map (fun q => RItem.str (posMember L q)) := by
  have hW := storeReachable_wf h
  rcases hlk : z.records.lookup key with _ | t
  · simp [ZSet.ZKeyExists, hlk] at hk
  · obtain ⟨L, hR, hD, _⟩ := hW.2 key t hlk
    have hcard : z.ZCard key = L.length := by
      simp only [ZSet.ZCard, hlk]
      exact dir_length hD hR.members_nodup
    have hasc : z.ZRange key 0 (-1) =
        (List.range' 1 L.length).map (fun q => RItem.str (posMember L q)) := by
      simp only [ZSet.ZRange, hlk]
      exact findRange_all_asc hR key
    refine ⟨?_, ?_, t, L, rfl, hR, hasc⟩
    · rw [ZSet.ZRevRange, if_pos (by simp)]
    · rw [hcard]
      rcases Nat.eq_zero_or_pos L.length with h0 | hpos
      · rw [hasc, h0]
        rw [ZSet.ZRevRange, if_pos (by norm_num)]
        simp
      · rw [ZSet.ZRevRange]
        rw [if_neg (by
          rw [hk]
          simp only [Bool.not_true, Bool.false_or, decide_eq_true_eq]
          omega)]
        rw [hlk]
        show t.findRange key 0 ((L.length : Int) - 1) true false =
          (z.ZRange key 0 (-1)).reverse
        rw [findRange_all_desc hR key hpos, hasc]

theorem c6_ranges_amended_witness :
    stOne.ZRevRange "k" 0 (-1) = [] ∧
    stOne.ZRevRange "k" 0 ((stOne.ZCard "k" : Int) - 1) =
      (stOne.ZRange "k" 0 (-1)).reverse ∧
    ∃ t L, stOne.records.lookup "k" = some t ∧ Represents t.zsl L ∧
      stOne.ZRange "k" 0 (-1) =
        (List.range' 1 L.length).map (fun q => RItem.str (posMember L q)) :=
  c6_ranges_amended stOne
    (StoreReachable.zadd _ "k" 1 "a" "v" 1 StoreReachable.base (by decide) (by decide))
    "k" (by decide)

set_option maxHeartbeats 1600000 in
/-- C7: equal-score members are ranked by member identity ascending,
regardless of insertion order and of the random level draws: in a fresh
set, after adding ("a", 3.0) and ("b", 3.0) in either order,
`ZRank(key, "a") = 0` and `ZRank(key, "b") = 1`. -/
theorem c7_equal_score_tiebreak {ha hb : Nat} (h1a : 1 ≤ ha)
    (h2a : ha ≤ SkipListMaxLvl) (h1b : 1 ≤ hb) (h2b : hb ≤ SkipListMaxLvl) :
    (stTieAB ha hb).ZRank "k" "a" = 0 ∧ (stTieAB ha hb).ZRank "k" "b" = 1 ∧
    (stTieBA ha hb).ZRank "k" "a" = 0 ∧ (stTieBA ha hb).ZRank "k" "b" = 1 := by
  obtain ⟨hR1, hid1, hlen1⟩ := insert_represents (z := newZSkipList) (s := 3)
    (m := "a") represents_nil "v1" h1a h2a (fun e he => absurd he (List.not_mem_nil e))
  have hR1b : Represents (newZSkipList.insert 3 "a" "v1" ha).1 [⟨3, "a", 1, ha⟩] := hR1
  have hlen1b : (newZSkipList.insert 3 "a" "v1" ha).1.nodes.length = 2 := hlen1
  have hid1b : (newZSkipList.insert 3 "a" "v1" ha).2 = 1 := hid1
  obtain ⟨hR2, hid2, hlen2⟩ := insert_represents (s := 3) (m := "b") hR1b "v2" h1b h2b
    (by
      intro e he hcon
      have h9 : e = ⟨3, "a", 1, ha⟩ := by simpa using he
      rw [h9] at hcon
      have h10 : ("a" : String) = "b" := hcon
      exact absurd h10 (by decide))
  rw [hlen1b] at hR2
  have hR2b : Represents ((newZSkipList.insert 3 "a" "v1" ha).1.insert 3 "b" "v2" hb).1
      [⟨3, "a", 1, ha⟩, ⟨3, "b", 2, hb⟩] := hR2
  have hid2b : ((newZSkipList.insert 3 "a" "v1" ha).1.insert 3 "b" "v2" hb).2 = 2 := by
    rw [hid2, hlen1b]
  obtain ⟨hR1r, hid1r, hlen1r⟩ := insert_represents (z := newZSkipList) (s := 3)
    (m := "b") represents_nil "v2" h1b h2b (fun e he => absurd he (List.not_mem_nil e))
  have hR1rb : Represents (newZSkipList.insert 3 "b" "v2" hb).1 [⟨3, "b", 1, hb⟩] := hR1r
  have hlen1rb : (newZSkipList.insert 3 "b" "v2" hb).1.nodes.length = 2 := hlen1r
  have hid1rb : (newZSkipList.insert 3 "b" "v2" hb).2 = 1 := hid1r
  obtain ⟨hR2r, hid2r, hlen2r⟩ := insert_represents (s := 3) (m := "a") hR1rb "v1"
    h1a h2a
    (by
      intro e he hcon
      have h9 : e = ⟨3, "b", 1, hb⟩ := by simpa using he
      rw [h9] at hcon
      have h10 : ("b" : String) = "a" := hcon
      exact absurd h10 (by decide))
  rw [hlen1rb] at hR2r
  have hR2rb : Represents ((newZSkipList.insert 3 "b" "v2" hb).1.insert 3 "a" "v1" ha).1
      [⟨3, "a", 2, ha⟩, ⟨3, "b", 1, hb⟩] := hR2r
  have hid2rb : ((newZSkipList.insert 3 "b" "v2" hb).1.insert 3 "a" "v1" ha).2 = 2 := by
    rw [hid2r, hlen1rb]
  have hstAB : stTieAB ha hb = { records := [("k",
      { records := [("a", (newZSkipList.insert 3 "a" "v1" ha).2),
                    ("b", ((newZSkipList.insert 3 "a" "v1" ha).1.insert 3 "b" "v2" hb).2)],
        zsl := ((newZSkipList.insert 3 "a" "v1" ha).1.insert 3 "b" "v2" hb).1 })] } := rfl
  have hstBA : stTieBA ha hb = { records := [("k",
      { records := [("b", (newZSkipList.insert 3 "b" "v2" hb).2),
                    ("a", ((newZSkipList.insert 3 "b" "v2" hb).1.insert 3 "a" "v1" ha).2)],
        zsl := ((newZSkipList.insert 3 "b" "v2" hb).1.insert 3 "a" "v1" ha).1 })] } := rfl
  refine ⟨?_, ?_, ?_, ?_⟩
  · rw [hstAB]
    show Int.ofNat
        (((newZSkipList.insert 3 "a" "v1" ha).1.insert 3 "b" "v2" hb).1.getRank
          ((((newZSkipList.insert 3 "a" "v1" ha).1.insert 3 "b" "v2" hb).1.node
            ((newZSkipList.insert 3 "a" "v1" ha).2)).score) "a") = 0
    rw [hid1b]
    have hsc : ((((newZSkipList.insert 3 "a" "v1" ha).1.insert 3 "b" "v2" hb).1.node
        1).score) = 3 := hR2b.node_score ⟨3, "a", 1, ha⟩ (by simp)
    rw [hsc]
    have hnm : ∀ q, q ≤ countLtKey [⟨3, "a", 1, ha⟩, ⟨3, "b", 2, hb⟩] 3 "a" →
        posMember [⟨3, "a", 1, ha⟩, ⟨3, "b", 2, hb⟩] q ≠ "a" := by
      intro q hq
      have h0 : countLtKey [⟨3, "a", 1, ha⟩, ⟨3, "b", 2, hb⟩] 3 "a" = 0 := rfl
      have hq0 : q = 0 := by omega
      rw [hq0]
      show ("" : String) ≠ "a"
      decide
    rw [getRank_eq hR2b hnm]
    rfl
  · rw [hstAB]
    show Int.ofNat
        (((newZSkipList.insert 3 "a" "v1" ha).1.insert 3 "b" "v2" hb).1.getRank
          ((((newZSkipList.insert 3 "a" "v1" ha).1.insert 3 "b" "v2" hb).1.node
            (((newZSkipList.insert 3 "a" "v1" ha).1.insert 3 "b" "v2" hb).2)).score)
          "b") = 1
    rw [hid2b]
    have hsc : ((((newZSkipList.insert 3 "a" "v1" ha).1.insert 3 "b" "v2" hb).1.node
        2).score) = 3 := hR2b.node_score ⟨3, "b", 2, hb⟩ (by simp)
    rw [hsc]
    have hnm : ∀ q, q ≤ countLtKey [⟨3, "a", 1, ha⟩, ⟨3, "b", 2, hb⟩] 3 "b" →
        posMember [⟨3, "a", 1, ha⟩, ⟨3, "b", 2, hb⟩] q ≠ "b" := by
      intro q hq
      have h0 : countLtKey [⟨3, "a", 1, ha⟩, ⟨3, "b", 2, hb⟩] 3 "b" = 1 := rfl
      rcases (by omega : q = 0 ∨ q = 1) with hq0 | hq1
      · rw [hq0]
        show ("" : String) ≠ "b"
        decide
      · rw [hq1]
        show ("a" : String) ≠ "b"
        decide
    rw [getRank_eq hR2b hnm]
    rfl
  · rw [hstBA]
    show Int.ofNat
        (((newZSkipList.insert 3 "b" "v2" hb).1.insert 3 "a" "v1" ha).1.getRank
          ((((newZSkipList.insert 3 "b" "v2" hb).1.insert 3 "a" "v1" ha).1.node
            (((newZSkipList.insert 3 "b" "v2" hb).1.insert 3 "a" "v1" ha).2)).score)
          "a") = 0
    rw [hid2rb]
    have hsc : ((((newZSkipList.insert 3 "b" "v2" hb).1.insert 3 "a" "v1" ha).1.node
        2).score) = 3 := hR2rb.node_score ⟨3, "a", 2, ha⟩ (by simp)
    rw [hsc]
    have hnm : ∀ q, q ≤ countLtKey [⟨3, "a", 2, ha⟩, ⟨3, "b", 1, hb⟩] 3 "a" →
        posMember [⟨3, "a", 2, ha⟩, ⟨3, "b", 1, hb⟩] q ≠ "a" := by
      intro q hq
      have h0 : countLtKey [⟨3, "a", 2, ha⟩, ⟨3, "b", 1, hb⟩] 3 "a" = 0 := rfl
      have hq0 : q = 0 := by omega
      rw [hq0]
      show ("" : String) ≠ "a"
      decide
    rw [getRank_eq hR2rb hnm]
    rfl
  · rw [hstBA]
    show Int.ofNat
        (((newZSkipList.insert 3 "b" "v2" hb).1.insert 3 "a" "v1" ha).1.getRank
          ((((newZSkipList.insert 3 "b" "v2" hb).1.insert 3 "a" "v1" ha).1.node
            ((newZSkipList.insert 3 "b" "v2" hb).2)).score) "b") = 1
    rw [hid1rb]
    have hsc : ((((newZSkipList.insert 3 "b" "v2" hb).1.insert 3 "a" "v1" ha).1.node
        1).score) = 3 := hR2rb.node_score ⟨3, "b", 1, hb⟩ (by simp)
    rw [hsc]
    have hnm : ∀ q, q ≤ countLtKey [⟨3, "a", 2, ha⟩, ⟨3, "b", 1, hb⟩] 3 "b" →
        posMember [⟨3, "a", 2, ha⟩, ⟨3, "b", 1, hb⟩] q ≠ "b" := by
      intro q hq
      have h0 : countLtKey [⟨3, "a", 2, ha⟩, ⟨3, "b", 1, hb⟩] 3 "b" = 1 := rfl
      rcases (by omega : q = 0 ∨ q = 1) with hq0 | hq1
      · rw [hq0]
        show ("" : String) ≠ "b"
        decide
      · rw [hq1]
        show ("a" : String) ≠ "b"
        decide
    rw [getRank_eq hR2rb hnm]
    rfl

theorem c7_equal_score_tiebreak_witness :
    (stTieAB 2 2).ZRank "k" "a" = 0 ∧ (stTieAB 2 2).ZRank "k" "b" = 1 ∧
    (stTieBA 2 2).ZRank "k" "a" = 0 ∧ (stTieBA 2 2).ZRank "k" "b" = 1 :=
  c7_equal_score_tiebreak (by decide) (by decide) (by decide) (by decide)

/-- C9 amended: on every reachable store, every pair emitted by
`ZScoreRange` is a real present member with its real score,
unconditionally; the same holds for `ZRevScoreRange` whenever some
member's score lies at or below the requested `max` (without that
proviso the emit loop can start at the head sentinel, see the
counterexample). -/
theorem c9_pairs_amended (z : ZSet) (h : StoreReachable z) (key : String)
    (mn mx : Score) :
    (∀ r, z.ZScoreRange key mn mx = some r →
      ∀ p ∈ r, z.ZScore key p.1 = (true, p.2)) ∧
    (∀ t, z.records.lookup key = some t →
      (∃ q ∈ t.records, (t.zsl.node q.2).score ≤ mx) →
      ∀ r, z.ZRevScoreRange key mx mn = some r →
        ∀ p ∈ r, z.ZScore key p.1 = (true, p.2)) := by
  have hpair : ∀ t, z.records.lookup key = some t → ∀ L, Represents t.zsl L →
      DirConsistent t L → ∀ q, 1 ≤ q → q ≤ L.length →
      z.ZScore key (posMember L q) = (true, posScore L q) := by
    intro t hlk L hR hD q h1 h2
    obtain ⟨qq, rfl⟩ : ∃ w, q = w + 1 := ⟨q - 1, by omega⟩
    have hq : qq < L.length := by omega
    rw [posMember_succ hq, posScore_succ hq]
    have he : L[qq] ∈ L := List.getElem_mem hq
    have hv := hD.2.2 _ he
    simp only [ZSet.ZScore, hlk, hv]
    rw [hR.node_score _ he]
  constructor
  · intro r hr p hp
    rcases hlk : z.records.lookup key with _ | t
    · simp only [ZSet.ZScoreRange, hlk] at hr
      rw [← Option.some.inj hr] at hp
      cases hp
    · obtain ⟨L, hR, hD, _⟩ := (storeReachable_wf h).2 key t hlk
      simp only [ZSet.ZScoreRange, hlk] at hr
      by_cases hgt : mn > mx
      · rw [if_pos (by simpa using hgt)] at hr
        rw [← Option.some.inj hr] at hp
        cases hp
      · rw [if_neg (by simpa using hgt)] at hr
        rcases Nat.eq_zero_or_pos L.length with h0 | hpos
        · have hnx : nextPos L 0 0 = none :=
            nextPos_eq_none (fun q2 hq1 hq2 => by omega)
          have hf : ((t.zsl.node t.zsl.head).levelAt 0).forward = none := by
            have hg := hR.head_levels 0 hR.lvl_pos
            rw [goodLevel, hnx] at hg
            rw [hR.head_eq]
            exact hg
          rw [limitScores, hf] at hr
          simp at hr
        · rw [limitScores_spec hR hpos mn mx] at hr
          have hr2 : some (collectElementsInRange t.zsl
              (if mn < posScore L 1 then posScore L 1 else mn)
              (if mx > posScore L L.length then posScore L L.length else mx)) =
              some r := hr
          rw [← Option.some.inj hr2] at hp
          rw [collectElementsInRange_spec hR
            (if mn < posScore L 1 then posScore L 1 else mn)
            (if mx > posScore L L.length then posScore L L.length else mx)] at hp
          obtain ⟨q, hq, hpq⟩ := List.mem_map.1 hp
          rw [List.mem_range'_1] at hq
          rw [← hpq]
          show z.ZScore key (posMember L q) = (true, posScore L q)
          have h10 := countScoreLe_le_length L
            (if mx > posScore L L.length then posScore L L.length else mx)
          exact hpair t hlk L hR hD q (by omega) (by omega)
  · intro t hlk hex r hr p hp
    obtain ⟨L, hR, hD, _⟩ := (storeReachable_wf h).2 key t hlk
    simp only [ZSet.ZRevScoreRange, hlk] at hr
    by_cases hgt : mn > mx
    · rw [if_pos (by simpa using hgt)] at hr
      rw [← Option.some.inj hr] at hp
      cases hp
    · rw [if_neg (by simpa using hgt)] at hr
      obtain ⟨qr, hqr, hqs⟩ := hex
      obtain ⟨a0, b0⟩ := qr
      have hvq := lookupA_of_mem hD.1 hqr
      obtain ⟨e, he, hem, heid⟩ := hD.2.1 a0 b0 hvq
      have hesc : e.score ≤ mx := by
        have h10 : (t.zsl.node e.id).score = e.score := hR.node_score e he
        rw [heid] at h10
        have h11 : (t.zsl.node b0).score ≤ mx := hqs
        rw [h10] at h11
        exact h11
      have hpos : 1 ≤ L.length :=
        List.length_pos.2 (fun hcon => by rw [hcon] at he; cases he)
      obtain ⟨i, hi, hie⟩ := List.getElem_of_mem he
      have hiscore : posScore L (i + 1) = e.score := by rw [posScore_succ hi, hie]
      have hcle : 1 ≤ countScoreLe L
          (if mx > posScore L L.length then posScore L L.length else mx) := by
        by_cases hcase : mx > posScore L L.length
        · rw [if_pos hcase]
          have h12 := pos_score_mono hR.sorted (p := 1) (by omega) (by omega)
            (le_refl L.length)
          exact (pos_score_le_iff hR.sorted (q := 1) (by omega) (by omega)).1 h12
        · rw [if_neg hcase]
          have h12 : posScore L (i + 1) ≤ mx := by
            rw [hiscore]
            exact hesc
          have h13 := (pos_score_le_iff hR.sorted (q := i + 1) (by omega)
            (by omega)).1 h12
          omega
      rw [limitScores_spec hR hpos mn mx] at hr
      have hr2 : some (collectElementsInReverseRange t.zsl
          (if mx > posScore L L.length then posScore L L.length else mx)
          (if mn < posScore L 1 then posScore L 1 else mn)) = some r := hr
      rw [← Option.some.inj hr2] at hp
      rw [collectElementsInReverseRange_spec hR
        (if mx > posScore L L.length then posScore L L.length else mx)
        (if mn < posScore L 1 then posScore L 1 else mn) hcle] at hp
      rw [List.mem_reverse] at hp
      obtain ⟨q, hq, hpq⟩ := List.mem_map.1 hp
      rw [List.mem_range'_1] at hq
      rw [← hpq]
      show z.ZScore key (posMember L q) = (true, posScore L q)
      have h10 := countScoreLe_le_length L
        (if mx > posScore L L.length then posScore L L.length else mx)
      exact hpair t hlk L hR hD q (by omega) (by omega)

theorem c9_pairs_amended_witness :
    (∀ r, stNegPos.ZScoreRange "k" (-10) 3 = some r →
      ∀ p ∈ r, stNegPos.ZScore "k" p.1 = (true, p.2)) ∧
    (∀ t, stNegPos.records.lookup "k" = some t →
      (∃ q ∈ t.records, (t.zsl.node q.2).score ≤ 3) →
      ∀ r, stNegPos.ZRevScoreRange "k" 3 (-10) = some r →
        ∀ p ∈ r, stNegPos.ZScore "k" p.1 = (true, p.2)) :=
  c9_pairs_amended stNegPos
    (StoreReachable.zadd _ "k" 3 "b" "v" 1
      (StoreReachable.zadd _ "k" (-5) "a" "v" 1 StoreReachable.base (by decide)
        (by decide))
      (by decide) (by decide))
    "k" (-10) 3
